import Mathlib

/-!
# Verification of the `ogphelper` scheduling engine

A shallow embedding of the core of the `ogphelper` repository (Python) in Lean 4,
together with theorems settling the claims of the specification against the code.

Modelling conventions, used consistently below:

* Python `int` values that are provably nonnegative in the modelled code paths are
  embedded as `Nat`; counters that the code decrements (`SlotState` fields) are `Int`.
* Python `float` scores are embedded as `Rat` (exact arithmetic; IEEE rounding is not
  modelled — none of the claims hinge on float rounding).
* Python `dict`s appear in three ways: insertion-ordered association lists
  (`List (Nat × _)`) where iteration order matters, plain functions where the code
  guarantees the key is present, and `Option`-valued functions for `dict.get`.
* Python `set[JobRole]` becomes a Boolean membership function `JobRole → Bool`;
  where the code iterates over such a set (unspecified order in Python) we iterate
  in the declaration order of `JobRole`.
* Python `sorted`/`list.sort` are stable; `stableSortBy` below is a stable
  insertion sort, hence agrees with any stable sort.
* Associate ids (Python strings) are embedded as `Nat`; calendar dates as `Int`
  (ordinal day numbers, so `date + timedelta(days=1)` is `d + 1`).
-/

set_option maxHeartbeats 1000000

namespace OGP

/-- Ascending stable insertion: `x` goes after every element `y` with `le y x`. -/
def insertStable (le : α → α → Bool) (x : α) : List α → List α
  | [] => [x]
  | y :: ys => if le y x then y :: insertStable le x ys else x :: y :: ys

/-- Stable sort (matches Python's stable `sorted`/`list.sort` for the total
preorder `le`). -/
def stableSortBy (le : α → α → Bool) (l : List α) : List α :=
  l.foldl (fun acc x => insertStable le x acc) []

/-- `range(a, b)` for naturals. -/
def rangeList (a b : ℕ) : List ℕ := List.range' a (b - a)

/-- `range(a, b, step)` for naturals (`step ≥ 1` in all modelled call sites). -/
def rangeStep (a b step : ℕ) : List ℕ :=
  (List.range ((b - a + step - 1) / step)).map (fun i => a + i * step)

/-- Job roles (`JobRole` in `domain/models.py`), in declaration order. -/
inductive JobRole
  | picking
  | gmd_sm
  | exception_sm
  | staging
  | backroom
  | sr
  deriving DecidableEq, Repr

/-- Declaration order, used wherever Python iterates `for role in JobRole`. -/
def JobRole.all : List JobRole :=
  [.picking, .gmd_sm, .exception_sm, .staging, .backroom, .sr]

/-- Preference levels (`Preference` in `domain/models.py`). -/
inductive Preference
  | avoid
  | neutral
  | prefer
  deriving DecidableEq, Repr

/-- `Availability` (`domain/models.py`). -/
structure Availability where
  start_slot : ℕ
  end_slot : ℕ
  is_off : Bool := false
  deriving DecidableEq, Repr

/-- `Availability.off_day`. -/
def Availability.off_day : Availability := { start_slot := 0, end_slot := 0, is_off := true }

/-- `Availability.slot_count` (kept in `Int`: Python may return a negative count for a
malformed window). -/
def Availability.slot_count (a : Availability) : ℤ :=
  if a.is_off then 0 else (a.end_slot : ℤ) - a.start_slot

/-- `Associate` (`domain/models.py`).  The display name is omitted (never read by the
engine); role sets are Boolean membership functions; `availability` maps an ordinal
date to the window recorded for that date (`none` when the date is absent from the
Python dict). -/
structure Associate where
  id : ℕ
  availability : ℤ → Option Availability
  max_minutes_per_day : ℕ := 480
  max_minutes_per_week : ℕ := 2400
  supervisor_allowed_roles : JobRole → Bool := fun _ => true
  cannot_do_roles : JobRole → Bool := fun _ => false
  role_preferences : JobRole → Preference := fun _ => .neutral

/-- `Associate.get_availability`. -/
def Associate.get_availability (a : Associate) (d : ℤ) : Availability :=
  (a.availability d).getD Availability.off_day

/-- `Associate.can_do_role`. -/
def Associate.can_do_role (a : Associate) (r : JobRole) : Bool :=
  !(a.cannot_do_roles r) && a.supervisor_allowed_roles r

/-- `Associate.get_preference`. -/
def Associate.get_preference (a : Associate) (r : JobRole) : Preference :=
  a.role_preferences r

/-- `Associate.eligible_roles` as a membership function
(`supervisor_allowed_roles - cannot_do_roles`). -/
def Associate.eligible (a : Associate) (r : JobRole) : Bool :=
  a.supervisor_allowed_roles r && !(a.cannot_do_roles r)

/-- `Associate.eligible_roles` as a list (declaration order; the Python set has no
specified iteration order). -/
def Associate.eligibleList (a : Associate) : List JobRole :=
  JobRole.all.filter a.eligible

/-- `ScheduleBlock` (`domain/models.py`): half-open `[start_slot, end_slot)`. -/
structure ScheduleBlock where
  start_slot : ℕ
  end_slot : ℕ
  slot_minutes : ℕ := 15
  deriving DecidableEq, Repr

/-- `ScheduleBlock.duration_minutes`. -/
def ScheduleBlock.duration_minutes (b : ScheduleBlock) : ℕ :=
  (b.end_slot - b.start_slot) * b.slot_minutes

/-- `ScheduleBlock.slot_count`. -/
def ScheduleBlock.slot_count (b : ScheduleBlock) : ℕ := b.end_slot - b.start_slot

/-- `ScheduleBlock.contains_slot`. -/
def ScheduleBlock.contains_slot (b : ScheduleBlock) (s : ℕ) : Bool :=
  decide (b.start_slot ≤ s) && decide (s < b.end_slot)

/-- `ScheduleBlock.overlaps`. -/
def ScheduleBlock.overlaps (b o : ScheduleBlock) : Bool :=
  decide (b.start_slot < o.end_slot) && decide (o.start_slot < b.end_slot)

/-- `JobAssignment` (`domain/models.py`). -/
structure JobAssignment where
  role : JobRole
  block : ScheduleBlock
  deriving DecidableEq, Repr

/-- `ShiftAssignment` (`domain/models.py`). -/
structure ShiftAssignment where
  associate_id : ℕ
  schedule_date : ℤ
  shift_start_slot : ℕ
  shift_end_slot : ℕ
  lunch_block : Option ScheduleBlock := none
  break_blocks : List ScheduleBlock := []
  job_assignments : List JobAssignment := []
  slot_minutes : ℕ := 15
  deriving DecidableEq, Repr

/-- `ShiftAssignment.total_shift_minutes`. -/
def ShiftAssignment.total_shift_minutes (a : ShiftAssignment) : ℕ :=
  (a.shift_end_slot - a.shift_start_slot) * a.slot_minutes

/-- `ShiftAssignment.lunch_minutes`. -/
def ShiftAssignment.lunch_minutes (a : ShiftAssignment) : ℕ :=
  match a.lunch_block with
  | none => 0
  | some b => b.duration_minutes

/-- `ShiftAssignment.work_minutes` (total minus lunch; includes breaks). -/
def ShiftAssignment.work_minutes (a : ShiftAssignment) : ℕ :=
  a.total_shift_minutes - a.lunch_minutes

/-- `ShiftAssignment.shift_block`. -/
def ShiftAssignment.shift_block (a : ShiftAssignment) : ScheduleBlock :=
  { start_slot := a.shift_start_slot, end_slot := a.shift_end_slot,
    slot_minutes := a.slot_minutes }

/-- `ShiftAssignment.is_on_floor`. -/
def ShiftAssignment.is_on_floor (a : ShiftAssignment) (slot : ℕ) : Bool :=
  if !(a.shift_block.contains_slot slot) then false
  else if (a.lunch_block.map (fun b => b.contains_slot slot)).getD false then false
  else if a.break_blocks.any (fun b => b.contains_slot slot) then false
  else true

/-- `ShiftAssignment.get_role_at_slot` (first matching job assignment). -/
def ShiftAssignment.get_role_at_slot (a : ShiftAssignment) (slot : ℕ) : Option JobRole :=
  (a.job_assignments.find? (fun ja => ja.block.contains_slot slot)).map (fun ja => ja.role)

/-- Modelled from the spec: the repository's `SlotRangeCaps` class is referenced by
`heuristic_solver.py` (import, `request.slot_range_caps`, `contains_slot`, `get_cap`)
and by the tests, but its definition is not under `src/` (the `models.py` present
defines `time_based_job_caps` instead).  Per the spec, a time-based override supplies
per-role caps for a range of slots, falling back to the global per-role cap — here a
half-open slot range with per-role caps, `get_cap` defaulting to the 999 "unbounded"
sentinel. -/
structure SlotRangeCaps where
  start_slot : ℕ
  end_slot : ℕ
  caps : JobRole → Option ℕ

/-- Modelled from the spec: `SlotRangeCaps.contains_slot`. -/
def SlotRangeCaps.contains_slot (c : SlotRangeCaps) (s : ℕ) : Bool :=
  decide (c.start_slot ≤ s) && decide (s < c.end_slot)

/-- Modelled from the spec: `SlotRangeCaps.get_cap`. -/
def SlotRangeCaps.get_cap (c : SlotRangeCaps) (r : JobRole) : ℕ :=
  (c.caps r).getD 999

/-- `ShiftBlockType` (`domain/models.py`). -/
inductive ShiftBlockType
  | morning
  | day
  | closing
  deriving DecidableEq, Repr

/-- `ShiftBlockConfig` (`domain/models.py`). -/
structure ShiftBlockConfig where
  block_type : ShiftBlockType
  start_slot : ℕ
  end_slot : ℕ
  min_associates : ℕ := 0
  max_associates : ℕ := 999
  target_associates : Option ℕ := none
  deriving DecidableEq, Repr

/-- `ShiftBlockConfig.contains_slot`. -/
def ShiftBlockConfig.contains_slot (b : ShiftBlockConfig) (s : ℕ) : Bool :=
  decide (b.start_slot ≤ s) && decide (s < b.end_slot)

/-- `ShiftStartConfig` (`domain/models.py`; label omitted, `max_count = none` means
the `__post_init__` default `target_count` was not yet applied — the solver checks
`is not None` before using it, which we mirror). -/
structure ShiftStartConfig where
  start_slot : ℕ
  target_count : ℕ
  min_count : ℕ := 0
  max_count : Option ℕ := none
  deriving DecidableEq, Repr

/-- `ScheduleRequest` (`domain/models.py`), extended with the `slot_range_caps` field
read by `heuristic_solver.py` (see `SlotRangeCaps`). -/
structure ScheduleRequest where
  schedule_date : ℤ
  associates : List Associate
  day_start_minutes : ℕ := 300
  day_end_minutes : ℕ := 1320
  slot_minutes : ℕ := 15
  job_caps : JobRole → Option ℕ
  time_based_job_caps : Option (ℕ → Option (JobRole → Option ℕ)) := none
  is_busy_day : Bool := false
  shift_block_configs : Option (List ShiftBlockConfig) := none
  shift_start_configs : Option (List ShiftStartConfig) := none
  slot_range_caps : Option (List SlotRangeCaps) := none

/-- The default `job_caps` dict of `ScheduleRequest`. -/
def defaultJobCaps : JobRole → Option ℕ := fun r =>
  match r with
  | .picking => some 999
  | .gmd_sm => some 2
  | .exception_sm => some 2
  | .staging => some 2
  | .backroom => some 8
  | .sr => some 2

/-- `ScheduleRequest.get_job_cap`: time-based caps first, then global caps, then 999.
(A `None`/empty time-based dict is falsy in Python; `none` here covers both, an empty
dict corresponding to the everywhere-`none` function.) -/
def ScheduleRequest.get_job_cap (req : ScheduleRequest) (slot : ℕ) (role : JobRole) : ℕ :=
  match req.time_based_job_caps with
  | some tb =>
      match tb slot with
      | some slot_caps =>
          match slot_caps role with
          | some c => c
          | none => (req.job_caps role).getD 999
      | none => (req.job_caps role).getD 999
  | none => (req.job_caps role).getD 999

/-- `ScheduleRequest.total_slots`. -/
def ScheduleRequest.total_slots (req : ScheduleRequest) : ℕ :=
  (req.day_end_minutes - req.day_start_minutes) / req.slot_minutes

/-- `DaySchedule` (`domain/models.py`); `assignments` is the insertion-ordered dict
`associate_id → ShiftAssignment`. -/
structure DaySchedule where
  schedule_date : ℤ
  assignments : List (ℕ × ShiftAssignment) := []
  slot_minutes : ℕ := 15
  day_start_minutes : ℕ := 300
  day_end_minutes : ℕ := 1320
  deriving Repr

/-- `DaySchedule.total_slots`. -/
def DaySchedule.total_slots (s : DaySchedule) : ℕ :=
  (s.day_end_minutes - s.day_start_minutes) / s.slot_minutes

/-- `DaySchedule.get_coverage_at_slot`. -/
def DaySchedule.get_coverage_at_slot (s : DaySchedule) (slot : ℕ) : ℕ :=
  (s.assignments.filter (fun p => p.2.is_on_floor slot)).length

/-- `DaySchedule.get_role_coverage_at_slot`. -/
def DaySchedule.get_role_coverage_at_slot (s : DaySchedule) (slot : ℕ) (role : JobRole) : ℕ :=
  (s.assignments.filter
    (fun p => p.2.is_on_floor slot && p.2.get_role_at_slot slot == some role)).length

/-- `DaySchedule.get_coverage_timeline`. -/
def DaySchedule.get_coverage_timeline (s : DaySchedule) : List ℕ :=
  (List.range s.total_slots).map s.get_coverage_at_slot

/-- `get_role_coverage_at_slot` on a raw assignment list (the same filter, before the
list is wrapped in a `DaySchedule`); used to track coverage through the solver's
per-candidate fold. -/
def countRoleAt (assignments : List (ℕ × ShiftAssignment)) (slot : ℕ)
    (role : JobRole) : ℕ :=
  (assignments.filter
    (fun p => p.2.is_on_floor slot && p.2.get_role_at_slot slot == some role)).length

/-! ## Policies (`domain/policies.py`, default implementations) -/

/-- `DefaultShiftPolicy.min_work_minutes`. -/
def minWorkMinutes : ℕ := 240

/-- `DefaultShiftPolicy.max_work_minutes`. -/
def maxWorkMinutes : ℕ := 480

/-- `DefaultLunchPolicy.get_lunch_duration`. -/
def lunchDuration (work_minutes : ℕ) : ℕ :=
  if work_minutes < 360 then 0
  else if work_minutes < 390 then 30
  else 60

/-- `DefaultLunchPolicy.get_lunch_window`: the inclusive `[earliest, latest]` window of
feasible lunch starts.  (Python computes with signed ints and clamps through
`max`/`min`; with `Nat` truncated subtraction every `max`/`min` here yields the same
value, since a negative Python intermediate is always dominated by a nonnegative
alternative.) -/
def lunchWindow (shift_start shift_end lunch_slots : ℕ) (is_busy : Bool)
    (slot_minutes : ℕ) : ℕ × ℕ :=
  if lunch_slots = 0 then (0, 0)
  else
    let shift_length := shift_end - shift_start
    let mid_point := shift_start + shift_length / 2
    let target_start := mid_point - lunch_slots / 2
    let window_minutes := if is_busy then 60 else 30
    let window_slots := window_minutes / slot_minutes
    let earliest := max (shift_start + 4) (target_start - window_slots)
    let latest := min (shift_end - lunch_slots - 4) (target_start + window_slots)
    let earliest := max shift_start earliest
    let latest := max earliest latest
    (earliest, latest)

/-- `DefaultBreakPolicy.get_break_count`. -/
def breakCount (work_minutes : ℕ) : ℕ :=
  if work_minutes ≥ 420 then 2
  else if work_minutes ≥ 300 then 1
  else 0

/-- `DefaultBreakPolicy.break_duration` (minutes). -/
def breakDurationMinutes : ℕ := 15

/-- `DefaultBreakPolicy.max_break_variance_slots`. -/
def maxBreakVarianceSlots : ℕ := 2

/-- `DefaultBreakPolicy.min_gap_from_lunch_slots`. -/
def minGapFromLunchSlots : ℕ := 2

/-- `DefaultBreakPolicy.get_break_target_positions`.  The lunch bounds are passed
together (`_place_breaks` always passes both or neither). -/
def breakTargets (work_start work_end break_count : ℕ) (lunch : Option (ℕ × ℕ))
    (slot_minutes : ℕ) : List ℕ :=
  if break_count = 0 then []
  else
    let break_slots := breakDurationMinutes / slot_minutes
    let work_length := work_end - work_start
    let targets : List ℕ :=
      if break_count = 1 then
        match lunch with
        | some (ls, le) =>
            let segment1 := ls - work_start
            let segment2 := work_end - le
            if segment1 ≥ segment2 then [work_start + segment1 / 2]
            else [le + segment2 / 2]
        | none => [work_start + work_length / 2]
      else if break_count = 2 then
        match lunch with
        | some (ls, le) =>
            let segment1 := ls - work_start
            let segment2 := work_end - le
            [work_start + segment1 / 2, le + segment2 / 2]
        | none =>
            [work_start + work_length / 3, work_start + (2 * work_length) / 3]
      else []
    targets.map (fun t =>
      let t :=
        match lunch with
        | some (ls, le) =>
            if ls ≤ t ∧ t < le then
              if t - work_start < work_end - t then ls - break_slots - minGapFromLunchSlots
              else le + minGapFromLunchSlots
            else t
        | none => t
      let t := max work_start t
      min (work_end - break_slots) t)

/-! ## Candidate generator (`scheduling/candidate_generator.py`) -/

/-- `ShiftCandidate`. -/
structure ShiftCandidate where
  associate_id : ℕ
  start_slot : ℕ
  end_slot : ℕ
  work_minutes : ℕ
  lunch_slots : ℕ
  break_count : ℕ
  slot_minutes : ℕ := 15
  deriving DecidableEq, Repr

/-- `CandidateGenerator.generate_candidates` (with the default policies). -/
def generateCandidates (a : Associate) (req : ScheduleRequest) (step_slots : ℕ) :
    List ShiftCandidate :=
  let availability := a.get_availability req.schedule_date
  if availability.is_off then []
  else
    let slot_minutes := req.slot_minutes
    let min_work_slots := minWorkMinutes / slot_minutes
    let max_work_slots := maxWorkMinutes / slot_minutes
    let day_slots := req.total_slots
    let avail_start := max 0 availability.start_slot
    let avail_end := min day_slots availability.end_slot
    if avail_end - avail_start < min_work_slots then []
    else
      (rangeStep avail_start avail_end step_slots).flatMap fun start_slot =>
        (rangeStep min_work_slots (max_work_slots + 1) step_slots).filterMap fun work_slots =>
          let work_minutes := work_slots * slot_minutes
          if work_minutes > a.max_minutes_per_day then none
          else
            let lunch_minutes := lunchDuration work_minutes
            let lunch_slots := lunch_minutes / slot_minutes
            let total_slots := work_slots + lunch_slots
            let end_slot := start_slot + total_slots
            if end_slot > avail_end then none
            else if end_slot > day_slots then none
            else
              some { associate_id := a.id, start_slot := start_slot, end_slot := end_slot,
                     work_minutes := work_minutes, lunch_slots := lunch_slots,
                     break_count := breakCount work_minutes, slot_minutes := slot_minutes }

/-- `CandidateGenerator.generate_all_candidates`: candidates per associate, keeping
only associates with a nonempty list, in request order (the Python dict is
insertion-ordered; duplicate ids — excluded by the data-model invariant — would
overwrite). -/
def generateAllCandidates (req : ScheduleRequest) (step_slots : ℕ) :
    List (ℕ × List ShiftCandidate) :=
  req.associates.filterMap fun a =>
    let cs := generateCandidates a req step_slots
    if cs.isEmpty then none else some (a.id, cs)

/-! ## Heuristic solver (`scheduling/heuristic_solver.py`) -/

/-- `SlotState`.  Counters are `Int`: the solver decrements `on_floor_count` when
placing lunches and breaks. -/
structure SlotState where
  on_floor_count : ℤ := 0
  on_lunch_count : ℤ := 0
  on_break_count : ℤ := 0
  lunch_start_count : ℤ := 0
  role_counts : JobRole → ℤ := fun _ => 0

/-- The per-day array `slot_states` as a function (all pipeline accesses are within
`[0, total_slots)`, so out-of-range Python `IndexError`s never arise). -/
def SlotStates := ℕ → SlotState

/-- The fresh slot state (`SlotState()` with all counters zero). -/
def initialSlotStates : SlotStates := fun _ => {}

/-- Increment/decrement a field over a half-open slot range. -/
def bumpRange (st : SlotStates) (a b : ℕ) (f : SlotState → SlotState) : SlotStates :=
  fun s => if a ≤ s ∧ s < b then f (st s) else st s

/-- `slot_states[slot].on_floor_count += 1` (shift selection). -/
def floorBump : SlotState → SlotState :=
  fun ss => { ss with on_floor_count := ss.on_floor_count + 1 }

/-- Lunch placement: `on_lunch_count += 1; on_floor_count -= 1`. -/
def lunchBump : SlotState → SlotState :=
  fun ss => { ss with on_lunch_count := ss.on_lunch_count + 1,
                      on_floor_count := ss.on_floor_count - 1 }

/-- Break placement: `on_break_count += 1; on_floor_count -= 1`. -/
def breakBump : SlotState → SlotState :=
  fun ss => { ss with on_break_count := ss.on_break_count + 1,
                      on_floor_count := ss.on_floor_count - 1 }

/-- Role assignment: `role_counts[role] += 1`. -/
def roleBump (r : JobRole) : SlotState → SlotState :=
  fun ss => { ss with role_counts := fun ro =>
    if ro = r then ss.role_counts ro + 1 else ss.role_counts ro }

/-- `slot_states[lunch_block.start_slot].lunch_start_count += 1`. -/
def lunchStartBump (st : SlotStates) (i : ℕ) : SlotStates :=
  fun s => if s = i then
    { st s with lunch_start_count := (st s).lunch_start_count + 1 }
  else st s

/-- The `block_by_slot` dict of `_select_shifts`: it is filled block by block, so for
a slot covered by several blocks the *last* block in the list wins. -/
def blockBySlot (blocks : List ShiftBlockConfig) (slot : ℕ) : Option ShiftBlockConfig :=
  blocks.reverse.find? (fun b => b.contains_slot slot)

/-- The `start_config_by_slot` dict of `_select_shifts` (last config with a given
`start_slot` wins). -/
def startConfigBySlot (cfgs : List ShiftStartConfig) (slot : ℕ) : Option ShiftStartConfig :=
  cfgs.reverse.find? (fun c => c.start_slot == slot)

/-- `HeuristicSolver._score_shift`. -/
def scoreShift (c : ShiftCandidate) (states : SlotStates) : ℚ :=
  ((rangeList c.start_slot c.end_slot).map fun slot =>
    let current_coverage := (states slot).on_floor_count
    if current_coverage = 0 then (10 : ℚ)
    else if current_coverage < 3 then 5
    else if current_coverage < 5 then 2
    else 1).sum
  + (c.work_minutes : ℚ) / 100

/-- Python truthiness of an optional list (`None` and `[]` are both falsy). -/
def optTruthy : Option (List α) → Bool
  | none => false
  | some l => !l.isEmpty

/-- The score `_select_shifts` gives a candidate: the base shift score plus the
shift-block and start-time target bonuses. -/
def selectScore (blocks_on starts_on : Bool) (block_list : List ShiftBlockConfig)
    (start_list : List ShiftStartConfig) (blockState : ShiftBlockType → ℕ)
    (startState : ℕ → ℕ) (states : SlotStates) (candidate : ShiftCandidate) : ℚ :=
  let score := scoreShift candidate states
  let score := if blocks_on then
      match blockBySlot block_list candidate.start_slot with
      | some block =>
          match block.target_associates with
          | some tgt =>
              if blockState block.block_type < tgt then
                score + 5 * ((tgt - blockState block.block_type : ℕ) : ℚ)
              else score
          | none => score
      | none => score
    else score
  let score := if starts_on then
      match startConfigBySlot start_list candidate.start_slot with
      | some cfg =>
          if startState candidate.start_slot < cfg.target_count then
            score + 10 * ((cfg.target_count - startState candidate.start_slot : ℕ) : ℚ)
          else score
      | none => score
    else score
  score

/-- The inner scan of `_select_shifts` over one associate's candidates: skip
candidates blocked by the shift-block / start-time capacity limits, otherwise score
them and keep the strict maximum (first best wins). -/
def selectInner (blocks_on starts_on : Bool) (block_list : List ShiftBlockConfig)
    (start_list : List ShiftStartConfig) (blockState : ShiftBlockType → ℕ)
    (startState : ℕ → ℕ) (states : SlotStates)
    (best : Option (ShiftCandidate × ℚ)) (candidate : ShiftCandidate) :
    Option (ShiftCandidate × ℚ) :=
  -- shift block capacity limit
  if blocks_on && (match blockBySlot block_list candidate.start_slot with
      | some block => decide (blockState block.block_type ≥ block.max_associates)
      | none => false) then best
  -- shift start time capacity limit
  else if starts_on && (match startConfigBySlot start_list candidate.start_slot with
      | some cfg =>
          match cfg.max_count with
          | some mx => decide (startState candidate.start_slot ≥ mx)
          | none => false
      | none => false) then best
  else
    match best with
    | none => some (candidate,
        selectScore blocks_on starts_on block_list start_list blockState startState
          states candidate)
    | some (_, best_score) =>
        if selectScore blocks_on starts_on block_list start_list blockState startState
            states candidate > best_score then
          some (candidate,
            selectScore blocks_on starts_on block_list start_list blockState startState
              states candidate)
        else best

/-- The per-associate body of `HeuristicSolver._select_shifts`: pick the best-scoring
candidate of one associate (if any passes the capacity limits) and register it. -/
def selectStep (blocks_on starts_on : Bool) (block_list : List ShiftBlockConfig)
    (start_list : List ShiftStartConfig)
    (acc : List ShiftCandidate × SlotStates × (ShiftBlockType → ℕ) × (ℕ → ℕ))
    (pair : ℕ × List ShiftCandidate) :
    List ShiftCandidate × SlotStates × (ShiftBlockType → ℕ) × (ℕ → ℕ) :=
  let (selected, states, blockState, startState) := acc
  let assoc_candidates := pair.2
  if assoc_candidates.isEmpty then acc
  else
    let best := List.foldl
      (selectInner blocks_on starts_on block_list start_list blockState startState states)
      (none : Option (ShiftCandidate × ℚ)) assoc_candidates
    match best with
    | none => acc
    | some (bc, _) =>
        let states := bumpRange states bc.start_slot bc.end_slot floorBump
        let blockState := if blocks_on then
            match blockBySlot block_list bc.start_slot with
            | some block =>
                fun t => if t = block.block_type then blockState t + 1 else blockState t
            | none => blockState
          else blockState
        let startState := if starts_on then
            fun s => if s = bc.start_slot then startState s + 1 else startState s
          else startState
        (selected ++ [bc], states, blockState, startState)

/-- `HeuristicSolver._select_shifts`.  Returns the selected candidates together with
the updated slot states, shift-block counts and start-slot counts. -/
def selectShifts (candidates : List (ℕ × List ShiftCandidate)) (states0 : SlotStates)
    (shift_block_configs : Option (List ShiftBlockConfig))
    (shift_start_configs : Option (List ShiftStartConfig)) :
    List ShiftCandidate × SlotStates × (ShiftBlockType → ℕ) × (ℕ → ℕ) :=
  let blocks_on := optTruthy shift_block_configs
  let starts_on := optTruthy shift_start_configs
  let block_list := shift_block_configs.getD []
  let start_list := shift_start_configs.getD []
  -- `sorted(candidates.keys(), key=lambda a: len(candidates[a]))` — stable ascending
  let sorted_assoc := stableSortBy (fun p q => decide (p.2.length ≤ q.2.length)) candidates
  List.foldl (selectStep blocks_on starts_on block_list start_list)
    (([] : List ShiftCandidate), states0,
      (fun _ => 0 : ShiftBlockType → ℕ), (fun _ => 0 : ℕ → ℕ))
    sorted_assoc

/-- The lunch target slot of `_place_lunch` (and of `get_lunch_window`): the shift
midpoint shifted back half a lunch. -/
def lunchTarget (c : ShiftCandidate) : ℕ :=
  c.start_slot + (c.end_slot - c.start_slot) / 2 - c.lunch_slots / 2

/-- The start of `_place_lunch`'s scan: the target when the shift starts before the
early-lunch cutoff, else the window's earliest slot. -/
def lunchLoopStart (c : ShiftCandidate) (is_busy_day : Bool)
    (day_start_minutes : ℕ) : ℕ :=
  let early_cutoff_slot := (480 - day_start_minutes) / c.slot_minutes
  if c.start_slot < early_cutoff_slot then lunchTarget c
  else (lunchWindow c.start_slot c.end_slot c.lunch_slots is_busy_day c.slot_minutes).1

/-- The candidate lunch start slots `_place_lunch` scans (the Python `break` on
`end > candidate.end_slot` is a `takeWhile`: the condition is monotone in the loop
variable). -/
def lunchPositions (c : ShiftCandidate) (is_busy_day : Bool)
    (day_start_minutes : ℕ) : List ℕ :=
  (rangeList (lunchLoopStart c is_busy_day day_start_minutes)
      ((lunchWindow c.start_slot c.end_slot c.lunch_slots is_busy_day
        c.slot_minutes).2 + 1)).takeWhile
    (fun s => s + c.lunch_slots ≤ c.end_slot)

/-- The staggering score `_place_lunch` gives to a candidate lunch start. -/
def lunchScore (states : SlotStates) (target lunch_slots : ℕ) (s : ℕ) : ℚ :=
  let lunches_starting_here := (states s).lunch_start_count
  let start_score : ℚ := -(lunches_starting_here : ℚ) * 100
  let overlap_count : ℤ :=
    ((rangeList s (s + lunch_slots)).map (fun slot => (states slot).on_lunch_count)).sum
  let overlap_score : ℚ := -(overlap_count : ℚ) * 1
  let distance_from_target := ((s : ℤ) - target).natAbs
  let distance_score : ℚ := -(distance_from_target : ℚ) * (1 / 2)
  start_score + overlap_score + distance_score

/-- The running-argmax step shared by the scoring scans (first best kept under
strict `>` against the running best, initialised to `-inf`, i.e. `none`). -/
def bestStep (g : ℕ → ℚ) (acc : ℕ × Option ℚ) (s : ℕ) : ℕ × Option ℚ :=
  match acc.2 with
  | none => (s, some (g s))
  | some b => if g s > b then (s, some (g s)) else acc

/-- `HeuristicSolver._place_lunch`.  (The early cutoff `(480 - day_start)//slot_minutes`
can be negative in Python; the `Nat`-truncated value yields the same Boolean
`start_slot < cutoff` since slots are nonnegative.) -/
def placeLunch (c : ShiftCandidate) (states : SlotStates) (is_busy_day : Bool)
    (day_start_minutes : ℕ) : ScheduleBlock :=
  let best := List.foldl (bestStep (lunchScore states (lunchTarget c) c.lunch_slots))
    (lunchLoopStart c is_busy_day day_start_minutes, (none : Option ℚ))
    (lunchPositions c is_busy_day day_start_minutes)
  { start_slot := best.1, end_slot := best.1 + c.lunch_slots,
    slot_minutes := c.slot_minutes }

/-- The score `_find_best_break_position` gives a candidate break start. -/
def breakScore (states : SlotStates) (start endPos : ℕ) (offset : ℤ) : ℚ :=
  ((rangeList start endPos).map fun s =>
    ((states s).on_floor_count : ℚ) * (1 / 10)
      - ((states s).on_break_count : ℚ) * 5).sum
  - (offset.natAbs : ℚ) * 2

/-- One offset of the `_find_best_break_position` scan: skip positions out of the
shift or conflicting with `used_slots`, else keep the strict maximum. -/
def breakPosStep (break_slots shift_start shift_end : ℕ) (used_slots : List ℕ)
    (states : SlotStates) (target search_radius : ℕ) (acc : ℕ × Option ℚ) (i : ℕ) :
    ℕ × Option ℚ :=
  let offset : ℤ := (i : ℤ) - search_radius
  let startZ : ℤ := (target : ℤ) + offset
  if startZ < (shift_start : ℤ) then acc
  else
    let start := startZ.toNat
    let endPos := start + break_slots
    if endPos > shift_end then acc
    else if (rangeList start endPos).any (fun s => used_slots.contains s) then acc
    else
      match acc.2 with
      | none => (start, some (breakScore states start endPos offset))
      | some b =>
          if breakScore states start endPos offset > b then
            (start, some (breakScore states start endPos offset))
          else acc

/-- `HeuristicSolver._find_best_break_position` (offsets scanned from `-radius` to
`+radius` in order; positions out of the shift or conflicting with `used_slots` are
skipped; first best kept under strict `>`; the target itself is the fallback). -/
def findBestBreakPosition (target break_slots shift_start shift_end : ℕ)
    (used_slots : List ℕ) (states : SlotStates) (search_radius : ℕ) : ℕ :=
  (List.foldl (breakPosStep break_slots shift_start shift_end used_slots states
      target search_radius)
    (target, (none : Option ℚ)) (List.range (2 * search_radius + 1))).1

/-- A valid break start: inside the shift, conflict-free with the used slots, and
within the search radius of the target. -/
def BreakPosOK (break_slots shift_start shift_end : ℕ) (used_slots : List ℕ)
    (target search_radius r : ℕ) : Prop :=
  shift_start ≤ r ∧ r + break_slots ≤ shift_end ∧
  (rangeList r (r + break_slots)).any (fun s => used_slots.contains s) = false ∧
  target - search_radius ≤ r ∧ r ≤ target + search_radius

/-- One target of `_place_breaks`: place the break at the best position and mark its
slots used. -/
def placeBreakStep (c : ShiftCandidate) (states : SlotStates) (break_slots : ℕ)
    (acc : List ScheduleBlock × List ℕ) (target : ℕ) :
    List ScheduleBlock × List ℕ :=
  let best_start := findBestBreakPosition target break_slots c.start_slot c.end_slot
    acc.2 states maxBreakVarianceSlots
  (acc.1 ++ [{ start_slot := best_start, end_slot := best_start + break_slots,
               slot_minutes := c.slot_minutes }],
   acc.2 ++ rangeList best_start (best_start + break_slots))

/-- `HeuristicSolver._place_breaks`. -/
def placeBreaks (c : ShiftCandidate) (lunch_block : Option ScheduleBlock)
    (states : SlotStates) : List ScheduleBlock :=
  let break_slots := breakDurationMinutes / c.slot_minutes
  let lunch := lunch_block.map (fun b => (b.start_slot, b.end_slot))
  let targets := breakTargets c.start_slot c.end_slot c.break_count lunch c.slot_minutes
  let used0 : List ℕ :=
    match lunch_block with
    | some b => rangeList b.start_slot b.end_slot
    | none => []
  (List.foldl (placeBreakStep c states break_slots) (([] : List ScheduleBlock), used0)
    targets).1

/-- The `(start, end)` pairs of the lunch and break blocks of an assignment (the
`off_blocks` list of `_get_work_periods`, before sorting). -/
def offBlocks (asg : ShiftAssignment) : List (ℕ × ℕ) :=
  (match asg.lunch_block with
   | some b => [(b.start_slot, b.end_slot)]
   | none => [])
  ++ asg.break_blocks.map (fun b => (b.start_slot, b.end_slot))

/-- One step of the `_get_work_periods` sweep: close the current work period at the
off block's start (if nonempty) and resume after it. -/
def workPeriodStep (sm : ℕ) (acc : List ScheduleBlock × ℕ) (ob : ℕ × ℕ) :
    List ScheduleBlock × ℕ :=
  (if acc.2 < ob.1 then
    acc.1 ++ [{ start_slot := acc.2, end_slot := ob.1, slot_minutes := sm }]
  else acc.1, ob.2)

/-- `HeuristicSolver._get_work_periods` (off-blocks sorted as Python sorts tuples:
lexicographically). -/
def getWorkPeriods (c : ShiftCandidate) (asg : ShiftAssignment) : List ScheduleBlock :=
  let off_blocks := stableSortBy
    (fun p q => decide (p.1 < q.1) || (p.1 == q.1 && decide (p.2 ≤ q.2)))
    (offBlocks asg)
  let step := List.foldl (workPeriodStep c.slot_minutes)
    (([] : List ScheduleBlock), c.start_slot) off_blocks
  if step.2 < c.end_slot then
    step.1 ++ [{ start_slot := step.2, end_slot := c.end_slot,
                 slot_minutes := c.slot_minutes }]
  else step.1

/-- `HeuristicSolver._get_cap_for_slot` (first matching slot range wins; an absent or
empty `slot_range_caps` falls back to the global caps, matching Python truthiness). -/
def getCapForSlot (slot : ℕ) (role : JobRole) (job_caps : JobRole → Option ℕ)
    (slot_range_caps : Option (List SlotRangeCaps)) : ℕ :=
  match slot_range_caps with
  | some caps_list =>
      match caps_list.find? (fun caps => caps.contains_slot slot) with
      | some caps => caps.get_cap role
      | none => (job_caps role).getD 999
  | none => (job_caps role).getD 999

/-- `HeuristicSolver._try_preserve_role`. -/
def tryPreserveRole (role : JobRole) (period : ScheduleBlock) (eligible : JobRole → Bool)
    (states : SlotStates) (job_caps : JobRole → Option ℕ)
    (slot_range_caps : Option (List SlotRangeCaps)) : Option JobRole :=
  if !(eligible role) then none
  else if (rangeList period.start_slot period.end_slot).any (fun slot =>
      (states slot).role_counts role ≥ (getCapForSlot slot role job_caps slot_range_caps : ℤ))
    then none
  else some role

/-- The `constrained_priority` list of `_select_role_for_period`. -/
def constrainedPriority : List JobRole := [.gmd_sm, .exception_sm, .staging, .backroom, .sr]

/-- The per-period cap check shared by both role-selection loops. -/
def canAssignRole (role : JobRole) (period : ScheduleBlock) (states : SlotStates)
    (job_caps : JobRole → Option ℕ) (slot_range_caps : Option (List SlotRangeCaps)) : Bool :=
  (rangeList period.start_slot period.end_slot).all (fun slot =>
    (states slot).role_counts role < (getCapForSlot slot role job_caps slot_range_caps : ℤ))

/-- `HeuristicSolver._select_role_for_period`.  The final fallback iterates the
eligible set; Python set order is unspecified — we use declaration order. -/
def selectRoleForPeriod (period : ScheduleBlock) (eligible : JobRole → Bool)
    (a : Associate) (states : SlotStates) (job_caps : JobRole → Option ℕ)
    (slot_range_caps : Option (List SlotRangeCaps)) : Option JobRole :=
  match constrainedPriority.find? (fun role =>
      eligible role && canAssignRole role period states job_caps slot_range_caps
        && a.get_preference role != .avoid) with
  | some role => some role
  | none =>
      if eligible .picking then some .picking
      else (JobRole.all.filter eligible).find? (fun role =>
        canAssignRole role period states job_caps slot_range_caps)

/-- The `persistent_roles` set of `_assign_roles`. -/
def persistentRoles : List JobRole := [.gmd_sm, .exception_sm, .sr, .backroom]

/-- The role chosen by one iteration of `_assign_roles`: preserve the initial role
when the preservation rule applies and its caps allow, else select a fresh one. -/
def chooseRole (a : Associate) (job_caps : JobRole → Option ℕ)
    (slot_range_caps : Option (List SlotRangeCaps)) (is_5am_starter : Bool)
    (initial_role : Option JobRole) (st : SlotStates) (period : ScheduleBlock) :
    Option JobRole :=
  match (match initial_role with
    | some r0 =>
        if is_5am_starter || persistentRoles.contains r0 then
          tryPreserveRole r0 period a.eligible st job_caps slot_range_caps
        else none
    | none => none) with
  | some r => some r
  | none => selectRoleForPeriod period a.eligible a st job_caps slot_range_caps

/-- The per-period body of `HeuristicSolver._assign_roles`: choose a role, then
record the assignment and bump `role_counts` over the period. -/
def assignRolesStep (a : Associate) (job_caps : JobRole → Option ℕ)
    (slot_range_caps : Option (List SlotRangeCaps)) (is_5am_starter : Bool)
    (acc : List JobAssignment × SlotStates × Option JobRole) (period : ScheduleBlock) :
    List JobAssignment × SlotStates × Option JobRole :=
  let (assignments, st, initial_role) := acc
  match chooseRole a job_caps slot_range_caps is_5am_starter initial_role st period with
  | some r =>
      (assignments ++ [{ role := r, block := period }],
        bumpRange st period.start_slot period.end_slot (roleBump r),
        some (initial_role.getD r))
  | none => (assignments, st, initial_role)

/-- `HeuristicSolver._assign_roles` (also returns the updated slot states: the Python
method mutates `slot_states[...].role_counts` in place). -/
def assignRoles (c : ShiftCandidate) (asg : ShiftAssignment) (a : Associate)
    (states : SlotStates) (job_caps : JobRole → Option ℕ)
    (slot_range_caps : Option (List SlotRangeCaps)) :
    List JobAssignment × SlotStates :=
  if JobRole.all.all (fun r => !(a.eligible r)) then ([], states)
  else
    let work_periods := getWorkPeriods c asg
    let is_5am_starter := decide (c.start_slot < 4)
    let step := List.foldl (assignRolesStep a job_caps slot_range_caps is_5am_starter)
      (([] : List JobAssignment), states, (none : Option JobRole)) work_periods
    (step.1, step.2.1)

/-- "Step 2" and "Step 3" of `HeuristicSolver.solve` for a single selected candidate:
place the lunch (if the policy calls for one) and the breaks, returning the lunch
block, the break blocks and the updated slot states. -/
def placePhase (req : ScheduleRequest) (candidate : ShiftCandidate)
    (states : SlotStates) : Option ScheduleBlock × List ScheduleBlock × SlotStates :=
  let lunchStep :=
    if candidate.lunch_slots > 0 then
      let lb := placeLunch candidate states req.is_busy_day req.day_start_minutes
      let states := bumpRange states lb.start_slot lb.end_slot lunchBump
      let states := lunchStartBump states lb.start_slot
      ((some lb : Option ScheduleBlock), states)
    else (none, states)
  let lunchOpt := lunchStep.1
  let states := lunchStep.2
  let breakStep :=
    if candidate.break_count > 0 then
      let bbs := placeBreaks candidate lunchOpt states
      let states := bbs.foldl (fun st bb =>
        bumpRange st bb.start_slot bb.end_slot breakBump) states
      (bbs, states)
    else ([], states)
  (lunchOpt, breakStep.1, breakStep.2)

/-- The `ShiftAssignment` record as it stands after lunch and break placement,
before role assignment (the value of `assignment` entering "Step 4"). -/
def buildBase (req : ScheduleRequest) (candidate : ShiftCandidate)
    (states : SlotStates) : ShiftAssignment :=
  { associate_id := candidate.associate_id, schedule_date := req.schedule_date,
    shift_start_slot := candidate.start_slot, shift_end_slot := candidate.end_slot,
    slot_minutes := candidate.slot_minutes,
    lunch_block := (placePhase req candidate states).1,
    break_blocks := (placePhase req candidate states).2.1 }

/-- "Step 2-4" of `HeuristicSolver.solve` for a single selected candidate: place the
lunch, place the breaks, assign the roles, producing the `ShiftAssignment` and the
updated slot states. -/
def buildAssignment (req : ScheduleRequest) (candidate : ShiftCandidate)
    (associate : Associate) (states : SlotStates) : ShiftAssignment × SlotStates :=
  let asg := buildBase req candidate states
  let roleStep := assignRoles candidate asg associate (placePhase req candidate states).2.2
    req.job_caps req.slot_range_caps
  ({ asg with job_assignments := roleStep.1 }, roleStep.2)

/-- The body of the per-candidate loop of `HeuristicSolver.solve`, threading the
accumulated assignment dict and the slot states. -/
def processCandidate (req : ScheduleRequest) (associates_map : ℕ → Option Associate)
    (acc : List (ℕ × ShiftAssignment) × SlotStates) (candidate : ShiftCandidate) :
    List (ℕ × ShiftAssignment) × SlotStates :=
  match associates_map candidate.associate_id with
  | none => acc
  | some associate =>
      let built := buildAssignment req candidate associate acc.2
      (acc.1 ++ [(candidate.associate_id, built.1)], built.2)

/-- `HeuristicSolver.solve` (with the default lunch/break policies).  `associates_map`
is `Option`-valued; a `none` hit would be a Python `KeyError` — unreachable whenever
the map covers every candidate id, which every theorem below hypothesises. -/
def heuristicSolve (req : ScheduleRequest) (candidates : List (ℕ × List ShiftCandidate))
    (associates_map : ℕ → Option Associate) : DaySchedule :=
  let sel := selectShifts candidates initialSlotStates
    req.shift_block_configs req.shift_start_configs
  let selected := sel.1
  let states1 := sel.2.1
  -- re-sort the selected candidates by ascending start slot (stable)
  let selected := stableSortBy (fun c d => decide (c.start_slot ≤ d.start_slot)) selected
  let step := selected.foldl (processCandidate req associates_map) ([], states1)
  { schedule_date := req.schedule_date, assignments := step.1,
    slot_minutes := req.slot_minutes, day_start_minutes := req.day_start_minutes,
    day_end_minutes := req.day_end_minutes }

/-! ## Validator (`validation/validator.py`) -/

/-- `ValidationErrorType` (daily members; the weekly members are not needed by any
claim settled here). -/
inductive VErrorType
  | shift_outside_day
  | shift_outside_availability
  | work_time_too_short
  | work_time_too_long
  | invalid_lunch_duration
  | invalid_break_count
  | invalid_break_duration
  | role_not_allowed_by_supervisor
  | role_cannot_do
  | role_cap_exceeded
  | max_daily_hours_exceeded
  | lunch_outside_shift
  | break_outside_shift
  | break_overlaps_lunch
  | breaks_overlap
  | no_job_assignment
  deriving DecidableEq, Repr

/-- `ValidationError` (the human-readable message and the `details` dict are
omitted: no claim depends on them). -/
structure VError where
  error_type : VErrorType
  associate_id : Option ℕ := none
  slot : Option ℕ := none
  deriving DecidableEq, Repr

/-- Append an error when `b` holds (each Python `result.add_error(...)` site). -/
def errIf (b : Bool) (e : VError) : List VError := if b then [e] else []

/-- `ScheduleValidator._validate_assignment` (default policies), returning errors in
the order the Python method appends them. -/
def validateAssignment (assignment : ShiftAssignment) (associate : Associate)
    (req : ScheduleRequest) : List VError :=
  let assoc_id := assignment.associate_id
  let availability := associate.get_availability req.schedule_date
  let work_minutes := assignment.work_minutes
  -- shift within day bounds (shift_start_slot < 0 is unrepresentable over ℕ)
  errIf (decide (assignment.shift_end_slot > req.total_slots))
    { error_type := .shift_outside_day, associate_id := some assoc_id,
      slot := some assignment.shift_end_slot }
  -- shift within availability
  ++ (if availability.is_off then
        [{ error_type := .shift_outside_availability, associate_id := some assoc_id }]
      else
        errIf (decide (assignment.shift_start_slot < availability.start_slot))
          { error_type := .shift_outside_availability, associate_id := some assoc_id }
        ++ errIf (decide (assignment.shift_end_slot > availability.end_slot))
          { error_type := .shift_outside_availability, associate_id := some assoc_id })
  -- work time bounds
  ++ errIf (decide (work_minutes < minWorkMinutes))
    { error_type := .work_time_too_short, associate_id := some assoc_id }
  ++ errIf (decide (work_minutes > maxWorkMinutes))
    { error_type := .work_time_too_long, associate_id := some assoc_id }
  -- lunch duration
  ++ errIf (decide (assignment.lunch_minutes ≠ lunchDuration work_minutes))
    { error_type := .invalid_lunch_duration, associate_id := some assoc_id }
  -- lunch within shift
  ++ (match assignment.lunch_block with
      | some lb =>
          errIf (decide (lb.start_slot < assignment.shift_start_slot))
            { error_type := .lunch_outside_shift, associate_id := some assoc_id }
          ++ errIf (decide (lb.end_slot > assignment.shift_end_slot))
            { error_type := .lunch_outside_shift, associate_id := some assoc_id }
      | none => [])
  -- break count
  ++ errIf (decide (assignment.break_blocks.length ≠ breakCount work_minutes))
    { error_type := .invalid_break_count, associate_id := some assoc_id }
  -- per-break checks
  ++ assignment.break_blocks.flatMap (fun break_block =>
      errIf (decide (break_block.duration_minutes ≠ breakDurationMinutes))
        { error_type := .invalid_break_duration, associate_id := some assoc_id }
      ++ errIf (decide (break_block.start_slot < assignment.shift_start_slot))
        { error_type := .break_outside_shift, associate_id := some assoc_id }
      ++ errIf (decide (break_block.end_slot > assignment.shift_end_slot))
        { error_type := .break_outside_shift, associate_id := some assoc_id }
      ++ (match assignment.lunch_block with
          | some lb =>
              errIf (break_block.overlaps lb)
                { error_type := .break_overlaps_lunch, associate_id := some assoc_id }
          | none => []))
  -- pairwise break overlaps
  ++ (List.range assignment.break_blocks.length).flatMap (fun i =>
      (List.range assignment.break_blocks.length).flatMap (fun j =>
        if i < j then
          match assignment.break_blocks[i]?, assignment.break_blocks[j]? with
          | some b1, some b2 =>
              errIf (b1.overlaps b2)
                { error_type := .breaks_overlap, associate_id := some assoc_id }
          | _, _ => []
        else []))
  -- role eligibility
  ++ assignment.job_assignments.flatMap (fun ja =>
      errIf (!(associate.supervisor_allowed_roles ja.role))
        { error_type := .role_not_allowed_by_supervisor, associate_id := some assoc_id }
      ++ errIf (associate.cannot_do_roles ja.role)
        { error_type := .role_cannot_do, associate_id := some assoc_id })
  -- daily max hours
  ++ errIf (decide (assignment.work_minutes > associate.max_minutes_per_day))
    { error_type := .max_daily_hours_exceeded, associate_id := some assoc_id }
  -- `_validate_job_coverage`
  ++ (rangeList assignment.shift_start_slot assignment.shift_end_slot).flatMap (fun slot =>
      if assignment.is_on_floor slot then
        match assignment.get_role_at_slot slot with
        | none => [{ error_type := .no_job_assignment, associate_id := some assoc_id,
                     slot := some slot }]
        | some _ => []
      else [])

/-- `ScheduleValidator._validate_role_caps`: note the cap used is the *global*
`request.job_caps.get(role, 999)` — the time-based overrides of
`ScheduleRequest.get_job_cap` are not consulted here. -/
def validateRoleCaps (schedule : DaySchedule) (req : ScheduleRequest) : List VError :=
  (List.range schedule.total_slots).flatMap (fun slot =>
    JobRole.all.flatMap (fun role =>
      let count := schedule.get_role_coverage_at_slot slot role
      let cap := (req.job_caps role).getD 999
      errIf (decide (count > cap))
        { error_type := .role_cap_exceeded, slot := some slot }))

/-- `ScheduleValidator.validate` (default policies): the full per-day error list. -/
def validate (schedule : DaySchedule) (req : ScheduleRequest)
    (associates_map : ℕ → Option Associate) : List VError :=
  (schedule.assignments.flatMap (fun p =>
    match associates_map p.1 with
    | none => [{ error_type := .shift_outside_availability, associate_id := some p.1 }]
    | some associate => validateAssignment p.2 associate req))
  ++ validateRoleCaps schedule req

/-! ## CP-SAT solution extraction (`scheduling/cpsat_solver.py`)

The CP model itself runs on the external OR-Tools backend and is not embedded; the
pure post-processing routines that turn a selected candidate and lunch position into
breaks and roles are embedded below, for comparison with the heuristic's routines. -/

/-- `CPSATSolver._place_breaks`: for each target, scan `(offset, direction)` pairs in
Python order `(0,0),(0,1),(0,-1),(1,1),(1,-1),…,(8,1),(8,-1)` and take the first
in-shift, conflict-free start; fall back to the target itself. -/
def cpPlaceBreaks (c : ShiftCandidate) (lunch_block : Option ScheduleBlock) :
    List ScheduleBlock :=
  let break_slots := breakDurationMinutes / c.slot_minutes
  let lunch := lunch_block.map (fun b => (b.start_slot, b.end_slot))
  let targets := breakTargets c.start_slot c.end_slot c.break_count lunch c.slot_minutes
  let used0 : List ℕ :=
    match lunch_block with
    | some b => rangeList b.start_slot b.end_slot
    | none => []
  let pairs : List (ℕ × ℤ) :=
    (List.range 9).flatMap (fun o => if o = 0 then [(0, 0), (0, 1), (0, -1)] else [(o, 1), (o, -1)])
  let step := List.foldl (fun acc target =>
    let (breaks, used) := acc
    let found := pairs.findSome? fun po =>
      let startZ : ℤ := (target : ℤ) + (po.1 : ℤ) * po.2
      if startZ < (c.start_slot : ℤ) then none
      else
        let start := startZ.toNat
        let endPos := start + break_slots
        if endPos > c.end_slot then none
        else if (rangeList start endPos).any (fun s => used.contains s) then none
        else some start
    let best_start := found.getD target
    let blk : ScheduleBlock :=
      { start_slot := best_start, end_slot := best_start + break_slots,
        slot_minutes := c.slot_minutes }
    (breaks ++ [blk], used ++ rangeList best_start (best_start + break_slots)))
    (([] : List ScheduleBlock), used0) targets
  step.1

/-- `CPSATSolver._get_work_periods` (textually the same algorithm as the
heuristic's `_get_work_periods`, embedded separately from its own source). -/
def cpGetWorkPeriods (c : ShiftCandidate) (asg : ShiftAssignment) : List ScheduleBlock :=
  let off_blocks : List (ℕ × ℕ) :=
    (match asg.lunch_block with
     | some b => [(b.start_slot, b.end_slot)]
     | none => [])
    ++ asg.break_blocks.map (fun b => (b.start_slot, b.end_slot))
  let off_blocks := stableSortBy
    (fun p q => decide (p.1 < q.1) || (p.1 == q.1 && decide (p.2 ≤ q.2))) off_blocks
  let step := List.foldl (fun acc ob =>
      let (periods, current_start) := acc
      let periods := if current_start < ob.1 then
          periods ++ [{ start_slot := current_start, end_slot := ob.1,
                        slot_minutes := c.slot_minutes }]
        else periods
      ((periods : List ScheduleBlock), ob.2))
    (([] : List ScheduleBlock), c.start_slot) off_blocks
  if step.2 < c.end_slot then
    step.1 ++ [{ start_slot := step.2, end_slot := c.end_slot,
                 slot_minutes := c.slot_minutes }]
  else step.1

/-- `CPSATSolver._assign_roles`: per work period, the first of
`[GMD_SM, EXCEPTION_SM, STAGING, BACKROOM]` that is eligible and not avoided, else
PICKING if eligible, else the first eligible role.  No slot-state, cap or
role-persistence logic (the `job_caps` parameter is accepted but never read, as in
the source).  The final `next(iter(eligible_roles))` draws from a Python set; we use
declaration order. -/
def cpAssignRoles (c : ShiftCandidate) (asg : ShiftAssignment) (a : Associate)
    (job_caps : JobRole → Option ℕ) : List JobAssignment :=
  let _ := job_caps
  if JobRole.all.all (fun r => !(a.eligible r)) then []
  else
    let work_periods := cpGetWorkPeriods c asg
    List.foldl (fun assignments period =>
      let role :=
        match ([JobRole.gmd_sm, .exception_sm, .staging, .backroom].find? (fun r =>
            a.eligible r && a.get_preference r != .avoid)) with
        | some r => some r
        | none =>
            if a.eligible .picking then some .picking
            else (JobRole.all.filter a.eligible).head?
      match role with
      | some r => assignments ++ [{ role := r, block := period }]
      | none => assignments)
      ([] : List JobAssignment) work_periods

/-! ## Demand model and metrics (`domain/demand.py`) -/

/-- `DemandPriority`. -/
inductive DemandPriority
  | low
  | normal
  | high
  | critical
  deriving DecidableEq, Repr

/-- Iteration order of `for priority in DemandPriority`. -/
def DemandPriority.all : List DemandPriority := [.low, .normal, .high, .critical]

/-- `DemandPoint` (stored field values; the `__post_init__` clamping applies at
construction time in Python and every point used below already satisfies
`min ≤ target ≤ max`). -/
structure DemandPoint where
  slot : ℕ
  min_staff : ℕ := 0
  target_staff : ℕ := 1
  max_staff : ℕ := 99
  priority : DemandPriority := .normal
  deriving DecidableEq, Repr

/-- `DemandCurve` (the per-role demand table is not read by any embedded code
path). -/
structure DemandCurve where
  schedule_date : ℤ
  total_demand : ℕ → Option DemandPoint := fun _ => none
  priority_periods : List (ℕ × ℕ × DemandPriority) := []
  slot_minutes : ℕ := 15
  day_start_minutes : ℕ := 300

/-- `DemandCurve.get_demand_at_slot`. -/
def DemandCurve.get_demand_at_slot (c : DemandCurve) (slot : ℕ) : DemandPoint :=
  (c.total_demand slot).getD
    { slot := slot, min_staff := 0, target_staff := 1, max_staff := 99 }

/-- `DemandCurve.get_priority_at_slot`. -/
def DemandCurve.get_priority_at_slot (c : DemandCurve) (slot : ℕ) : DemandPriority :=
  match c.priority_periods.find? (fun p => decide (p.1 ≤ slot) && decide (slot < p.2.1)) with
  | some p => p.2.2
  | none =>
      match c.total_demand slot with
      | some pt => pt.priority
      | none => .normal

/-- `DemandMetrics` (list fields `slot_deficits`/`slot_surpluses` and per-priority
scores included; `priority_match_scores` maps a priority to `none` when the Python
dict has no entry for it). -/
structure DemandMetrics where
  total_demand_minutes : ℚ := 0
  total_coverage_minutes : ℚ := 0
  undercoverage_minutes : ℚ := 0
  overcoverage_minutes : ℚ := 0
  match_score : ℚ := 0
  priority_match_scores : DemandPriority → Option ℚ := fun _ => none
  slot_deficits : List ℕ := []
  slot_surpluses : List ℕ := []

/-- The accumulator of `DemandMetrics.calculate`'s loop. -/
structure DMAcc where
  total_demand : ℚ := 0
  total_coverage : ℚ := 0
  undercoverage : ℚ := 0
  overcoverage : ℚ := 0
  slot_deficits : List ℕ := []
  slot_surpluses : List ℕ := []
  priority_demand : DemandPriority → Option ℚ := fun _ => none
  priority_coverage : DemandPriority → Option ℚ := fun _ => none

/-- One iteration of the `for slot, coverage in enumerate(coverage_timeline)` loop of
`DemandMetrics.calculate`. -/
def dmStep (demand_curve : DemandCurve) (slot_minutes : ℕ) (acc : DMAcc)
    (sc : ℕ × ℕ) : DMAcc :=
  let (slot, coverage) := sc
  let demand_point := demand_curve.get_demand_at_slot slot
  let priority := demand_curve.get_priority_at_slot slot
  let target := demand_point.target_staff
  let min_staff := demand_point.min_staff
  let max_staff := demand_point.max_staff
  { acc with
    priority_demand := fun p =>
      if p = priority then some (((acc.priority_demand p).getD 0) + target)
      else acc.priority_demand p
    priority_coverage := fun p =>
      if p = priority then some (((acc.priority_coverage p).getD 0) + min coverage target)
      else acc.priority_coverage p
    total_demand := acc.total_demand + target
    total_coverage := acc.total_coverage + (min coverage max_staff : ℕ)
    undercoverage := if coverage < min_staff then
        acc.undercoverage + ((min_staff - coverage : ℕ) : ℚ) * slot_minutes
      else acc.undercoverage
    overcoverage := if ¬(coverage < min_staff) ∧ coverage > max_staff then
        acc.overcoverage + ((coverage - max_staff : ℕ) : ℚ) * slot_minutes
      else acc.overcoverage
    slot_deficits := if coverage < min_staff then acc.slot_deficits ++ [slot]
      else acc.slot_deficits
    slot_surpluses := if ¬(coverage < min_staff) ∧ coverage > max_staff then
        acc.slot_surpluses ++ [slot]
      else acc.slot_surpluses }

/-- `DemandMetrics.calculate`. -/
def demandMetricsCalculate (demand_curve : DemandCurve) (coverage_timeline : List ℕ)
    (slot_minutes : ℕ) : DemandMetrics :=
  let acc := coverage_timeline.enum.foldl (dmStep demand_curve slot_minutes) {}
  let match_score : ℚ :=
    if acc.total_demand > 0 then acc.total_coverage / acc.total_demand * 100 else 100
  let priority_scores : DemandPriority → Option ℚ := fun p =>
    match acc.priority_demand p with
    | some d => if d > 0 then some (((acc.priority_coverage p).getD 0) / d * 100) else none
    | none => none
  { total_demand_minutes := acc.total_demand * slot_minutes,
    total_coverage_minutes := acc.total_coverage * slot_minutes,
    undercoverage_minutes := acc.undercoverage,
    overcoverage_minutes := acc.overcoverage,
    match_score := match_score,
    priority_match_scores := priority_scores,
    slot_deficits := acc.slot_deficits,
    slot_surpluses := acc.slot_surpluses }

/-! ## Weekly coordinator (`scheduling/weekly_scheduler.py`) -/

/-- `DaysOffPattern` (`domain/models.py`). -/
inductive DaysOffPattern
  | none_pattern
  | two_consecutive
  | one_weekend_day
  | every_other_day
  | custom
  deriving DecidableEq, Repr

/-- `FairnessConfig` (floats as `ℚ`). -/
structure FairnessConfig where
  target_weekly_minutes : Option ℕ := none
  min_weekly_minutes : ℕ := 0
  max_hours_variance : ℚ := 120
  balance_daily_starts : Bool := true
  prefer_consistent_shifts : Bool := false
  weight_hours_balance : ℚ := 7 / 10
  weight_days_balance : ℚ := 3 / 10

/-- `WeeklyScheduleRequest` (`domain/models.py`); `busy_days` is set membership. -/
structure WeeklyScheduleRequest where
  start_date : ℤ
  end_date : ℤ
  associates : List Associate
  day_start_minutes : ℕ := 300
  day_end_minutes : ℕ := 1320
  slot_minutes : ℕ := 15
  job_caps : JobRole → Option ℕ := defaultJobCaps
  time_based_job_caps : Option (ℕ → Option (JobRole → Option ℕ)) := none
  busy_days : ℤ → Bool := fun _ => false
  days_off_pattern : DaysOffPattern := .two_consecutive
  required_days_off : ℕ := 2
  fairness_config : FairnessConfig := {}
  shift_block_configs : Option (List ShiftBlockConfig) := none
  shift_start_configs : Option (List ShiftStartConfig) := none

/-- `[start_date, start_date+1, …, end_date]` (the `schedule_dates` while loop). -/
def datesRange (a b : ℤ) : List ℤ := (List.range (b + 1 - a).toNat).map (fun i => a + i)

/-- `WeeklyScheduleRequest.schedule_dates`. -/
def WeeklyScheduleRequest.schedule_dates (r : WeeklyScheduleRequest) : List ℤ :=
  datesRange r.start_date r.end_date

/-- `WeeklyScheduleRequest.is_busy_day`. -/
def WeeklyScheduleRequest.is_busy_day (r : WeeklyScheduleRequest) (d : ℤ) : Bool :=
  r.busy_days d

/-- `WeeklyScheduleRequest.create_day_request`: note it forwards
`time_based_job_caps` (contrast with the day requests the coordinators build). -/
def WeeklyScheduleRequest.create_day_request (r : WeeklyScheduleRequest) (d : ℤ) :
    ScheduleRequest :=
  { schedule_date := d, associates := r.associates,
    day_start_minutes := r.day_start_minutes, day_end_minutes := r.day_end_minutes,
    slot_minutes := r.slot_minutes, job_caps := r.job_caps,
    time_based_job_caps := r.time_based_job_caps,
    is_busy_day := r.is_busy_day d,
    shift_block_configs := r.shift_block_configs,
    shift_start_configs := r.shift_start_configs }

/-- The day request `WeeklyScheduler.generate_schedule` builds (lines 479–489):
`time_based_job_caps` is *not* forwarded. -/
def weeklyBuildDayRequest (r : WeeklyScheduleRequest) (d : ℤ)
    (adjusted : List Associate) : ScheduleRequest :=
  { schedule_date := d, associates := adjusted,
    day_start_minutes := r.day_start_minutes, day_end_minutes := r.day_end_minutes,
    slot_minutes := r.slot_minutes, job_caps := r.job_caps,
    is_busy_day := r.is_busy_day d,
    shift_block_configs := r.shift_block_configs,
    shift_start_configs := r.shift_start_configs }

/-- The day request `DemandAwareWeeklyScheduler.generate_schedule` builds (lines
249–257 of `demand_aware_scheduler.py`): neither `time_based_job_caps` nor the
block/start configs are forwarded. -/
def demandAwareBuildDayRequest (r : WeeklyScheduleRequest) (d : ℤ)
    (adjusted : List Associate) : ScheduleRequest :=
  { schedule_date := d, associates := adjusted,
    day_start_minutes := r.day_start_minutes, day_end_minutes := r.day_end_minutes,
    slot_minutes := r.slot_minutes, job_caps := r.job_caps,
    is_busy_day := r.is_busy_day d }

/-- `AssociateWeeklyState`. -/
structure AssociateWeeklyState where
  associate_id : ℕ
  minutes_scheduled : ℕ := 0
  days_worked : List ℤ := []
  days_off : List ℤ := []
  max_weekly_minutes : ℕ := 2400

/-- `AssociateWeeklyState.remaining_minutes` (`max(0, max - scheduled)`, which is
exactly `Nat` truncated subtraction). -/
def AssociateWeeklyState.remaining_minutes (s : AssociateWeeklyState) : ℕ :=
  s.max_weekly_minutes - s.minutes_scheduled

/-- `AssociateWeeklyState.add_shift`. -/
def AssociateWeeklyState.add_shift (s : AssociateWeeklyState) (d : ℤ) (work : ℕ) :
    AssociateWeeklyState :=
  { s with minutes_scheduled := s.minutes_scheduled + work,
           days_worked := if s.days_worked.contains d then s.days_worked
             else s.days_worked ++ [d] }

/-- `AssociateWeeklyState.add_day_off`. -/
def AssociateWeeklyState.add_day_off (s : AssociateWeeklyState) (d : ℤ) :
    AssociateWeeklyState :=
  { s with days_off := if s.days_off.contains d then s.days_off else s.days_off ++ [d] }

/-- The `weekly_states` dict as a function over ids (its key set is exactly the
request's associate ids; other ids are never looked up). -/
def WeeklyStates := ℕ → AssociateWeeklyState

/-- Point update of one associate's state. -/
def updateState (states : WeeklyStates) (id : ℕ) (f : AssociateWeeklyState → AssociateWeeklyState) :
    WeeklyStates :=
  fun i => if i = id then f (states i) else states i

/-- `_init_weekly_states` (dict comprehension: a duplicated id — excluded by the data
model — would keep the last associate). -/
def initWeeklyStates (associates : List Associate) : WeeklyStates := fun i =>
  match associates.reverse.find? (fun a => a.id == i) with
  | some a => { associate_id := i, max_weekly_minutes := a.max_minutes_per_week }
  | none => { associate_id := i }

/-- The `{a.id: a for a in …}` associates map (last duplicate wins). -/
def mkAssociatesMap (l : List Associate) : ℕ → Option Associate :=
  fun i => l.reverse.find? (fun a => a.id == i)

/-- Python's `weekday()` on ordinal dates: Monday of the epoch week is day 0
(modelling convention; `≥ 5` means Saturday/Sunday). -/
def weekday (d : ℤ) : ℕ := (d % 7).toNat

/-- Minimum of a list of naturals (`min(...)` on a nonempty list; 0 for `[]`, a case
Python never reaches). -/
def listMin (l : List ℕ) : ℕ :=
  match l with
  | [] => 0
  | x :: xs => xs.foldl min x

/-- `DaysOffPatternEnforcer._check_two_consecutive`. -/
def checkTwoConsecutive (state : AssociateWeeklyState) (schedule_date : ℤ)
    (remaining_dates : List ℤ) : Bool :=
  let days_off := state.days_off
  let days_off_count := days_off.length
  let already :=
    if days_off_count ≥ 2 then
      let sorted_off := stableSortBy (fun a b => decide (a ≤ b)) days_off
      (List.range (sorted_off.length - 1)).any (fun i =>
        match sorted_off[i]?, sorted_off[i+1]? with
        | some a, some b => decide (b - a = 1)
        | _, _ => false)
    else false
  if days_off_count ≥ 2 then
    if already then false
    else days_off.any (fun off_day => decide ((schedule_date - off_day).natAbs = 1))
  else if days_off_count = 1 then
    match days_off.head? with
    | some existing_off => decide ((schedule_date - existing_off).natAbs = 1)
    | none => false
  else
    -- no days off yet: if only 2 remaining days, both should be off
    decide (remaining_dates.length ≤ 2)

/-- `DaysOffPatternEnforcer._check_weekend_day`. -/
def checkWeekendDay (state : AssociateWeeklyState) (schedule_date : ℤ)
    (remaining_dates : List ℤ) : Bool :=
  let has_weekend_off := state.days_off.any (fun d => decide (weekday d ≥ 5))
  if has_weekend_off then false
  else if weekday schedule_date ≥ 5 then
    let remaining_weekends := remaining_dates.filter (fun d => decide (weekday d ≥ 5))
    decide (remaining_weekends.length = 1)
  else false

/-- `DaysOffPatternEnforcer._check_every_other`. -/
def checkEveryOther (state : AssociateWeeklyState) (schedule_date : ℤ) : Bool :=
  state.days_worked.contains (schedule_date - 1)

/-- `DaysOffPatternEnforcer.should_be_day_off`. -/
def shouldBeDayOff (pattern : DaysOffPattern) (required_days_off : ℕ)
    (state : AssociateWeeklyState) (schedule_date : ℤ)
    (remaining_dates all_dates : List ℤ) : Bool :=
  let _ := all_dates
  if pattern = .none_pattern then false
  else
    let days_off := state.days_off.length
    let remaining_count := remaining_dates.length
    let days_off_needed : ℤ := (required_days_off : ℤ) - days_off
    if days_off_needed > 0 ∧ (remaining_count : ℤ) ≤ days_off_needed then true
    else if pattern = .two_consecutive then
      checkTwoConsecutive state schedule_date remaining_dates
    else if pattern = .one_weekend_day then
      checkWeekendDay state schedule_date remaining_dates
    else if pattern = .every_other_day then
      checkEveryOther state schedule_date
    else false

/-- `FairnessBalancer.should_skip_associate` (float arithmetic as exact `ℚ`). -/
def shouldSkipAssociate (fc : FairnessConfig) (state : AssociateWeeklyState)
    (states : WeeklyStates) (all_ids : List ℕ) (remaining_days : ℕ) : Bool :=
  if all_ids.isEmpty || remaining_days = 0 then false
  else
    let all_minutes := all_ids.map (fun i => (states i).minutes_scheduled)
    let avg_minutes : ℚ :=
      if all_minutes.isEmpty then 0
      else ((all_minutes.map (fun n => (n : ℚ))).sum) / all_minutes.length
    if (state.minutes_scheduled : ℚ) > avg_minutes + fc.max_hours_variance then
      let min_minutes := listMin all_minutes
      decide (avg_minutes - min_minutes > fc.max_hours_variance / 2)
    else false

/-- The per-associate body of `WeeklyScheduler._get_working_associates`: mark the
associate off (availability, exhausted weekly minutes, day-off pattern), skip for
fairness, or keep as working. -/
def workingStep (schedule_date : ℤ) (remaining_dates all_dates : List ℤ)
    (pattern : DaysOffPattern) (required_days_off : ℕ) (fc : FairnessConfig)
    (all_ids : List ℕ) (acc : List Associate × WeeklyStates) (a : Associate) :
    List Associate × WeeklyStates :=
  let (working, st) := acc
  let state := st a.id
  let availability := a.get_availability schedule_date
  if availability.is_off || availability.slot_count == 0 then
    (working, updateState st a.id (fun s => s.add_day_off schedule_date))
  else if state.remaining_minutes < minWorkMinutes then
    (working, updateState st a.id (fun s => s.add_day_off schedule_date))
  else if shouldBeDayOff pattern required_days_off state schedule_date
      remaining_dates all_dates then
    (working, updateState st a.id (fun s => s.add_day_off schedule_date))
  else if shouldSkipAssociate fc state st all_ids remaining_dates.length then
    (working, st)
  else (working ++ [a], st)

/-- `WeeklyScheduler._get_working_associates` (threads the state mutations of
`add_day_off` through the iteration, as the Python loop does). -/
def getWorkingAssociates (associates : List Associate) (schedule_date : ℤ)
    (states : WeeklyStates) (remaining_dates all_dates : List ℤ)
    (pattern : DaysOffPattern) (required_days_off : ℕ) (fc : FairnessConfig)
    (all_ids : List ℕ) : List Associate × WeeklyStates :=
  List.foldl (workingStep schedule_date remaining_dates all_dates pattern
      required_days_off fc all_ids)
    (([] : List Associate), states) associates

/-- `WeeklyScheduler._adjust_associates_for_weekly_limits` (with the default shift
policy's 240-minute minimum). -/
def adjustAssociates (associates : List Associate) (schedule_date : ℤ)
    (states : WeeklyStates) : List Associate :=
  let _ := schedule_date
  associates.filterMap fun a =>
    let state := states a.id
    let adjusted_daily_max := min a.max_minutes_per_day state.remaining_minutes
    if adjusted_daily_max < minWorkMinutes then none
    else some { a with max_minutes_per_day := adjusted_daily_max }

/-- `WeeklyScheduler._generate_fairness_aware_candidates` (the in-place sorts become
per-associate stable re-sorts; Python's float literal `1.1` is taken as `11/10`). -/
def fairnessAwareCandidates (request : ScheduleRequest) (states : WeeklyStates)
    (all_ids : List ℕ) (step_slots : ℕ) : List (ℕ × List ShiftCandidate) :=
  let candidates := generateAllCandidates request step_slots
  candidates.map fun p =>
    let (assoc_id, assoc_candidates) := p
    if !(all_ids.contains assoc_id) then p
    else
      let all_minutes := all_ids.map (fun i => (states i).minutes_scheduled)
      let avg_minutes : ℚ :=
        if all_minutes.isEmpty then 0
        else ((all_minutes.map (fun n => (n : ℚ))).sum) / all_minutes.length
      let m := (states assoc_id).minutes_scheduled
      if (m : ℚ) < avg_minutes then
        (assoc_id, stableSortBy (fun c d => decide (d.work_minutes ≤ c.work_minutes))
          assoc_candidates)
      else if (m : ℚ) > avg_minutes * (11 / 10) then
        (assoc_id, stableSortBy (fun c d => decide (c.work_minutes ≤ d.work_minutes))
          assoc_candidates)
      else p

/-- The per-assignment body of `_update_weekly_states`: record the scheduled
shift's work minutes for a known associate. -/
def shiftStep (schedule_date : ℤ) (known_ids : List ℕ) (st : WeeklyStates)
    (p : ℕ × ShiftAssignment) : WeeklyStates :=
  if known_ids.contains p.1 then
    updateState st p.1 (fun s => s.add_shift schedule_date p.2.work_minutes)
  else st

/-- The per-worker tail of `_update_weekly_states`: mark unscheduled working
associates as off. -/
def dayOffStep (schedule_date : ℤ) (scheduled_ids : List ℕ) (st : WeeklyStates)
    (a : Associate) : WeeklyStates :=
  if scheduled_ids.contains a.id then st
  else updateState st a.id (fun s => s.add_day_off schedule_date)

/-- `WeeklyScheduler._update_weekly_states`. -/
def updateWeeklyStates (day_schedule : DaySchedule) (schedule_date : ℤ)
    (states : WeeklyStates) (working : List Associate) (known_ids : List ℕ) :
    WeeklyStates :=
  let st := day_schedule.assignments.foldl (shiftStep schedule_date known_ids) states
  let scheduled_ids := day_schedule.assignments.map Prod.fst
  working.foldl (dayOffStep schedule_date scheduled_ids) st

/-- `WeeklySchedule` (`domain/models.py`).  The `fairness_metrics` field is omitted:
`FairnessMetrics.calculate` takes a float square root (`hours_std_dev`), which has no
exact `ℚ` embedding, and no embedded code path nor claim reads it. -/
structure WeeklySchedule where
  start_date : ℤ
  end_date : ℤ
  day_schedules : List (ℤ × DaySchedule) := []

/-- The summand of `get_associate_weekly_minutes` on a raw day list (used to track
the weekly minutes through the coordinator's day loop). -/
def minutesOfDays (l : List (ℤ × DaySchedule)) (id : ℕ) : ℕ :=
  (l.map (fun p =>
    match p.2.assignments.lookup id with
    | some asg => asg.work_minutes
    | none => 0)).sum

/-- `WeeklySchedule.get_associate_weekly_minutes`. -/
def WeeklySchedule.get_associate_weekly_minutes (ws : WeeklySchedule) (id : ℕ) : ℕ :=
  (ws.day_schedules.map (fun p =>
    match p.2.assignments.lookup id with
    | some asg => asg.work_minutes
    | none => 0)).sum

/-- The day-by-day loop of `WeeklyScheduler.generate_schedule`; `todo` is
`all_dates[i:]` (the remaining dates including the current one). -/
def weeklyLoop (request : WeeklyScheduleRequest) (step_slots : ℕ)
    (amap : ℕ → Option Associate) (all_ids : List ℕ) (all_dates : List ℤ) :
    List ℤ → WeeklyStates → List (ℤ × DaySchedule) × WeeklyStates
  | [], states => ([], states)
  | schedule_date :: rest, states =>
      let remaining_dates := schedule_date :: rest
      let wres := getWorkingAssociates request.associates schedule_date states
        remaining_dates all_dates request.days_off_pattern request.required_days_off
        request.fairness_config all_ids
      let working := wres.1
      let states := wres.2
      if working.isEmpty then
        let day_schedule : DaySchedule :=
          { schedule_date := schedule_date, slot_minutes := request.slot_minutes,
            day_start_minutes := request.day_start_minutes,
            day_end_minutes := request.day_end_minutes }
        let tail := weeklyLoop request step_slots amap all_ids all_dates rest states
        ((schedule_date, day_schedule) :: tail.1, tail.2)
      else
        let adjusted := adjustAssociates working schedule_date states
        let day_request := weeklyBuildDayRequest request schedule_date adjusted
        let candidates := fairnessAwareCandidates day_request states all_ids step_slots
        let day_schedule := heuristicSolve day_request candidates amap
        let states := updateWeeklyStates day_schedule schedule_date states working all_ids
        let tail := weeklyLoop request step_slots amap all_ids all_dates rest states
        ((schedule_date, day_schedule) :: tail.1, tail.2)

/-- `WeeklyScheduler.generate_schedule` (default policies, heuristic solver). -/
def weeklyGenerateSchedule (request : WeeklyScheduleRequest) (step_slots : ℕ) :
    WeeklySchedule :=
  let amap := mkAssociatesMap request.associates
  let states0 := initWeeklyStates request.associates
  let all_dates := request.schedule_dates
  let all_ids := request.associates.map (fun a => a.id)
  let res := weeklyLoop request step_slots amap all_ids all_dates all_dates states0
  { start_date := request.start_date, end_date := request.end_date,
    day_schedules := res.1 }

/-! ## Auxiliary lemmas -/

theorem mem_rangeList {s a b : ℕ} : s ∈ rangeList a b ↔ a ≤ s ∧ s < b := by
  unfold rangeList
  rw [List.mem_range'_1]
  omega

theorem mem_rangeStep {c a b step : ℕ} (hstep : 1 ≤ step) (h : c ∈ rangeStep a b step) :
    a ≤ c ∧ c < b := by
  unfold rangeStep at h
  rcases List.mem_map.1 h with ⟨i, hi, rfl⟩
  rw [List.mem_range] at hi
  have h1 : ((b - a + step - 1) / step) * step ≤ b - a + step - 1 :=
    Nat.div_mul_le_self _ _
  have h3 : (i + 1) * step ≤ ((b - a + step - 1) / step) * step :=
    Nat.mul_le_mul_right _ hi
  have h4 : i * step + step ≤ b - a + step - 1 := by
    calc i * step + step = (i + 1) * step := by ring
    _ ≤ ((b - a + step - 1) / step) * step := h3
    _ ≤ b - a + step - 1 := h1
  omega

theorem mem_insertStable {le : α → α → Bool} {x y : α} {l : List α} :
    y ∈ insertStable le x l ↔ y = x ∨ y ∈ l := by
  induction l with
  | nil => simp [insertStable]
  | cons z zs ih =>
      unfold insertStable
      by_cases h : le z x = true
      · rw [if_pos h]
        simp only [List.mem_cons, ih]
        tauto
      · rw [if_neg h]
        simp only [List.mem_cons]

theorem mem_foldl_insertStable {le : α → α → Bool} {x : α} :
    ∀ (l : List α) (acc : List α),
      x ∈ l.foldl (fun acc y => insertStable le y acc) acc ↔ x ∈ acc ∨ x ∈ l := by
  intro l
  induction l with
  | nil => simp
  | cons z zs ih =>
      intro acc
      simp only [List.foldl_cons]
      rw [ih, mem_insertStable]
      simp only [List.mem_cons]
      tauto

theorem mem_stableSortBy {le : α → α → Bool} {l : List α} {x : α} :
    x ∈ stableSortBy le l ↔ x ∈ l := by
  unfold stableSortBy
  rw [mem_foldl_insertStable]
  simp

theorem length_insertStable {le : α → α → Bool} {x : α} :
    ∀ l : List α, (insertStable le x l).length = l.length + 1 := by
  intro l
  induction l with
  | nil => rfl
  | cons z zs ih =>
      unfold insertStable
      by_cases h : le z x = true <;> simp [h, ih]

theorem length_stableSortBy {le : α → α → Bool} {l : List α} :
    (stableSortBy le l).length = l.length := by
  unfold stableSortBy
  suffices h : ∀ (l acc : List α),
      (l.foldl (fun acc y => insertStable le y acc) acc).length = acc.length + l.length by
    simpa using h l []
  intro l
  induction l with
  | nil => simp
  | cons z zs ih => intro acc; simp [List.foldl_cons, ih, length_insertStable]; omega

theorem mem_jobRole_all (r : JobRole) : r ∈ JobRole.all := by
  cases r <;> simp [JobRole.all]

theorem mem_errIf {b : Bool} {x e : VError} : e ∈ errIf b x ↔ b = true ∧ e = x := by
  unfold errIf
  split <;> simp_all

/-- Unfolding of the assignment dict produced by `heuristicSolve`. -/
theorem heuristicSolve_assignments (req : ScheduleRequest)
    (candidates : List (ℕ × List ShiftCandidate)) (amap : ℕ → Option Associate) :
    (heuristicSolve req candidates amap).assignments =
      ((stableSortBy (fun c d => decide (c.start_slot ≤ d.start_slot))
          (selectShifts candidates initialSlotStates req.shift_block_configs
            req.shift_start_configs).1).foldl
        (processCandidate req amap)
        ([], (selectShifts candidates initialSlotStates req.shift_block_configs
          req.shift_start_configs).2.1)).1 := rfl

/-- Everything in the assignment dict built by the per-candidate loop comes either
from the initial dict or from `buildAssignment` applied to a processed candidate, the
associate the map yields for it, and some intermediate slot states. -/
theorem mem_foldl_processCandidate (req : ScheduleRequest) (amap : ℕ → Option Associate) :
    ∀ (l : List ShiftCandidate) (init : List (ℕ × ShiftAssignment) × SlotStates)
      (p : ℕ × ShiftAssignment), p ∈ (l.foldl (processCandidate req amap) init).1 →
      p ∈ init.1 ∨ ∃ c ∈ l, ∃ a st, amap c.associate_id = some a ∧
        p = (c.associate_id, (buildAssignment req c a st).1) := by
  intro l
  induction l with
  | nil => intro init p hp; exact Or.inl hp
  | cons c cs ih =>
      intro init p hp
      simp only [List.foldl_cons] at hp
      rcases ih _ p hp with h | ⟨c', hc', a, st, ha, hp'⟩
      · unfold processCandidate at h
        cases hm : amap c.associate_id with
        | none => rw [hm] at h; exact Or.inl h
        | some a =>
            rw [hm] at h
            simp only [List.mem_append, List.mem_singleton] at h
            rcases h with h | h
            · exact Or.inl h
            · exact Or.inr ⟨c, by simp, a, init.2, hm, h⟩
      · exact Or.inr ⟨c', by simp [hc'], a, st, ha, hp'⟩

/-- `_assign_roles` with an empty effective eligibility set returns no assignments
and leaves the slot states unchanged. -/
theorem assignRoles_empty_eligibility (c : ShiftCandidate) (asg : ShiftAssignment)
    (a : Associate) (st : SlotStates) (job_caps : JobRole → Option ℕ)
    (src : Option (List SlotRangeCaps)) (helig : ∀ r, a.eligible r = false) :
    assignRoles c asg a st job_caps src = ([], st) := by
  unfold assignRoles
  have hc : (JobRole.all.all fun r => !(a.eligible r)) = true := by
    rw [List.all_eq_true]
    intro r _
    rw [helig r]
    rfl
  rw [if_pos hc]

/-- An assignment produced by `buildAssignment` for an associate with empty effective
eligibility has no job assignments (`_assign_roles` returns `[]` at its first
check). -/
theorem buildAssignment_empty_eligibility (req : ScheduleRequest)
    (c : ShiftCandidate) (a : Associate) (st : SlotStates)
    (helig : ∀ r, a.eligible r = false) :
    (buildAssignment req c a st).1.job_assignments = [] := by
  unfold buildAssignment
  simp only [assignRoles_empty_eligibility _ _ _ _ _ _ helig]

/-! ### Role-count bookkeeping

The lemmas below track `role_counts` through the heuristic pipeline: shift
selection, lunch and break placement never touch it, and role assignment only
increments it after passing the per-slot cap checks (except for the PICKING
fallback). -/

/-- `bumpRange` with a field update that leaves `role_counts` alone leaves
`role_counts` alone. -/
theorem bumpRange_role_counts (st : SlotStates) (a b : ℕ) (f : SlotState → SlotState)
    (hf : ∀ ss, (f ss).role_counts = ss.role_counts) (slot : ℕ) (role : JobRole) :
    ((bumpRange st a b f) slot).role_counts role = (st slot).role_counts role := by
  unfold bumpRange
  split
  · rw [hf]
  · rfl

/-- Recording a lunch start slot does not change `role_counts`. -/
theorem lunchStartBump_role_counts (st : SlotStates) (i slot : ℕ) (role : JobRole) :
    ((lunchStartBump st i) slot).role_counts role = (st slot).role_counts role := by
  unfold lunchStartBump
  split <;> rfl

/-- The break-placement fold does not change `role_counts`. -/
theorem foldl_breakBump_role_counts (l : List ScheduleBlock) :
    ∀ (st : SlotStates) (slot : ℕ) (role : JobRole),
      ((l.foldl (fun st bb => bumpRange st bb.start_slot bb.end_slot breakBump) st)
          slot).role_counts role = (st slot).role_counts role := by
  induction l with
  | nil => intro st slot role; rfl
  | cons b bs ih =>
      intro st slot role
      rw [List.foldl_cons, ih]
      exact bumpRange_role_counts st b.start_slot b.end_slot breakBump (fun _ => rfl)
        slot role

/-- Lunch and break placement (Steps 2-3) leave `role_counts` unchanged. -/
theorem placePhase_role_counts (req : ScheduleRequest) (c : ShiftCandidate)
    (st : SlotStates) (slot : ℕ) (role : JobRole) :
    (((placePhase req c st).2.2) slot).role_counts role = (st slot).role_counts role := by
  unfold placePhase
  dsimp only
  by_cases hb : c.break_count > 0
  · rw [if_pos hb]
    dsimp only
    rw [foldl_breakBump_role_counts]
    by_cases hl : c.lunch_slots > 0
    · rw [if_pos hl]
      dsimp only
      rw [lunchStartBump_role_counts, bumpRange_role_counts _ _ _ lunchBump (fun _ => rfl)]
    · rw [if_neg hl]
  · rw [if_neg hb]
    dsimp only
    by_cases hl : c.lunch_slots > 0
    · rw [if_pos hl]
      dsimp only
      rw [lunchStartBump_role_counts, bumpRange_role_counts _ _ _ lunchBump (fun _ => rfl)]
    · rw [if_neg hl]

/-- Shift selection (Step 1) leaves `role_counts` unchanged (it only bumps
`on_floor_count`). -/
theorem selectStep_role_counts (bon son : Bool) (bl : List ShiftBlockConfig)
    (sl : List ShiftStartConfig)
    (acc : List ShiftCandidate × SlotStates × (ShiftBlockType → ℕ) × (ℕ → ℕ))
    (pair : ℕ × List ShiftCandidate) (slot : ℕ) (role : JobRole) :
    (((selectStep bon son bl sl acc pair).2.1) slot).role_counts role
      = ((acc.2.1) slot).role_counts role := by
  obtain ⟨sel, st, bs, ss⟩ := acc
  unfold selectStep
  dsimp only
  split
  · rfl
  · split
    · rfl
    · exact bumpRange_role_counts st _ _ floorBump (fun _ => rfl) slot role

/-- Fold form of `selectStep_role_counts`. -/
theorem foldl_selectStep_role_counts (bon son : Bool) (bl : List ShiftBlockConfig)
    (sl : List ShiftStartConfig) (l : List (ℕ × List ShiftCandidate)) :
    ∀ (init : List ShiftCandidate × SlotStates × (ShiftBlockType → ℕ) × (ℕ → ℕ))
      (slot : ℕ) (role : JobRole),
      (((l.foldl (selectStep bon son bl sl) init).2.1) slot).role_counts role
        = ((init.2.1) slot).role_counts role := by
  induction l with
  | nil => intro init slot role; rfl
  | cons p ps ih =>
      intro init slot role
      rw [List.foldl_cons, ih, selectStep_role_counts]

/-- After `_select_shifts` every `role_counts` entry still has its initial value. -/
theorem selectShifts_role_counts (cands : List (ℕ × List ShiftCandidate))
    (st0 : SlotStates) (bc : Option (List ShiftBlockConfig))
    (sc : Option (List ShiftStartConfig)) (slot : ℕ) (role : JobRole) :
    (((selectShifts cands st0 bc sc).2.1) slot).role_counts role
      = (st0 slot).role_counts role := by
  unfold selectShifts
  exact foldl_selectStep_role_counts _ _ _ _ _ _ slot role

/-- A preserved role passed `_try_preserve_role`'s cap scan, so its per-slot cap
check holds on the whole period. -/
theorem tryPreserveRole_canAssign (r0 : JobRole) (period : ScheduleBlock)
    (elig : JobRole → Bool) (st : SlotStates) (jc : JobRole → Option ℕ)
    (src : Option (List SlotRangeCaps)) (r : JobRole)
    (h : tryPreserveRole r0 period elig st jc src = some r) :
    r = r0 ∧ canAssignRole r period st jc src = true := by
  unfold tryPreserveRole at h
  split at h
  · exact absurd h (by simp)
  · split at h
    · exact absurd h (by simp)
    next h2 =>
      injection h with h
      subst h
      refine ⟨rfl, List.all_eq_true.2 (fun s hs => ?_)⟩
      have h3 : ¬ ((st s).role_counts r0 ≥ (getCapForSlot s r0 jc src : ℤ)) := by
        intro hge
        exact h2 (List.any_eq_true.2 ⟨s, hs, decide_eq_true hge⟩)
      exact decide_eq_true (lt_of_not_ge h3)

/-- A non-PICKING role returned by `_select_role_for_period` passed its cap check. -/
theorem selectRoleForPeriod_canAssign (period : ScheduleBlock) (elig : JobRole → Bool)
    (a : Associate) (st : SlotStates) (jc : JobRole → Option ℕ)
    (src : Option (List SlotRangeCaps)) (r : JobRole)
    (h : selectRoleForPeriod period elig a st jc src = some r) (hr : r ≠ .picking) :
    canAssignRole r period st jc src = true := by
  unfold selectRoleForPeriod at h
  split at h
  next r1 hf =>
    injection h with h
    subst h
    have hp := List.find?_some hf
    simp only [Bool.and_eq_true] at hp
    exact hp.1.2
  next =>
    split at h
    · injection h with h
      exact absurd h.symm hr
    · have hp := List.find?_some h
      exact hp

/-- A non-PICKING role chosen by the loop body passed its cap check (both the
preservation path and the selection path check before assigning). -/
theorem chooseRole_canAssign (a : Associate) (jc : JobRole → Option ℕ)
    (src : Option (List SlotRangeCaps)) (f5 : Bool) (ir : Option JobRole)
    (st : SlotStates) (period : ScheduleBlock) (r : JobRole)
    (h : chooseRole a jc src f5 ir st period = some r) (hr : r ≠ .picking) :
    canAssignRole r period st jc src = true := by
  unfold chooseRole at h
  split at h
  next r' heq =>
    injection h with h
    subst h
    split at heq
    next =>
      split at heq
      · exact (tryPreserveRole_canAssign _ _ _ _ _ _ _ heq).2
      · exact absurd heq (by simp)
    next => exact absurd heq (by simp)
  next => exact selectRoleForPeriod_canAssign _ _ _ _ _ _ _ h hr

/-- One `_assign_roles` iteration never decreases any `role_counts` entry. -/
theorem assignRolesStep_counts_mono (a : Associate) (jc : JobRole → Option ℕ)
    (src : Option (List SlotRangeCaps)) (f5 : Bool)
    (acc : List JobAssignment × SlotStates × Option JobRole) (period : ScheduleBlock)
    (slot : ℕ) (role : JobRole) :
    (acc.2.1 slot).role_counts role
      ≤ ((assignRolesStep a jc src f5 acc period).2.1 slot).role_counts role := by
  obtain ⟨asgs, st, ir⟩ := acc
  unfold assignRolesStep
  dsimp only
  cases hcr : chooseRole a jc src f5 ir st period with
  | none => exact le_refl _
  | some rr =>
      dsimp only
      unfold bumpRange
      by_cases hin : period.start_slot ≤ slot ∧ slot < period.end_slot
      · rw [if_pos hin]
        simp only [roleBump]
        by_cases hrr : role = rr
        · rw [if_pos hrr]
          omega
        · rw [if_neg hrr]
      · rw [if_neg hin]

/-- One `_assign_roles` iteration preserves "every non-PICKING `role_counts` entry is
within its per-slot cap": the preservation and selection paths both run a cap check
before bumping, and the PICKING fallback only bumps the PICKING counter. -/
theorem assignRolesStep_capsOK (a : Associate) (jc : JobRole → Option ℕ)
    (src : Option (List SlotRangeCaps)) (f5 : Bool)
    (acc : List JobAssignment × SlotStates × Option JobRole) (period : ScheduleBlock)
    (hinv : ∀ slot (r : JobRole), r ≠ .picking →
      (acc.2.1 slot).role_counts r ≤ (getCapForSlot slot r jc src : ℤ)) :
    ∀ slot (r : JobRole), r ≠ .picking →
      ((assignRolesStep a jc src f5 acc period).2.1 slot).role_counts r
        ≤ (getCapForSlot slot r jc src : ℤ) := by
  obtain ⟨asgs, st, ir⟩ := acc
  intro slot r hr
  unfold assignRolesStep
  dsimp only
  cases hcr : chooseRole a jc src f5 ir st period with
  | none => exact hinv slot r hr
  | some rr =>
      dsimp only
      unfold bumpRange
      by_cases hin : period.start_slot ≤ slot ∧ slot < period.end_slot
      · rw [if_pos hin]
        simp only [roleBump]
        by_cases hrr : r = rr
        · rw [if_pos hrr]
          subst hrr
          have hca := chooseRole_canAssign a jc src f5 ir st period r hcr hr
          unfold canAssignRole at hca
          rw [List.all_eq_true] at hca
          have hlt := of_decide_eq_true (hca slot (mem_rangeList.2 hin))
          omega
        · rw [if_neg hrr]
          exact hinv slot r hr
      · rw [if_neg hin]
        exact hinv slot r hr

/-- A job assignment appended by one `_assign_roles` iteration has the whole block's
`role_counts` entry for its role bumped by that iteration. -/
theorem assignRolesStep_new_mem (a : Associate) (jc : JobRole → Option ℕ)
    (src : Option (List SlotRangeCaps)) (f5 : Bool)
    (acc : List JobAssignment × SlotStates × Option JobRole) (period : ScheduleBlock)
    (slot : ℕ) (role : JobRole) :
    ∀ ja ∈ (assignRolesStep a jc src f5 acc period).1, ja ∉ acc.1 →
      ja.role = role → ja.block.contains_slot slot = true →
      (acc.2.1 slot).role_counts role + 1
        ≤ ((assignRolesStep a jc src f5 acc period).2.1 slot).role_counts role := by
  obtain ⟨asgs, st, ir⟩ := acc
  intro ja hja hnot hrole hcont
  unfold assignRolesStep at hja ⊢
  dsimp only at hja ⊢
  cases hcr : chooseRole a jc src f5 ir st period with
  | none =>
      rw [hcr] at hja
      exact absurd hja hnot
  | some rr =>
      rw [hcr] at hja
      dsimp only at hja
      rcases List.mem_append.1 hja with h | h
      · exact absurd h hnot
      · rw [List.mem_singleton] at h
        subst h
        have hreq : rr = role := hrole
        subst hreq
        have hin : period.start_slot ≤ slot ∧ slot < period.end_slot := by
          unfold ScheduleBlock.contains_slot at hcont
          simp only [Bool.and_eq_true, decide_eq_true_eq] at hcont
          exact hcont
        dsimp only
        unfold bumpRange
        rw [if_pos hin]
        simp [roleBump]

/-- Fold form of the `_assign_roles` counting facts: the final `role_counts` dominate
the initial ones and strictly exceed them at every slot covered by a job assignment
the fold added. -/
theorem foldl_assignRolesStep_counts (a : Associate) (jc : JobRole → Option ℕ)
    (src : Option (List SlotRangeCaps)) (f5 : Bool) (l : List ScheduleBlock) :
    ∀ (init : List JobAssignment × SlotStates × Option JobRole) (slot : ℕ)
      (role : JobRole),
      (init.2.1 slot).role_counts role
        ≤ ((l.foldl (assignRolesStep a jc src f5) init).2.1 slot).role_counts role ∧
      (∀ ja ∈ (l.foldl (assignRolesStep a jc src f5) init).1, ja ∉ init.1 →
        ja.role = role → ja.block.contains_slot slot = true →
        (init.2.1 slot).role_counts role + 1
          ≤ ((l.foldl (assignRolesStep a jc src f5) init).2.1 slot).role_counts role) := by
  induction l with
  | nil =>
      intro init slot role
      exact ⟨le_refl _, fun ja hja hnot _ _ => absurd hja hnot⟩
  | cons p ps ih =>
      intro init slot role
      rw [List.foldl_cons]
      have hstep := assignRolesStep_counts_mono a jc src f5 init p slot role
      refine ⟨le_trans hstep (ih _ slot role).1, ?_⟩
      intro ja hja hnot hrole hcont
      by_cases hmem : ja ∈ (assignRolesStep a jc src f5 init p).1
      · have hbump := assignRolesStep_new_mem a jc src f5 init p slot role ja hmem hnot
          hrole hcont
        exact le_trans hbump (ih _ slot role).1
      · have hnew := (ih _ slot role).2 ja hja hmem hrole hcont
        omega

/-- Fold form of `assignRolesStep_capsOK`. -/
theorem foldl_assignRolesStep_capsOK (a : Associate) (jc : JobRole → Option ℕ)
    (src : Option (List SlotRangeCaps)) (f5 : Bool) (l : List ScheduleBlock) :
    ∀ (init : List JobAssignment × SlotStates × Option JobRole),
      (∀ slot (r : JobRole), r ≠ .picking →
        (init.2.1 slot).role_counts r ≤ (getCapForSlot slot r jc src : ℤ)) →
      ∀ slot (r : JobRole), r ≠ .picking →
        ((l.foldl (assignRolesStep a jc src f5) init).2.1 slot).role_counts r
          ≤ (getCapForSlot slot r jc src : ℤ) := by
  induction l with
  | nil => exact fun init h => h
  | cons p ps ih =>
      intro init h
      rw [List.foldl_cons]
      exact ih _ (assignRolesStep_capsOK a jc src f5 init p h)

/-- `_assign_roles`: the final `role_counts` dominate the initial ones and strictly
exceed them at every slot covered by one of the returned job assignments of that
role. -/
theorem assignRoles_counts (c : ShiftCandidate) (asg : ShiftAssignment) (a : Associate)
    (st : SlotStates) (jc : JobRole → Option ℕ) (src : Option (List SlotRangeCaps))
    (slot : ℕ) (role : JobRole) :
    (st slot).role_counts role
      ≤ ((assignRoles c asg a st jc src).2 slot).role_counts role ∧
    (∀ ja ∈ (assignRoles c asg a st jc src).1, ja.role = role →
      ja.block.contains_slot slot = true →
      (st slot).role_counts role + 1
        ≤ ((assignRoles c asg a st jc src).2 slot).role_counts role) := by
  unfold assignRoles
  split
  · exact ⟨le_refl _, fun ja hja _ _ => absurd hja (List.not_mem_nil ja)⟩
  · dsimp only
    have h := foldl_assignRolesStep_counts a jc src (decide (c.start_slot < 4))
      (getWorkPeriods c asg) ([], st, none) slot role
    exact ⟨h.1, fun ja hja => h.2 ja hja (List.not_mem_nil ja)⟩

/-- `_assign_roles` keeps every non-PICKING `role_counts` entry within its per-slot
cap. -/
theorem assignRoles_capsOK (c : ShiftCandidate) (asg : ShiftAssignment) (a : Associate)
    (st : SlotStates) (jc : JobRole → Option ℕ) (src : Option (List SlotRangeCaps))
    (hinv : ∀ slot (r : JobRole), r ≠ .picking →
      (st slot).role_counts r ≤ (getCapForSlot slot r jc src : ℤ)) :
    ∀ slot (r : JobRole), r ≠ .picking →
      ((assignRoles c asg a st jc src).2 slot).role_counts r
        ≤ (getCapForSlot slot r jc src : ℤ) := by
  intro slot r hr
  unfold assignRoles
  split
  · exact hinv slot r hr
  · dsimp only
    exact foldl_assignRolesStep_capsOK a jc src (decide (c.start_slot < 4))
      (getWorkPeriods c asg) ([], st, none) hinv slot r hr

/-- `buildAssignment` in closed form: the record built over `buildBase` with the
roles from `_assign_roles`, paired with the states `_assign_roles` returns. -/
theorem buildAssignment_eq (req : ScheduleRequest) (c : ShiftCandidate) (a : Associate)
    (st : SlotStates) :
    buildAssignment req c a st =
      ({ buildBase req c st with
          job_assignments := (assignRoles c (buildBase req c st) a
            (placePhase req c st).2.2 req.job_caps req.slot_range_caps).1 },
       (assignRoles c (buildBase req c st) a (placePhase req c st).2.2 req.job_caps
         req.slot_range_caps).2) := rfl

/-- The assignment built by `buildAssignment` carries exactly the `_assign_roles`
job list. -/
theorem buildAssignment_job_assignments (req : ScheduleRequest) (c : ShiftCandidate)
    (a : Associate) (st : SlotStates) :
    (buildAssignment req c a st).1.job_assignments =
      (assignRoles c (buildBase req c st) a (placePhase req c st).2.2 req.job_caps
        req.slot_range_caps).1 := rfl

/-- `countRoleAt` distributes over list append. -/
theorem countRoleAt_append (as bs : List (ℕ × ShiftAssignment)) (slot : ℕ)
    (role : JobRole) :
    countRoleAt (as ++ bs) slot role
      = countRoleAt as slot role + countRoleAt bs slot role := by
  unfold countRoleAt
  rw [List.filter_append, List.length_append]

/-- `get_role_at_slot` returns a role only if some listed job assignment has that
role and covers the slot. -/
theorem get_role_at_slot_mem (asg : ShiftAssignment) (slot : ℕ) (role : JobRole)
    (h : asg.get_role_at_slot slot = some role) :
    ∃ ja ∈ asg.job_assignments, ja.role = role ∧ ja.block.contains_slot slot = true := by
  unfold ShiftAssignment.get_role_at_slot at h
  cases hf : asg.job_assignments.find? (fun ja => ja.block.contains_slot slot) with
  | none => rw [hf] at h; exact absurd h (by simp)
  | some ja =>
      rw [hf] at h
      simp only [Option.map_some'] at h
      have hp := List.find?_some hf
      exact ⟨ja, List.mem_of_find?_eq_some hf, by injection h, hp⟩

/-- One iteration of the per-candidate solve loop preserves "per-slot per-role
coverage of the accumulated assignments is dominated by `role_counts`". -/
theorem processCandidate_dominates (req : ScheduleRequest)
    (amap : ℕ → Option Associate) (acc : List (ℕ × ShiftAssignment) × SlotStates)
    (c : ShiftCandidate)
    (hdom : ∀ slot role, (countRoleAt acc.1 slot role : ℤ)
      ≤ (acc.2 slot).role_counts role) :
    ∀ slot role, (countRoleAt (processCandidate req amap acc c).1 slot role : ℤ)
      ≤ ((processCandidate req amap acc c).2 slot).role_counts role := by
  intro slot role
  unfold processCandidate
  cases hm : amap c.associate_id with
  | none => exact hdom slot role
  | some a =>
      dsimp only
      rw [countRoleAt_append]
      have hmono := (assignRoles_counts c (buildBase req c acc.2) a
        (placePhase req c acc.2).2.2 req.job_caps req.slot_range_caps slot role).1
      have hmid := placePhase_role_counts req c acc.2 slot role
      have hsnd : (buildAssignment req c a acc.2).2 =
          (assignRoles c (buildBase req c acc.2) a (placePhase req c acc.2).2.2
            req.job_caps req.slot_range_caps).2 := rfl
      have hacc := hdom slot role
      by_cases hnew : ((buildAssignment req c a acc.2).1.is_on_floor slot
          && (buildAssignment req c a acc.2).1.get_role_at_slot slot == some role) = true
      · have h1 : countRoleAt [(c.associate_id, (buildAssignment req c a acc.2).1)]
            slot role = 1 := by
          unfold countRoleAt
          rw [List.filter_cons]
          rw [if_pos hnew]
          rfl
        rw [h1]
        simp only [Bool.and_eq_true, beq_iff_eq] at hnew
        obtain ⟨hja, hjamem, hjarole, hjacont⟩ :=
          get_role_at_slot_mem _ _ _ hnew.2
        rw [buildAssignment_job_assignments] at hjamem
        have hbump := (assignRoles_counts c (buildBase req c acc.2) a
          (placePhase req c acc.2).2.2 req.job_caps req.slot_range_caps slot role).2
          hja hjamem hjarole hjacont
        rw [hsnd]
        rw [hmid] at hbump
        push_cast
        omega
      · have h0 : countRoleAt [(c.associate_id, (buildAssignment req c a acc.2).1)]
            slot role = 0 := by
          unfold countRoleAt
          rw [List.filter_cons]
          rw [if_neg hnew]
          rfl
        rw [h0]
        rw [hsnd]
        rw [hmid] at hmono
        push_cast
        omega

/-- One iteration of the per-candidate solve loop preserves "every non-PICKING
`role_counts` entry is within its per-slot cap". -/
theorem processCandidate_capsOK (req : ScheduleRequest)
    (amap : ℕ → Option Associate) (acc : List (ℕ × ShiftAssignment) × SlotStates)
    (c : ShiftCandidate)
    (hinv : ∀ slot (r : JobRole), r ≠ .picking → (acc.2 slot).role_counts r
      ≤ (getCapForSlot slot r req.job_caps req.slot_range_caps : ℤ)) :
    ∀ slot (r : JobRole), r ≠ .picking →
      ((processCandidate req amap acc c).2 slot).role_counts r
        ≤ (getCapForSlot slot r req.job_caps req.slot_range_caps : ℤ) := by
  intro slot r hr
  unfold processCandidate
  cases hm : amap c.associate_id with
  | none => exact hinv slot r hr
  | some a =>
      dsimp only
      have hsnd : (buildAssignment req c a acc.2).2 =
          (assignRoles c (buildBase req c acc.2) a (placePhase req c acc.2).2.2
            req.job_caps req.slot_range_caps).2 := rfl
      rw [hsnd]
      refine assignRoles_capsOK _ _ _ _ _ _ ?_ slot r hr
      intro s' r' hr'
      rw [placePhase_role_counts]
      exact hinv s' r' hr'

/-- Fold form of `processCandidate_dominates`. -/
theorem foldl_processCandidate_dominates (req : ScheduleRequest)
    (amap : ℕ → Option Associate) (l : List ShiftCandidate) :
    ∀ (init : List (ℕ × ShiftAssignment) × SlotStates),
      (∀ slot role, (countRoleAt init.1 slot role : ℤ)
        ≤ (init.2 slot).role_counts role) →
      ∀ slot role,
        (countRoleAt (l.foldl (processCandidate req amap) init).1 slot role : ℤ)
          ≤ ((l.foldl (processCandidate req amap) init).2 slot).role_counts role := by
  induction l with
  | nil => exact fun init h => h
  | cons c cs ih =>
      intro init h
      rw [List.foldl_cons]
      exact ih _ (processCandidate_dominates req amap init c h)

/-- Fold form of `processCandidate_capsOK`. -/
theorem foldl_processCandidate_capsOK (req : ScheduleRequest)
    (amap : ℕ → Option Associate) (l : List ShiftCandidate) :
    ∀ (init : List (ℕ × ShiftAssignment) × SlotStates),
      (∀ slot (r : JobRole), r ≠ .picking → (init.2 slot).role_counts r
        ≤ (getCapForSlot slot r req.job_caps req.slot_range_caps : ℤ)) →
      ∀ slot (r : JobRole), r ≠ .picking →
        ((l.foldl (processCandidate req amap) init).2 slot).role_counts r
          ≤ (getCapForSlot slot r req.job_caps req.slot_range_caps : ℤ) := by
  induction l with
  | nil => exact fun init h => h
  | cons c cs ih =>
      intro init h
      rw [List.foldl_cons]
      exact ih _ (processCandidate_capsOK req amap init c h)

/-- C10: the per-day requests that both weekly coordinators construct for the solvers
omit the weekly request's `time_based_job_caps` (so, through `get_job_cap`, the
solvers see only the global per-role caps), whereas
`WeeklyScheduleRequest.create_day_request` would forward them. -/
theorem C10_day_requests_omit_time_based_caps :
    ∀ (r : WeeklyScheduleRequest) (d : ℤ) (adjusted : List Associate),
      (weeklyBuildDayRequest r d adjusted).time_based_job_caps = none ∧
      (demandAwareBuildDayRequest r d adjusted).time_based_job_caps = none ∧
      (r.create_day_request d).time_based_job_caps = r.time_based_job_caps ∧
      (∀ slot role, (weeklyBuildDayRequest r d adjusted).get_job_cap slot role
          = (r.job_caps role).getD 999) ∧
      (∀ slot role, (demandAwareBuildDayRequest r d adjusted).get_job_cap slot role
          = (r.job_caps role).getD 999) :=
  fun _ _ _ => ⟨rfl, rfl, rfl, fun _ _ => rfl, fun _ _ => rfl⟩

/-! ## Claim C4 -/

/-- Concrete instance for C4: an associate eligible for exactly `SR` and `PICKING`,
all preferences neutral, and a lunch-free selected candidate. -/
def c4Associate : Associate :=
  { id := 7, availability := fun _ => some { start_slot := 0, end_slot := 16 },
    supervisor_allowed_roles := fun r => r == .sr || r == .picking }

def c4Candidate : ShiftCandidate :=
  { associate_id := 7, start_slot := 0, end_slot := 16, work_minutes := 240,
    lunch_slots := 0, break_count := 0 }

def c4Assignment : ShiftAssignment :=
  { associate_id := 7, schedule_date := 0, shift_start_slot := 0, shift_end_slot := 16 }

/-- C4 counterexample: for a concrete candidate (no lunch required) the CP
extractor's role assignment differs from what the heuristic's role-assignment
routine produces for the same candidate, lunch and fresh slot states: the heuristic
assigns `SR` (its constrained-priority list includes `SR`), the CP extractor assigns
`PICKING` (its list omits `SR`) — so the two procedures are not the same. -/
theorem C4_counterexample :
    cpAssignRoles c4Candidate c4Assignment c4Associate defaultJobCaps ≠
      (assignRoles c4Candidate c4Assignment c4Associate initialSlotStates
        defaultJobCaps none).1 := by decide

/-- C4 (amended): the CP solver's solution extraction computes the work periods of a
selected candidate with a fixed lunch by the same procedure as the heuristic solver
(the two `_get_work_periods` methods agree on all inputs), but it places breaks and
assigns roles with its own simpler routines, whose results can differ from the
heuristic's break-placement and role-assignment routines. -/
theorem C4_work_periods_agree :
    ∀ (c : ShiftCandidate) (asg : ShiftAssignment),
      cpGetWorkPeriods c asg = getWorkPeriods c asg :=
  fun _ _ => rfl

/-! ## Claim C3 -/

/-- Concrete instance for C3: an associate allowed no roles at all (empty effective
eligibility), available 8 hours on a 16-slot day. -/
def c3Associate : Associate :=
  { id := 1, availability := fun _ => some { start_slot := 0, end_slot := 16 },
    supervisor_allowed_roles := fun _ => false }

def c3Request : ScheduleRequest :=
  { schedule_date := 0, associates := [c3Associate],
    day_start_minutes := 300, day_end_minutes := 540, job_caps := defaultJobCaps }

def c3Map : ℕ → Option Associate := fun i => if i == 1 then some c3Associate else none

/-- C3 counterexample: the worker's effective eligibility set is empty, yet the
heuristic solver, run on the candidates generated for the request, gives the worker
a shift assignment — the claim "the worker is never scheduled" is false. -/
theorem C3_counterexample :
    (JobRole.all.all (fun r => !(c3Associate.eligible r))) = true ∧
    ((heuristicSolve c3Request (generateAllCandidates c3Request 2) c3Map).assignments.lookup
        1).isSome = true := by decide

/-- C3 (amended): a worker whose effective eligibility set is empty can still be
selected and scheduled by the heuristic solver; what the solver guarantees is that
every shift assignment it produces for such a worker carries an empty role list
(`_assign_roles` returns no assignments). -/
theorem C3_empty_eligibility_means_no_roles
    (req : ScheduleRequest) (candidates : List (ℕ × List ShiftCandidate))
    (amap : ℕ → Option Associate) (p : ℕ × ShiftAssignment)
    (hp : p ∈ (heuristicSolve req candidates amap).assignments)
    (a : Associate) (ha : amap p.1 = some a) (helig : ∀ r, a.eligible r = false) :
    p.2.job_assignments = [] := by
  rw [heuristicSolve_assignments] at hp
  rcases mem_foldl_processCandidate req amap _ _ _ hp with h | ⟨c, _, a', st, ha', hp'⟩
  · simp at h
  · have h1 : p.1 = c.associate_id := by rw [hp']
    rw [h1] at ha
    rw [ha] at ha'
    have h2 : a = a' := Option.some.inj ha'
    have h3 : p.2 = (buildAssignment req c a' st).1 := by rw [hp']
    rw [h3, ← h2]
    exact buildAssignment_empty_eligibility req c a st helig

/-- The pair the heuristic produces for the C3 instance (checked by `decide` in the
witness below). -/
def c3Pair : ℕ × ShiftAssignment :=
  (1, { associate_id := 1, schedule_date := 0, shift_start_slot := 0,
        shift_end_slot := 16, lunch_block := none, break_blocks := [],
        job_assignments := [], slot_minutes := 15 })

/-- C3 witness: the amended theorem applied to the concrete empty-eligibility
instance. -/
theorem C3_witness :
    (JobRole.all.all fun r => !(c3Associate.eligible r)) = true ∧
    c3Map c3Pair.1 = some c3Associate ∧
    c3Pair ∈ (heuristicSolve c3Request (generateAllCandidates c3Request 2) c3Map).assignments ∧
    c3Pair.2.job_assignments = [] :=
  ⟨by decide, rfl, by decide,
    C3_empty_eligibility_means_no_roles c3Request (generateAllCandidates c3Request 2) c3Map
      c3Pair (by decide) c3Associate rfl
      (by intro r; cases r <;> rfl)⟩

/-! ## Claim C2 -/

/-- Concrete instance for C2: two PICKING-only workers and a request whose global cap
for PICKING is 1. -/
def c2Associate1 : Associate :=
  { id := 1, availability := fun _ => some { start_slot := 0, end_slot := 16 },
    supervisor_allowed_roles := fun r => r == .picking }

def c2Associate2 : Associate :=
  { id := 2, availability := fun _ => some { start_slot := 0, end_slot := 16 },
    supervisor_allowed_roles := fun r => r == .picking }

def c2Request : ScheduleRequest :=
  { schedule_date := 0, associates := [c2Associate1, c2Associate2],
    day_start_minutes := 300, day_end_minutes := 540,
    job_caps := fun r => if r == .picking then some 1 else some 999 }

def c2Map : ℕ → Option Associate := fun i =>
  if i == 1 then some c2Associate1 else if i == 2 then some c2Associate2 else none

/-- C2 counterexample: the request gives PICKING a finite cap of 1, yet the heuristic
solver schedules both PICKING-only workers as PICKING on the same slots — coverage 2
exceeds the cap, because `_select_role_for_period` returns PICKING without any cap
check. -/
theorem C2_counterexample :
    (heuristicSolve c2Request (generateAllCandidates c2Request 2) c2Map).get_role_coverage_at_slot
        0 .picking > c2Request.get_job_cap 0 .picking := by decide

/-- Every path of `_assign_roles` that assigns a non-PICKING role runs a cap check
first, so the coverage of every role other than PICKING stays within the per-slot
cap of `_get_cap_for_slot` (first matching slot-range override, else the global
cap). -/
theorem heuristicSolve_role_coverage_le_cap (req : ScheduleRequest)
    (cands : List (ℕ × List ShiftCandidate)) (amap : ℕ → Option Associate)
    (slot : ℕ) (role : JobRole) (hrole : role ≠ .picking) :
    (heuristicSolve req cands amap).get_role_coverage_at_slot slot role
      ≤ getCapForSlot slot role req.job_caps req.slot_range_caps := by
  have hsel : ∀ (s : ℕ) (r : JobRole),
      (((selectShifts cands initialSlotStates req.shift_block_configs
          req.shift_start_configs).2.1) s).role_counts r = 0 := by
    intro s r
    rw [selectShifts_role_counts]
    rfl
  have hdom := foldl_processCandidate_dominates req amap
    (stableSortBy (fun c d => decide (c.start_slot ≤ d.start_slot))
      (selectShifts cands initialSlotStates req.shift_block_configs
        req.shift_start_configs).1)
    ([], (selectShifts cands initialSlotStates req.shift_block_configs
      req.shift_start_configs).2.1)
    (by
      intro s r
      dsimp only
      rw [hsel s r]
      simp [countRoleAt])
    slot role
  have hcap := foldl_processCandidate_capsOK req amap
    (stableSortBy (fun c d => decide (c.start_slot ≤ d.start_slot))
      (selectShifts cands initialSlotStates req.shift_block_configs
        req.shift_start_configs).1)
    ([], (selectShifts cands initialSlotStates req.shift_block_configs
      req.shift_start_configs).2.1)
    (by
      intro s r hr
      dsimp only
      rw [hsel s r]
      exact Int.natCast_nonneg _)
    slot role hrole
  have hcov : (heuristicSolve req cands amap).get_role_coverage_at_slot slot role
      = countRoleAt ((stableSortBy (fun c d => decide (c.start_slot ≤ d.start_slot))
          (selectShifts cands initialSlotStates req.shift_block_configs
            req.shift_start_configs).1).foldl (processCandidate req amap)
          ([], (selectShifts cands initialSlotStates req.shift_block_configs
            req.shift_start_configs).2.1)).1 slot role := by
    unfold DaySchedule.get_role_coverage_at_slot countRoleAt
    rw [heuristicSolve_assignments]
  rw [hcov]
  omega

/-- C2 (amended): for every request, candidate dictionary and associate map, the
schedule produced by the heuristic solver keeps the on-floor coverage of every role
other than PICKING within the per-slot cap of `_get_cap_for_slot` (the first
matching slot-range override, else the global cap): every path of `_assign_roles`
that assigns a non-PICKING role runs a cap check first.  The PICKING fallback of
`_select_role_for_period` is not cap-checked, so the claim's "in particular …
PICKING" clause fails (counterexample above). -/
theorem C2_role_caps_hold_except_picking (req : ScheduleRequest)
    (cands : List (ℕ × List ShiftCandidate)) (amap : ℕ → Option Associate)
    (slot : ℕ) (role : JobRole) (hrole : role ≠ .picking) :
    (heuristicSolve req cands amap).get_role_coverage_at_slot slot role
      ≤ getCapForSlot slot role req.job_caps req.slot_range_caps :=
  heuristicSolve_role_coverage_le_cap req cands amap slot role hrole

/-- C2 witness: the cap bound instantiated at the concrete C2 request, slot 0 and the
non-PICKING role GMD SM. -/
theorem C2_witness :
    ((.gmd_sm : JobRole) ≠ .picking) ∧
    (heuristicSolve c2Request (generateAllCandidates c2Request 2)
        c2Map).get_role_coverage_at_slot 0 .gmd_sm
      ≤ getCapForSlot 0 .gmd_sm c2Request.job_caps c2Request.slot_range_caps :=
  ⟨by decide, C2_role_caps_hold_except_picking c2Request
    (generateAllCandidates c2Request 2) c2Map 0 .gmd_sm (by decide)⟩

/-! ## Claim C7 -/

/-- Members of a `takeWhile` are members of the list. -/
theorem mem_of_mem_takeWhile {α : Type} {p : α → Bool} {l : List α} {x : α}
    (h : x ∈ l.takeWhile p) : x ∈ l := by
  induction l with
  | nil => exact absurd h (by simp)
  | cons a as ih =>
      rw [List.takeWhile_cons] at h
      split at h
      · rcases List.mem_cons.1 h with h | h
        · exact h ▸ List.mem_cons_self a as
        · exact List.mem_cons_of_mem a (ih h)
      · exact absurd h (by simp)

/-- The running argmax keeps either the accumulator's position or the scanned one. -/
theorem bestStep_fst (g : ℕ → ℚ) (acc : ℕ × Option ℚ) (s : ℕ) :
    (bestStep g acc s).1 = acc.1 ∨ (bestStep g acc s).1 = s := by
  unfold bestStep
  cases hb : acc.2 with
  | none => exact Or.inr rfl
  | some b =>
      dsimp only
      by_cases hgt : g s > b
      · rw [if_pos hgt]
        exact Or.inr rfl
      · rw [if_neg hgt]
        exact Or.inl rfl

/-- The position returned by an argmax scan is the initial one or a scanned one. -/
theorem foldl_bestStep_mem (g : ℕ → ℚ) (l : List ℕ) :
    ∀ init : ℕ × Option ℚ,
      (l.foldl (bestStep g) init).1 = init.1 ∨ (l.foldl (bestStep g) init).1 ∈ l := by
  induction l with
  | nil => intro init; exact Or.inl rfl
  | cons s ss ih =>
      intro init
      rw [List.foldl_cons]
      rcases ih (bestStep g init s) with h | h
      · rcases bestStep_fst g init s with h2 | h2
        · exact Or.inl (h.trans h2)
        · rw [h, h2]
          exact Or.inr (List.mem_cons_self s ss)
      · exact Or.inr (List.mem_cons_of_mem s h)

/-- The lunch start chosen by `_place_lunch` is the loop start or a scanned
position. -/
theorem placeLunch_start_cases (c : ShiftCandidate) (states : SlotStates)
    (busy : Bool) (d : ℕ) :
    (placeLunch c states busy d).start_slot = lunchLoopStart c busy d ∨
    (placeLunch c states busy d).start_slot ∈ lunchPositions c busy d := by
  unfold placeLunch
  dsimp only
  exact foldl_bestStep_mem _ _ _

/-- Bounds on `get_lunch_window` for a nonzero lunch, with the window width
abstracted. -/
theorem lunchWindow_bounds (ss se ls sm W : ℕ) (busy : Bool) (hls : ls ≠ 0)
    (hW : (if busy then (60:ℕ) else 30) / sm = W) :
    ss + (se - ss)/2 - ls/2 - W ≤ (lunchWindow ss se ls busy sm).1 ∧
    (lunchWindow ss se ls busy sm).1 ≤ max (ss + 4) (ss + (se - ss)/2 - ls/2) ∧
    (lunchWindow ss se ls busy sm).2
      ≤ max (max (ss + 4) (ss + (se - ss)/2 - ls/2)) (ss + (se - ss)/2 - ls/2 + W) := by
  unfold lunchWindow
  rw [if_neg hls]
  dsimp only
  rw [hW]
  refine ⟨?_, ?_, ?_⟩ <;> omega

/-- Bounds on the loop start of `_place_lunch`. -/
theorem lunchLoopStart_bounds (c : ShiftCandidate) (busy : Bool) (d W : ℕ)
    (hls : c.lunch_slots ≠ 0)
    (hW : (if busy then (60:ℕ) else 30) / c.slot_minutes = W) :
    lunchTarget c - W ≤ lunchLoopStart c busy d ∧
    lunchLoopStart c busy d ≤ max (c.start_slot + 4) (lunchTarget c) := by
  have hb := lunchWindow_bounds c.start_slot c.end_slot c.lunch_slots c.slot_minutes
    W busy hls hW
  unfold lunchLoopStart
  dsimp only
  split
  · exact ⟨Nat.sub_le _ _, le_max_right _ _⟩
  · exact ⟨hb.1, hb.2.1⟩

/-- Scanned lunch positions lie between the loop start and the window's latest
slot. -/
theorem lunchPositions_bounds (c : ShiftCandidate) (busy : Bool) (d p : ℕ)
    (hp : p ∈ lunchPositions c busy d) :
    lunchLoopStart c busy d ≤ p ∧
    p ≤ (lunchWindow c.start_slot c.end_slot c.lunch_slots busy c.slot_minutes).2 := by
  unfold lunchPositions at hp
  have hp2 := mem_of_mem_takeWhile hp
  rw [mem_rangeList] at hp2
  omega

/-- The arithmetic core of C7: a lunch start within `W` of the midpoint target (or
at the hard-coded `start + 4` floor) leaves at least an hour on each side, provided
the shift carries at least 360 work minutes, the slot size is at most an hour and
the scan window is at most an hour wide. -/
theorem lunch_margin_arith (ws ls sm W p start t : ℕ)
    (hsm : 1 ≤ sm) (hsm60 : sm ≤ 60) (hwork : 360 ≤ ws * sm)
    (hWsm : W * sm ≤ 60)
    (ht : t = start + (ws + ls)/2 - ls/2)
    (hlow : t - W ≤ p)
    (hup : p ≤ max (start + 4) (t + W)) :
    60 ≤ (p - start) * sm ∧ 60 ≤ (start + ws + ls - (p + ls)) * sm := by
  have hmul : ∀ x y : ℕ, x ≤ y → x * sm ≤ y * sm :=
    fun x y h => Nat.mul_le_mul_right sm h
  have h300 : 300 ≤ (ws - 1) * sm := by
    have h1 : (ws - 1) * sm = ws * sm - sm := by rw [Nat.sub_mul, one_mul]
    omega
  have hDsm : 150 ≤ (t - start) * sm := by
    have h1 := hmul (ws - 1) (2 * (t - start)) (by omega)
    have h2 : (2 * (t - start)) * sm = 2 * ((t - start) * sm) := by ring
    omega
  have hDsm2 : 2 * ((t - start) * sm) ≤ ws * sm + sm := by
    have h1 := hmul (2 * (t - start)) (ws + 1) (by omega)
    have h2 : (2 * (t - start)) * sm = 2 * ((t - start) * sm) := by ring
    have h3 : (ws + 1) * sm = ws * sm + sm := by rw [Nat.add_mul, one_mul]
    omega
  constructor
  · have hp1 : (t - start) - W ≤ p - start := by omega
    have h1 := hmul _ _ hp1
    have h2 : ((t - start) - W) * sm = (t - start) * sm - W * sm := by rw [Nat.sub_mul]
    omega
  · rcases le_max_iff.1 hup with h | h
    · have hp1 : ws - 4 ≤ start + ws + ls - (p + ls) := by omega
      have h1 := hmul _ _ hp1
      have h2 : (ws - 4) * sm = ws * sm - 4 * sm := by rw [Nat.sub_mul]
      have h3 : 4 * sm ≤ 240 := by omega
      omega
    · have hp1 : ws - (t - start) - W ≤ start + ws + ls - (p + ls) := by omega
      have h1 := hmul _ _ hp1
      have h2 : (ws - (t - start) - W) * sm
          = (t - start) * sm * 0 + ((ws - (t - start)) * sm - W * sm) := by
        rw [Nat.sub_mul, Nat.sub_mul]
        ring_nf
      have h4 : (ws - (t - start)) * sm = ws * sm - (t - start) * sm := by
        rw [Nat.sub_mul]
      omega

/-- The lunch block chosen by `_place_lunch` for a policy-required lunch keeps at
least 60 minutes clear on each side of the shift. -/
theorem placeLunch_margins (c : ShiftCandidate) (ws : ℕ)
    (states : SlotStates) (busy : Bool) (day_start : ℕ)
    (hend : c.end_slot = c.start_slot + ws + c.lunch_slots)
    (hls : c.lunch_slots = lunchDuration (ws * c.slot_minutes) / c.slot_minutes)
    (hreq : 1 ≤ c.lunch_slots) (hsm : 1 ≤ c.slot_minutes) :
    (placeLunch c states busy day_start).end_slot
      = (placeLunch c states busy day_start).start_slot + c.lunch_slots ∧
    60 ≤ ((placeLunch c states busy day_start).start_slot - c.start_slot)
      * c.slot_minutes ∧
    60 ≤ (c.end_slot - (placeLunch c states busy day_start).end_slot)
      * c.slot_minutes := by
  have hL : c.slot_minutes ≤ lunchDuration (ws * c.slot_minutes) := by
    have h1 := hreq
    rw [hls] at h1
    exact (Nat.one_le_div_iff (by omega)).1 h1
  have hld60 : lunchDuration (ws * c.slot_minutes) ≤ 60 := by
    unfold lunchDuration
    split
    · omega
    · split <;> omega
  have hwork : 360 ≤ ws * c.slot_minutes := by
    by_contra hlt
    push_neg at hlt
    unfold lunchDuration at hL
    rw [if_pos hlt] at hL
    omega
  have hsm60 : c.slot_minutes ≤ 60 := le_trans hL hld60
  set W := (if busy then (60:ℕ) else 30) / c.slot_minutes with hWdef
  have hWsm : W * c.slot_minutes ≤ 60 := by
    rw [hWdef]
    have h2 : (if busy then (60:ℕ) else 30) ≤ 60 := by split <;> omega
    exact le_trans (Nat.div_mul_le_self _ _) h2
  have hlsne : c.lunch_slots ≠ 0 := by omega
  have hloop := lunchLoopStart_bounds c busy day_start W hlsne hWdef.symm
  have ht : lunchTarget c
      = c.start_slot + (ws + c.lunch_slots)/2 - c.lunch_slots/2 := by
    unfold lunchTarget
    omega
  have hpb : lunchTarget c - W ≤ (placeLunch c states busy day_start).start_slot ∧
      (placeLunch c states busy day_start).start_slot
        ≤ max (c.start_slot + 4) (lunchTarget c + W) := by
    rcases placeLunch_start_cases c states busy day_start with h | h
    · rw [h]
      have h2 := hloop.2
      exact ⟨hloop.1, by omega⟩
    · have hb := lunchPositions_bounds c busy day_start _ h
      have hwb := lunchWindow_bounds c.start_slot c.end_slot c.lunch_slots
        c.slot_minutes W busy hlsne hWdef.symm
      have htr : lunchTarget c
          = c.start_slot + (c.end_slot - c.start_slot)/2 - c.lunch_slots/2 := rfl
      have h1 := hloop.1
      have h2 := hwb.2.2
      omega
  have harith := lunch_margin_arith ws c.lunch_slots c.slot_minutes W
    (placeLunch c states busy day_start).start_slot c.start_slot (lunchTarget c)
    hsm hsm60 hwork hWsm (by omega) hpb.1 hpb.2
  refine ⟨rfl, harith.1, ?_⟩
  have hendeq : (placeLunch c states busy day_start).end_slot
      = (placeLunch c states busy day_start).start_slot + c.lunch_slots := rfl
  rw [hendeq, hend]
  exact harith.2

/-- C7: for every candidate shift that the lunch policy obliges to carry a lunch
(`lunch_slots ≥ 1` with `lunch_slots` computed from the policy's duration), every
slot-state table, busy-day flag, day start and slot size, the lunch block chosen by
`_place_lunch` starts at least 60 minutes after the shift starts and ends at least
60 minutes before the shift ends — it never occupies a slot of the first or the
last hour of the shift. -/
theorem C7_required_lunch_avoids_first_and_last_hour (c : ShiftCandidate) (ws : ℕ)
    (states : SlotStates) (busy : Bool) (day_start : ℕ)
    (hend : c.end_slot = c.start_slot + ws + c.lunch_slots)
    (hls : c.lunch_slots = lunchDuration (ws * c.slot_minutes) / c.slot_minutes)
    (hreq : 1 ≤ c.lunch_slots) (hsm : 1 ≤ c.slot_minutes) :
    (placeLunch c states busy day_start).end_slot
      = (placeLunch c states busy day_start).start_slot + c.lunch_slots ∧
    60 ≤ ((placeLunch c states busy day_start).start_slot - c.start_slot)
      * c.slot_minutes ∧
    60 ≤ (c.end_slot - (placeLunch c states busy day_start).end_slot)
      * c.slot_minutes :=
  placeLunch_margins c ws states busy day_start hend hls hreq hsm

/-- Concrete instance for the C7 witness: a 6-hour shift on 15-minute slots (24 work
slots, 2 lunch slots). -/
def c7Candidate : ShiftCandidate :=
  { associate_id := 1, start_slot := 0, end_slot := 26, work_minutes := 360,
    lunch_slots := 2, break_count := 1, slot_minutes := 15 }

/-- C7 witness: the margin bound instantiated at the concrete 6-hour shift. -/
theorem C7_witness :
    c7Candidate.end_slot = c7Candidate.start_slot + 24 + c7Candidate.lunch_slots ∧
    c7Candidate.lunch_slots
      = lunchDuration (24 * c7Candidate.slot_minutes) / c7Candidate.slot_minutes ∧
    1 ≤ c7Candidate.lunch_slots ∧ 1 ≤ c7Candidate.slot_minutes ∧
    ((placeLunch c7Candidate initialSlotStates false 300).end_slot
      = (placeLunch c7Candidate initialSlotStates false 300).start_slot
          + c7Candidate.lunch_slots ∧
     60 ≤ ((placeLunch c7Candidate initialSlotStates false 300).start_slot
       - c7Candidate.start_slot) * c7Candidate.slot_minutes ∧
     60 ≤ (c7Candidate.end_slot
       - (placeLunch c7Candidate initialSlotStates false 300).end_slot)
       * c7Candidate.slot_minutes) :=
  ⟨by decide, by decide, by decide, by decide,
   C7_required_lunch_avoids_first_and_last_hour c7Candidate 24 initialSlotStates
     false 300 (by decide) (by decide) (by decide) (by decide)⟩

/-! ## Claim C8 -/

/-- A successful `lookup` means the pair is listed. -/
theorem lookup_mem {β : Type} {l : List (ℕ × β)} {id : ℕ} {b : β}
    (h : l.lookup id = some b) : (id, b) ∈ l := by
  induction l with
  | nil => exact absurd h (by simp)
  | cons p ps ih =>
      obtain ⟨k, v⟩ := p
      cases hk : id == k with
      | true =>
          simp only [List.lookup_cons, hk] at h
          have hid : id = k := by simpa using hk
          subst hid
          injection h with h
          subst h
          exact List.mem_cons_self _ _
      | false =>
          simp only [List.lookup_cons, hk] at h
          exact List.mem_cons_of_mem _ (ih h)

/-- `generateCandidates` with its `let`s unfolded (used to destructure membership
proofs). -/
theorem generateCandidates_eq (a : Associate) (req : ScheduleRequest) (step_slots : ℕ) :
    generateCandidates a req step_slots =
      if (a.get_availability req.schedule_date).is_off then []
      else if min req.total_slots (a.get_availability req.schedule_date).end_slot
            - max 0 (a.get_availability req.schedule_date).start_slot
            < minWorkMinutes / req.slot_minutes then []
      else
        (rangeStep (max 0 (a.get_availability req.schedule_date).start_slot)
            (min req.total_slots (a.get_availability req.schedule_date).end_slot)
            step_slots).flatMap fun start_slot =>
          (rangeStep (minWorkMinutes / req.slot_minutes)
              (maxWorkMinutes / req.slot_minutes + 1) step_slots).filterMap fun work_slots =>
            if work_slots * req.slot_minutes > a.max_minutes_per_day then none
            else if start_slot + (work_slots
                  + lunchDuration (work_slots * req.slot_minutes) / req.slot_minutes)
                > min req.total_slots (a.get_availability req.schedule_date).end_slot then
              none
            else if start_slot + (work_slots
                  + lunchDuration (work_slots * req.slot_minutes) / req.slot_minutes)
                > req.total_slots then none
            else
              some { associate_id := a.id, start_slot := start_slot,
                     end_slot := start_slot + (work_slots
                       + lunchDuration (work_slots * req.slot_minutes) / req.slot_minutes),
                     work_minutes := work_slots * req.slot_minutes,
                     lunch_slots := lunchDuration (work_slots * req.slot_minutes)
                       / req.slot_minutes,
                     break_count := breakCount (work_slots * req.slot_minutes),
                     slot_minutes := req.slot_minutes } := rfl

/-- Structural facts about every generated candidate: its id, its daily-cap bound
and the slot decomposition of its window. -/
theorem mem_generateCandidates_facts (a : Associate) (req : ScheduleRequest)
    (step_slots : ℕ) (c : ShiftCandidate)
    (hc : c ∈ generateCandidates a req step_slots) :
    c.associate_id = a.id ∧ c.work_minutes ≤ a.max_minutes_per_day ∧
    ∃ ws, c.end_slot = c.start_slot + ws + c.lunch_slots
      ∧ c.work_minutes = ws * c.slot_minutes := by
  rw [generateCandidates_eq] at hc
  split at hc
  · exact absurd hc (by simp)
  · split at hc
    · exact absurd hc (by simp)
    · rw [List.mem_flatMap] at hc
      obtain ⟨start, hstart, hc⟩ := hc
      rw [List.mem_filterMap] at hc
      obtain ⟨ws, hws, hcc⟩ := hc
      split at hcc
      · exact absurd hcc (by simp)
      · split at hcc
        · exact absurd hcc (by simp)
        · split at hcc
          · exact absurd hcc (by simp)
          · rename_i hwork hend hday
            have hc2 := Option.some.inj hcc
            subst hc2
            refine ⟨rfl, ?_, ws, ?_, rfl⟩
            · show ws * req.slot_minutes ≤ a.max_minutes_per_day
              omega
            · show start + (ws + lunchDuration (ws * req.slot_minutes) / req.slot_minutes)
                = start + ws + lunchDuration (ws * req.slot_minutes) / req.slot_minutes
              omega

/-- Full structural facts about every generated candidate: id, slot size, the
availability and day-bound checks, the daily cap, and the policy-derived work/lunch/
break decomposition of its window. -/
theorem mem_generateCandidates_full (a : Associate) (req : ScheduleRequest)
    (step_slots : ℕ) (c : ShiftCandidate) (hstep : 1 ≤ step_slots)
    (hc : c ∈ generateCandidates a req step_slots) :
    c.associate_id = a.id ∧
    c.slot_minutes = req.slot_minutes ∧
    (a.get_availability req.schedule_date).is_off = false ∧
    (a.get_availability req.schedule_date).start_slot ≤ c.start_slot ∧
    c.end_slot ≤ (a.get_availability req.schedule_date).end_slot ∧
    c.end_slot ≤ req.total_slots ∧
    c.work_minutes ≤ a.max_minutes_per_day ∧
    ∃ ws, minWorkMinutes / req.slot_minutes ≤ ws ∧
      ws ≤ maxWorkMinutes / req.slot_minutes ∧
      c.end_slot = c.start_slot + ws + c.lunch_slots ∧
      c.work_minutes = ws * req.slot_minutes ∧
      c.lunch_slots = lunchDuration (ws * req.slot_minutes) / req.slot_minutes ∧
      c.break_count = breakCount (ws * req.slot_minutes) := by
  rw [generateCandidates_eq] at hc
  split at hc
  next hoff => exact absurd hc (by simp)
  next hoff =>
    split at hc
    · exact absurd hc (by simp)
    · rw [List.mem_flatMap] at hc
      obtain ⟨start, hstart, hc⟩ := hc
      rw [List.mem_filterMap] at hc
      obtain ⟨ws, hws, hcc⟩ := hc
      have hstart2 := mem_rangeStep hstep hstart
      have hws2 := mem_rangeStep hstep hws
      split at hcc
      · exact absurd hcc (by simp)
      · split at hcc
        · exact absurd hcc (by simp)
        · split at hcc
          · exact absurd hcc (by simp)
          · rename_i hwork hend hday
            have hc2 := Option.some.inj hcc
            subst hc2
            push_neg at hwork hend hday
            refine ⟨rfl, rfl, by simpa using hoff,
              by
                have h1 := hstart2.1
                show _ ≤ start
                omega,
              by
                show start + _ ≤ _
                omega,
              by
                show start + _ ≤ _
                exact hday,
              hwork,
              ws, hws2.1, by omega, ?_, rfl, rfl, rfl⟩
            show start + (ws + lunchDuration (ws * req.slot_minutes) / req.slot_minutes)
              = start + ws + lunchDuration (ws * req.slot_minutes) / req.slot_minutes
            omega

/-- Every entry of `generate_all_candidates` is some associate's candidate list. -/
theorem mem_generateAllCandidates_entry (req : ScheduleRequest) (step_slots : ℕ)
    (entry : ℕ × List ShiftCandidate)
    (he : entry ∈ generateAllCandidates req step_slots) :
    ∃ a ∈ req.associates, entry.1 = a.id
      ∧ entry.2 = generateCandidates a req step_slots := by
  unfold generateAllCandidates at he
  rw [List.mem_filterMap] at he
  obtain ⟨a, ha, hcc⟩ := he
  dsimp only at hcc
  split at hcc
  · exact absurd hcc (by simp)
  · have h := Option.some.inj hcc
    exact ⟨a, ha, by rw [← h], by rw [← h]⟩

/-- The fairness-aware re-sorting keeps each entry's key and candidate set. -/
theorem mem_fairnessAwareCandidates_entry (request : ScheduleRequest)
    (states : WeeklyStates) (all_ids : List ℕ) (step_slots : ℕ)
    (entry : ℕ × List ShiftCandidate)
    (he : entry ∈ fairnessAwareCandidates request states all_ids step_slots) :
    ∃ entry0 ∈ generateAllCandidates request step_slots,
      entry.1 = entry0.1 ∧ ∀ c ∈ entry.2, c ∈ entry0.2 := by
  unfold fairnessAwareCandidates at he
  rw [List.mem_map] at he
  obtain ⟨p, hp, hpe⟩ := he
  refine ⟨p, hp, ?_⟩
  obtain ⟨pid, pcs⟩ := p
  subst hpe
  dsimp only
  split
  · exact ⟨rfl, fun c hc => hc⟩
  · repeat' split
    all_goals
      first
        | exact ⟨rfl, fun c hc => hc⟩
        | exact ⟨rfl, fun c hc => mem_stableSortBy.1 hc⟩

/-- One step of the inner `_select_shifts` scan keeps the running best or replaces
it with the scanned candidate. -/
theorem selectInner_cases (bon son : Bool) (bl : List ShiftBlockConfig)
    (sl : List ShiftStartConfig) (bs : ShiftBlockType → ℕ) (ss : ℕ → ℕ)
    (states : SlotStates) (best : Option (ShiftCandidate × ℚ)) (c : ShiftCandidate) :
    selectInner bon son bl sl bs ss states best c = best ∨
    ∃ s, selectInner bon son bl sl bs ss states best c = some (c, s) := by
  unfold selectInner
  split
  · exact Or.inl rfl
  · split
    · exact Or.inl rfl
    · cases best with
      | none => exact Or.inr ⟨_, rfl⟩
      | some pr =>
          obtain ⟨p1, p2⟩ := pr
          dsimp only
          split
          · exact Or.inr ⟨_, rfl⟩
          · exact Or.inl rfl

/-- The inner scan's result is the initial accumulator or carries a scanned
candidate. -/
theorem foldl_selectInner_mem (bon son : Bool) (bl : List ShiftBlockConfig)
    (sl : List ShiftStartConfig) (bs : ShiftBlockType → ℕ) (ss : ℕ → ℕ)
    (states : SlotStates) (l : List ShiftCandidate) :
    ∀ init, (l.foldl (selectInner bon son bl sl bs ss states) init) = init ∨
      ∃ c ∈ l, ∃ s,
        l.foldl (selectInner bon son bl sl bs ss states) init = some (c, s) := by
  induction l with
  | nil => intro init; exact Or.inl rfl
  | cons c cs ih =>
      intro init
      rw [List.foldl_cons]
      rcases ih (selectInner bon son bl sl bs ss states init c) with h | ⟨c', hc', s, hs⟩
      · rcases selectInner_cases bon son bl sl bs ss states init c with h2 | ⟨s, hs⟩
        · exact Or.inl (h.trans h2)
        · exact Or.inr ⟨c, List.mem_cons_self c cs, s, h.trans hs⟩
      · exact Or.inr ⟨c', List.mem_cons_of_mem c hc', s, hs⟩

/-- One `_select_shifts` step only adds candidates drawn from the processed
entry. -/
theorem selectStep_sel (bon son : Bool) (bl : List ShiftBlockConfig)
    (sl : List ShiftStartConfig)
    (acc : List ShiftCandidate × SlotStates × (ShiftBlockType → ℕ) × (ℕ → ℕ))
    (pair : ℕ × List ShiftCandidate) :
    ∀ bc ∈ (selectStep bon son bl sl acc pair).1, bc ∈ acc.1 ∨ bc ∈ pair.2 := by
  obtain ⟨sel, st, bs, ss⟩ := acc
  intro bc hbc
  unfold selectStep at hbc
  dsimp only at hbc
  split at hbc
  · exact Or.inl hbc
  · split at hbc
    · exact Or.inl hbc
    next bc' sc heq =>
      rcases List.mem_append.1 hbc with h | h
      · exact Or.inl h
      · rw [List.mem_singleton] at h
        subst h
        rcases foldl_selectInner_mem bon son bl sl bs ss st pair.2 none
          with h2 | ⟨c, hc, s, hs⟩
        · rw [heq] at h2
          exact absurd h2 (by simp)
        · rw [heq] at hs
          have hcc := Option.some.inj hs
          have hfst : bc = c := congrArg Prod.fst hcc
          exact Or.inr (by rw [hfst]; exact hc)

/-- Fold form of `selectStep_sel`. -/
theorem foldl_selectStep_sel (bon son : Bool) (bl : List ShiftBlockConfig)
    (sl : List ShiftStartConfig) (l : List (ℕ × List ShiftCandidate)) :
    ∀ init bc, bc ∈ (l.foldl (selectStep bon son bl sl) init).1 →
      bc ∈ init.1 ∨ ∃ entry ∈ l, bc ∈ entry.2 := by
  induction l with
  | nil => intro init bc h; exact Or.inl h
  | cons p ps ih =>
      intro init bc h
      rw [List.foldl_cons] at h
      rcases ih _ bc h with h2 | ⟨e, he, hbe⟩
      · rcases selectStep_sel bon son bl sl init p bc h2 with h3 | h3
        · exact Or.inl h3
        · exact Or.inr ⟨p, List.mem_cons_self p ps, h3⟩
      · exact Or.inr ⟨e, List.mem_cons_of_mem p he, hbe⟩

/-- Everything `_select_shifts` selects comes from some entry of the candidates
dict. -/
theorem mem_selectShifts (cands : List (ℕ × List ShiftCandidate)) (st0 : SlotStates)
    (bcfg : Option (List ShiftBlockConfig)) (scfg : Option (List ShiftStartConfig))
    (bc : ShiftCandidate) (h : bc ∈ (selectShifts cands st0 bcfg scfg).1) :
    ∃ entry ∈ cands, bc ∈ entry.2 := by
  unfold selectShifts at h
  dsimp only at h
  rcases foldl_selectStep_sel _ _ _ _ _ _ bc h with h2 | ⟨e, he, hbe⟩
  · exact absurd h2 (by simp)
  · exact ⟨e, mem_stableSortBy.1 he, hbe⟩

/-- The lunch block `buildAssignment` stores: `_place_lunch`'s block when the policy
requires a lunch, none otherwise. -/
theorem placePhase_fst (req : ScheduleRequest) (c : ShiftCandidate) (st : SlotStates) :
    (placePhase req c st).1 =
      if c.lunch_slots > 0 then
        some (placeLunch c st req.is_busy_day req.day_start_minutes)
      else none := by
  unfold placePhase
  dsimp only
  by_cases hl : c.lunch_slots > 0
  · rw [if_pos hl, if_pos hl]
  · rw [if_neg hl, if_neg hl]

/-- The built assignment's `work_minutes` equals the candidate's, for candidates
whose window decomposes into work plus lunch slots (the lunch block has exactly
`lunch_slots` slots, and breaks do not count against work minutes). -/
theorem buildAssignment_work_minutes (req : ScheduleRequest) (c : ShiftCandidate)
    (a : Associate) (st : SlotStates) (ws : ℕ)
    (hend : c.end_slot = c.start_slot + ws + c.lunch_slots)
    (hwork : c.work_minutes = ws * c.slot_minutes) :
    (buildAssignment req c a st).1.work_minutes = c.work_minutes := by
  have hfields : (buildAssignment req c a st).1.work_minutes
      = (buildBase req c st).work_minutes := rfl
  rw [hfields]
  unfold ShiftAssignment.work_minutes ShiftAssignment.total_shift_minutes
    ShiftAssignment.lunch_minutes
  have h1 : (buildBase req c st).shift_end_slot = c.end_slot := rfl
  have h2 : (buildBase req c st).shift_start_slot = c.start_slot := rfl
  have h3 : (buildBase req c st).slot_minutes = c.slot_minutes := rfl
  have h4 : (buildBase req c st).lunch_block = (placePhase req c st).1 := rfl
  rw [h1, h2, h3, h4, placePhase_fst]
  by_cases hl : c.lunch_slots > 0
  · rw [if_pos hl]
    dsimp only
    have hdur : (placeLunch c st req.is_busy_day req.day_start_minutes).duration_minutes
        = c.lunch_slots * c.slot_minutes := by
      unfold ScheduleBlock.duration_minutes
      have he : (placeLunch c st req.is_busy_day req.day_start_minutes).end_slot
          = (placeLunch c st req.is_busy_day req.day_start_minutes).start_slot
            + c.lunch_slots := rfl
      have hm : (placeLunch c st req.is_busy_day req.day_start_minutes).slot_minutes
          = c.slot_minutes := rfl
      rw [he, hm, Nat.add_sub_cancel_left]
    rw [hdur, hend, hwork]
    have h5 : c.start_slot + ws + c.lunch_slots - c.start_slot = ws + c.lunch_slots := by
      omega
    rw [h5, Nat.add_mul, Nat.add_sub_cancel]
  · rw [if_neg hl]
    dsimp only
    rw [hend, hwork]
    have hls0 : c.lunch_slots = 0 := by omega
    rw [hls0]
    have h5 : c.start_slot + ws + 0 - c.start_slot = ws := by omega
    rw [h5, Nat.sub_zero]

/-- The work minutes the heuristic schedule records for a worker are bounded by `B`
whenever every candidate carrying the worker's id is bounded by `B` and
structurally sound. -/
theorem heuristicSolve_lookup_bound (req : ScheduleRequest)
    (cands : List (ℕ × List ShiftCandidate)) (amap : ℕ → Option Associate)
    (id B : ℕ)
    (hcand : ∀ entry ∈ cands, ∀ c ∈ entry.2, c.associate_id = id →
      c.work_minutes ≤ B ∧
      ∃ ws, c.end_slot = c.start_slot + ws + c.lunch_slots
        ∧ c.work_minutes = ws * c.slot_minutes) :
    (match (heuristicSolve req cands amap).assignments.lookup id with
     | some asg => asg.work_minutes
     | none => 0) ≤ B := by
  cases hl : (heuristicSolve req cands amap).assignments.lookup id with
  | none => exact Nat.zero_le B
  | some asg =>
      have hmem : (id, asg) ∈ (heuristicSolve req cands amap).assignments :=
        lookup_mem hl
      rw [heuristicSolve_assignments] at hmem
      rcases mem_foldl_processCandidate req amap _ _ _ hmem with h | ⟨c, hc, a, st, ha, hp⟩
      · exact absurd h (by simp)
      · have hid : id = c.associate_id := congrArg Prod.fst hp
        have hasg : asg = (buildAssignment req c a st).1 := congrArg Prod.snd hp
        rw [mem_stableSortBy] at hc
        obtain ⟨entry, hentry, hce⟩ := mem_selectShifts _ _ _ _ c hc
        obtain ⟨hwb, ws, hend, hwork⟩ := hcand entry hentry c hce hid.symm
        have hw := buildAssignment_work_minutes req c a st ws hend hwork
        rw [hasg]
        dsimp only
        rw [hw]
        exact hwb

/-- Every adjusted associate descends from a working one, with its daily cap clamped
to the remaining weekly minutes. -/
theorem mem_adjustAssociates (associates : List Associate) (d : ℤ)
    (states : WeeklyStates) (a' : Associate)
    (h : a' ∈ adjustAssociates associates d states) :
    ∃ a0 ∈ associates, a'.id = a0.id ∧
      a'.max_minutes_per_day ≤ (states a0.id).remaining_minutes := by
  unfold adjustAssociates at h
  rw [List.mem_filterMap] at h
  obtain ⟨a0, ha0, hcc⟩ := h
  dsimp only at hcc
  split at hcc
  · exact absurd hcc (by simp)
  · have h2 := Option.some.inj hcc
    rw [← h2]
    exact ⟨a0, ha0, rfl, min_le_right _ _⟩

/-- `updateState` leaves every other key's state untouched. -/
theorem updateState_other (st : WeeklyStates) (k : ℕ)
    (f : AssociateWeeklyState → AssociateWeeklyState) (id : ℕ) (h : id ≠ k) :
    (updateState st k f) id = st id := by
  unfold updateState
  exact if_neg h

/-- `updateState` with a `minutes_scheduled`-preserving update preserves
`minutes_scheduled` everywhere. -/
theorem updateState_minutes (st : WeeklyStates) (k : ℕ)
    (f : AssociateWeeklyState → AssociateWeeklyState) (id : ℕ)
    (hf : ∀ s, (f s).minutes_scheduled = s.minutes_scheduled) :
    ((updateState st k f) id).minutes_scheduled = (st id).minutes_scheduled := by
  unfold updateState
  split
  · rw [hf]
  · rfl

/-- `updateState` with a `max_weekly_minutes`-preserving update preserves
`max_weekly_minutes` everywhere. -/
theorem updateState_max (st : WeeklyStates) (k : ℕ)
    (f : AssociateWeeklyState → AssociateWeeklyState) (id : ℕ)
    (hf : ∀ s, (f s).max_weekly_minutes = s.max_weekly_minutes) :
    ((updateState st k f) id).max_weekly_minutes = (st id).max_weekly_minutes := by
  unfold updateState
  split
  · rw [hf]
  · rfl

/-- One `_get_working_associates` step (which only ever marks days off) preserves
scheduled minutes and the weekly cap. -/
theorem workingStep_state (d : ℤ) (rem all : List ℤ) (pattern : DaysOffPattern)
    (rdo : ℕ) (fc : FairnessConfig) (ids : List ℕ)
    (acc : List Associate × WeeklyStates) (a : Associate) (id : ℕ) :
    ((workingStep d rem all pattern rdo fc ids acc a).2 id).minutes_scheduled
      = (acc.2 id).minutes_scheduled ∧
    ((workingStep d rem all pattern rdo fc ids acc a).2 id).max_weekly_minutes
      = (acc.2 id).max_weekly_minutes := by
  obtain ⟨working, st⟩ := acc
  unfold workingStep
  dsimp only
  split
  · exact ⟨updateState_minutes _ _ _ _ (fun _ => rfl),
      updateState_max _ _ _ _ (fun _ => rfl)⟩
  · split
    · exact ⟨updateState_minutes _ _ _ _ (fun _ => rfl),
        updateState_max _ _ _ _ (fun _ => rfl)⟩
    · split
      · exact ⟨updateState_minutes _ _ _ _ (fun _ => rfl),
          updateState_max _ _ _ _ (fun _ => rfl)⟩
      · split
        · exact ⟨rfl, rfl⟩
        · exact ⟨rfl, rfl⟩

/-- `_get_working_associates` preserves every worker's scheduled minutes and weekly
cap. -/
theorem getWorkingAssociates_state (associates : List Associate) (d : ℤ)
    (states : WeeklyStates) (rem all : List ℤ) (pattern : DaysOffPattern) (rdo : ℕ)
    (fc : FairnessConfig) (ids : List ℕ) (id : ℕ) :
    (((getWorkingAssociates associates d states rem all pattern rdo fc ids).2)
        id).minutes_scheduled = (states id).minutes_scheduled ∧
    (((getWorkingAssociates associates d states rem all pattern rdo fc ids).2)
        id).max_weekly_minutes = (states id).max_weekly_minutes := by
  unfold getWorkingAssociates
  have key : ∀ (l : List Associate) (acc : List Associate × WeeklyStates),
      ((l.foldl (workingStep d rem all pattern rdo fc ids) acc).2 id).minutes_scheduled
        = (acc.2 id).minutes_scheduled ∧
      ((l.foldl (workingStep d rem all pattern rdo fc ids) acc).2 id).max_weekly_minutes
        = (acc.2 id).max_weekly_minutes := by
    intro l
    induction l with
    | nil => intro acc; exact ⟨rfl, rfl⟩
    | cons a as ih =>
        intro acc
        rw [List.foldl_cons]
        have h1 := ih (workingStep d rem all pattern rdo fc ids acc a)
        have h2 := workingStep_state d rem all pattern rdo fc ids acc a id
        exact ⟨h1.1.trans h2.1, h1.2.trans h2.2⟩
  exact key associates ([], states)

/-- The shift-recording fold of `_update_weekly_states` never decreases anyone's
scheduled minutes and preserves the weekly cap. -/
theorem foldl_shiftStep_mono (d : ℤ) (known : List ℕ) (id : ℕ)
    (l : List (ℕ × ShiftAssignment)) :
    ∀ st : WeeklyStates,
      (st id).minutes_scheduled
        ≤ ((l.foldl (shiftStep d known) st) id).minutes_scheduled ∧
      ((l.foldl (shiftStep d known) st) id).max_weekly_minutes
        = (st id).max_weekly_minutes := by
  induction l with
  | nil => intro st; exact ⟨le_refl _, rfl⟩
  | cons p ps ih =>
      intro st
      rw [List.foldl_cons]
      have h1 := ih (shiftStep d known st p)
      have h2 : (st id).minutes_scheduled
            ≤ ((shiftStep d known st p) id).minutes_scheduled ∧
          ((shiftStep d known st p) id).max_weekly_minutes
            = (st id).max_weekly_minutes := by
        unfold shiftStep
        split
        · unfold updateState
          dsimp only
          constructor
          · split
            · exact Nat.le_add_right _ _
            · exact le_refl _
          · split
            · rfl
            · rfl
        · exact ⟨le_refl _, rfl⟩
      exact ⟨le_trans h2.1 h1.1, h1.2.trans h2.2⟩

/-- The shift-recording fold credits the worker with at least the minutes of the
first listed assignment under the worker's id (the one `lookup` returns). -/
theorem foldl_shiftStep_lookup (d : ℤ) (known : List ℕ) (id : ℕ)
    (hid : known.contains id = true) (l : List (ℕ × ShiftAssignment)) :
    ∀ st : WeeklyStates,
      (st id).minutes_scheduled + (match l.lookup id with
        | some asg => asg.work_minutes
        | none => 0)
      ≤ ((l.foldl (shiftStep d known) st) id).minutes_scheduled := by
  induction l with
  | nil => intro st; simp
  | cons p ps ih =>
      intro st
      obtain ⟨k, v⟩ := p
      rw [List.foldl_cons]
      cases hk : id == k with
      | true =>
          have hkid : id = k := by simpa using hk
          subst hkid
          have hl : ((id, v) :: ps).lookup id = some v := by
            simp [List.lookup_cons]
          rw [hl]
          refine le_trans ?_ (foldl_shiftStep_mono d known id ps _).1
          unfold shiftStep
          dsimp only
          rw [if_pos hid]
          unfold updateState
          dsimp only
          rw [if_pos rfl]
          exact le_refl _
      | false =>
          have hkid : ¬ id = k := by simpa using hk
          have hl : ((k, v) :: ps).lookup id = ps.lookup id := by
            simp [List.lookup_cons, hk]
          rw [hl]
          have hstep : ((shiftStep d known st (k, v)) id).minutes_scheduled
              = (st id).minutes_scheduled := by
            unfold shiftStep
            split
            · rw [updateState_other st k _ id hkid]
            · rfl
          have h3 := ih (shiftStep d known st (k, v))
          rw [hstep] at h3
          exact h3

/-- The day-off fold of `_update_weekly_states` changes nobody's scheduled minutes
or weekly cap. -/
theorem foldl_dayOffStep_state (d : ℤ) (sched : List ℕ) (id : ℕ)
    (l : List Associate) :
    ∀ st : WeeklyStates,
      ((l.foldl (dayOffStep d sched) st) id).minutes_scheduled
        = (st id).minutes_scheduled ∧
      ((l.foldl (dayOffStep d sched) st) id).max_weekly_minutes
        = (st id).max_weekly_minutes := by
  induction l with
  | nil => intro st; exact ⟨rfl, rfl⟩
  | cons a as ih =>
      intro st
      rw [List.foldl_cons]
      have h1 := ih (dayOffStep d sched st a)
      have h2 : ((dayOffStep d sched st a) id).minutes_scheduled
            = (st id).minutes_scheduled ∧
          ((dayOffStep d sched st a) id).max_weekly_minutes
            = (st id).max_weekly_minutes := by
        unfold dayOffStep
        split
        · exact ⟨rfl, rfl⟩
        · exact ⟨updateState_minutes _ _ _ _ (fun _ => rfl),
            updateState_max _ _ _ _ (fun _ => rfl)⟩
      exact ⟨h1.1.trans h2.1, h1.2.trans h2.2⟩

/-- `_update_weekly_states` credits a known worker with at least the day's recorded
shift minutes, and preserves the weekly cap. -/
theorem updateWeeklyStates_facts (ds : DaySchedule) (d : ℤ) (states : WeeklyStates)
    (working : List Associate) (known : List ℕ) (id : ℕ)
    (hid : known.contains id = true) :
    (states id).minutes_scheduled + (match ds.assignments.lookup id with
      | some asg => asg.work_minutes
      | none => 0)
      ≤ ((updateWeeklyStates ds d states working known) id).minutes_scheduled ∧
    ((updateWeeklyStates ds d states working known) id).max_weekly_minutes
      = (states id).max_weekly_minutes := by
  unfold updateWeeklyStates
  have h1 := foldl_dayOffStep_state d (ds.assignments.map Prod.fst) id working
    (ds.assignments.foldl (shiftStep d known) states)
  have h2 := foldl_shiftStep_lookup d known id hid ds.assignments states
  have h3 := foldl_shiftStep_mono d known id ds.assignments states
  rw [h1.1, h1.2]
  exact ⟨h2, h3.2⟩

/-- `minutesOfDays` over a cons. -/
theorem minutesOfDays_cons (p : ℤ × DaySchedule) (l : List (ℤ × DaySchedule))
    (id : ℕ) :
    minutesOfDays (p :: l) id = (match p.2.assignments.lookup id with
      | some asg => asg.work_minutes
      | none => 0) + minutesOfDays l id := by
  unfold minutesOfDays
  rw [List.map_cons, List.sum_cons]

/-- The minutes a coordinator day credits to a worker never exceed the worker's
remaining weekly minutes: the day's candidates for the worker come from
`_adjust_associates_for_weekly_limits`-clamped associates, so their work minutes
are at most `min(max_daily, remaining)`. -/
theorem weeklyDay_bound (request : WeeklyScheduleRequest) (step_slots : ℕ)
    (amap : ℕ → Option Associate) (all_ids : List ℕ) (d : ℤ)
    (working : List Associate) (st1 : WeeklyStates) (id : ℕ) :
    (match (heuristicSolve (weeklyBuildDayRequest request d
          (adjustAssociates working d st1))
        (fairnessAwareCandidates (weeklyBuildDayRequest request d
          (adjustAssociates working d st1)) st1 all_ids step_slots)
        amap).assignments.lookup id with
      | some asg => asg.work_minutes
      | none => 0) ≤ (st1 id).remaining_minutes := by
  apply heuristicSolve_lookup_bound
  intro entry hentry c hce hcid
  obtain ⟨entry0, hentry0, hkey, hsub⟩ := mem_fairnessAwareCandidates_entry
    (weeklyBuildDayRequest request d (adjustAssociates working d st1)) st1 all_ids
    step_slots entry hentry
  have hce0 := hsub c hce
  obtain ⟨a', ha', hkey0, hlist⟩ := mem_generateAllCandidates_entry
    (weeklyBuildDayRequest request d (adjustAssociates working d st1)) step_slots
    entry0 hentry0
  rw [hlist] at hce0
  obtain ⟨hcid0, hwb, ws, hend, hwork⟩ := mem_generateCandidates_facts a'
    (weeklyBuildDayRequest request d (adjustAssociates working d st1)) step_slots
    c hce0
  refine ⟨?_, ws, hend, hwork⟩
  have ha'' : a' ∈ adjustAssociates working d st1 := ha'
  obtain ⟨a0, ha0, hid0, hcap⟩ := mem_adjustAssociates working d st1 a' ha''
  have hida : a0.id = id := by rw [← hid0, ← hcid0, hcid]
  rw [hida] at hcap
  omega

/-- Day-by-day invariant: the minutes the remaining days credit to a worker fit in
the worker's remaining weekly minutes. -/
theorem weeklyLoop_minutes (request : WeeklyScheduleRequest) (step_slots : ℕ)
    (amap : ℕ → Option Associate) (all_ids : List ℕ) (all_dates : List ℤ) (id : ℕ)
    (hid : all_ids.contains id = true) :
    ∀ (todo : List ℤ) (states : WeeklyStates),
      minutesOfDays
          (weeklyLoop request step_slots amap all_ids all_dates todo states).1 id
        ≤ (states id).remaining_minutes := by
  intro todo
  induction todo with
  | nil => intro states; exact Nat.zero_le _
  | cons d rest ih =>
      intro states
      simp only [weeklyLoop]
      have hgw := getWorkingAssociates_state request.associates d states (d :: rest)
        all_dates request.days_off_pattern request.required_days_off
        request.fairness_config all_ids id
      split
      · rw [minutesOfDays_cons]
        dsimp only
        simp only [List.lookup_nil]
        have hih := ih ((getWorkingAssociates request.associates d states (d :: rest)
          all_dates request.days_off_pattern request.required_days_off
          request.fairness_config all_ids).2)
        unfold AssociateWeeklyState.remaining_minutes at hih ⊢
        omega
      · rw [minutesOfDays_cons]
        dsimp only
        have hb := weeklyDay_bound request step_slots amap all_ids d
          (getWorkingAssociates request.associates d states (d :: rest) all_dates
            request.days_off_pattern request.required_days_off
            request.fairness_config all_ids).1
          (getWorkingAssociates request.associates d states (d :: rest) all_dates
            request.days_off_pattern request.required_days_off
            request.fairness_config all_ids).2 id
        have hupd := updateWeeklyStates_facts
          (heuristicSolve (weeklyBuildDayRequest request d
              (adjustAssociates
                (getWorkingAssociates request.associates d states (d :: rest)
                  all_dates request.days_off_pattern request.required_days_off
                  request.fairness_config all_ids).1 d
                (getWorkingAssociates request.associates d states (d :: rest)
                  all_dates request.days_off_pattern request.required_days_off
                  request.fairness_config all_ids).2))
            (fairnessAwareCandidates (weeklyBuildDayRequest request d
              (adjustAssociates
                (getWorkingAssociates request.associates d states (d :: rest)
                  all_dates request.days_off_pattern request.required_days_off
                  request.fairness_config all_ids).1 d
                (getWorkingAssociates request.associates d states (d :: rest)
                  all_dates request.days_off_pattern request.required_days_off
                  request.fairness_config all_ids).2))
              (getWorkingAssociates request.associates d states (d :: rest)
                all_dates request.days_off_pattern request.required_days_off
                request.fairness_config all_ids).2 all_ids step_slots)
            amap)
          d
          (getWorkingAssociates request.associates d states (d :: rest) all_dates
            request.days_off_pattern request.required_days_off
            request.fairness_config all_ids).2
          (getWorkingAssociates request.associates d states (d :: rest) all_dates
            request.days_off_pattern request.required_days_off
            request.fairness_config all_ids).1
          all_ids id hid
        have hih := ih (updateWeeklyStates
          (heuristicSolve (weeklyBuildDayRequest request d
              (adjustAssociates
                (getWorkingAssociates request.associates d states (d :: rest)
                  all_dates request.days_off_pattern request.required_days_off
                  request.fairness_config all_ids).1 d
                (getWorkingAssociates request.associates d states (d :: rest)
                  all_dates request.days_off_pattern request.required_days_off
                  request.fairness_config all_ids).2))
            (fairnessAwareCandidates (weeklyBuildDayRequest request d
              (adjustAssociates
                (getWorkingAssociates request.associates d states (d :: rest)
                  all_dates request.days_off_pattern request.required_days_off
                  request.fairness_config all_ids).1 d
                (getWorkingAssociates request.associates d states (d :: rest)
                  all_dates request.days_off_pattern request.required_days_off
                  request.fairness_config all_ids).2))
              (getWorkingAssociates request.associates d states (d :: rest)
                all_dates request.days_off_pattern request.required_days_off
                request.fairness_config all_ids).2 all_ids step_slots)
            amap)
          d
          (getWorkingAssociates request.associates d states (d :: rest) all_dates
            request.days_off_pattern request.required_days_off
            request.fairness_config all_ids).2
          (getWorkingAssociates request.associates d states (d :: rest) all_dates
            request.days_off_pattern request.required_days_off
            request.fairness_config all_ids).1
          all_ids)
        unfold AssociateWeeklyState.remaining_minutes at hb hih ⊢
        omega

/-! ### Work-period partition

`_get_work_periods` sorts the off blocks and sweeps: when the off blocks are
pairwise disjoint, nonempty and inside the shift, every shift slot outside all of
them lands in some returned work period. -/

/-- Stable insertion permutes to a cons. -/
theorem perm_insertStable (le : α → α → Bool) (x : α) (l : List α) :
    List.Perm (insertStable le x l) (x :: l) := by
  induction l with
  | nil => exact List.Perm.refl _
  | cons y ys ih =>
      unfold insertStable
      split
      · exact List.Perm.trans (List.Perm.cons y ih) (List.Perm.swap x y ys)
      · exact List.Perm.refl _

/-- The stable sort is a permutation of its input. -/
theorem perm_stableSortBy (le : α → α → Bool) (l : List α) :
    List.Perm (stableSortBy le l) l := by
  unfold stableSortBy
  have key : ∀ (l acc : List α),
      List.Perm (l.foldl (fun acc x => insertStable le x acc) acc) (acc ++ l) := by
    intro l
    induction l with
    | nil => intro acc; simp
    | cons a as ih =>
        intro acc
        rw [List.foldl_cons]
        refine List.Perm.trans (ih _) ?_
        refine List.Perm.trans ((perm_insertStable le a acc).append_right as) ?_
        exact List.perm_middle.symm
  have h := key l []
  simpa using h

/-- Stable insertion into a sorted list keeps it sorted, for a total transitive
comparator. -/
theorem pairwise_insertStable {le : α → α → Bool}
    (htot : ∀ x y, le x y = true ∨ le y x = true)
    (htrans : ∀ x y z, le x y = true → le y z = true → le x z = true)
    {l : List α} (hl : l.Pairwise (fun x y => le x y = true)) (x : α) :
    (insertStable le x l).Pairwise (fun x y => le x y = true) := by
  induction l with
  | nil => simp [insertStable]
  | cons y ys ih =>
      rw [List.pairwise_cons] at hl
      unfold insertStable
      by_cases hle : le y x = true
      · rw [if_pos hle]
        rw [List.pairwise_cons]
        constructor
        · intro z hz
          rcases mem_insertStable.1 hz with h | h
          · rw [h]
            exact hle
          · exact hl.1 z h
        · exact ih hl.2
      · rw [if_neg hle]
        have hxy : le x y = true := (htot x y).resolve_right hle
        rw [List.pairwise_cons]
        refine ⟨?_, List.pairwise_cons.2 ⟨hl.1, hl.2⟩⟩
        intro z hz
        rcases List.mem_cons.1 hz with h | h
        · rw [h]
          exact hxy
        · exact htrans x y z hxy (hl.1 z h)

/-- The stable sort's output is sorted, for a total transitive comparator. -/
theorem pairwise_stableSortBy {le : α → α → Bool}
    (htot : ∀ x y, le x y = true ∨ le y x = true)
    (htrans : ∀ x y z, le x y = true → le y z = true → le x z = true)
    (l : List α) :
    (stableSortBy le l).Pairwise (fun x y => le x y = true) := by
  unfold stableSortBy
  have key : ∀ (l acc : List α), acc.Pairwise (fun x y => le x y = true) →
      (l.foldl (fun acc x => insertStable le x acc) acc).Pairwise
        (fun x y => le x y = true) := by
    intro l
    induction l with
    | nil => exact fun acc h => h
    | cons a as ih =>
        intro acc h
        rw [List.foldl_cons]
        exact ih _ (pairwise_insertStable htot htrans h a)
  exact key l [] List.Pairwise.nil

/-- The sweep never drops a recorded period. -/
theorem foldl_workPeriodStep_mono (sm : ℕ) (l : List (ℕ × ℕ)) :
    ∀ (acc : List ScheduleBlock × ℕ) (b : ScheduleBlock), b ∈ acc.1 →
      b ∈ (l.foldl (workPeriodStep sm) acc).1 := by
  induction l with
  | nil => exact fun acc b h => h
  | cons p ps ih =>
      intro acc b h
      rw [List.foldl_cons]
      apply ih
      unfold workPeriodStep
      dsimp only
      split
      · exact List.mem_append_left _ h
      · exact h

/-- The sweep covers every slot outside the off blocks: if the remaining blocks
start at or after each other's ends (a chain), stay within the day part being swept,
and the slot avoids them all, some emitted period contains the slot. -/
theorem foldl_workPeriodStep_covers (sm endS : ℕ) (l : List (ℕ × ℕ)) :
    ∀ (periods : List ScheduleBlock) (cur slot : ℕ),
      l.Pairwise (fun p q => p.2 ≤ q.1) →
      (∀ p ∈ l, p.2 ≤ endS) →
      cur ≤ slot → slot < endS →
      (∀ p ∈ l, ¬(p.1 ≤ slot ∧ slot < p.2)) →
      ∃ b ∈ (if (l.foldl (workPeriodStep sm) (periods, cur)).2 < endS
          then (l.foldl (workPeriodStep sm) (periods, cur)).1
            ++ [{ start_slot := (l.foldl (workPeriodStep sm) (periods, cur)).2,
                  end_slot := endS, slot_minutes := sm }]
          else (l.foldl (workPeriodStep sm) (periods, cur)).1),
        b.start_slot ≤ slot ∧ slot < b.end_slot := by
  induction l with
  | nil =>
      intro periods cur slot hpw hhi hs he hnot
      rw [List.foldl_nil]
      dsimp only
      rw [if_pos (by omega : cur < endS)]
      exact ⟨⟨cur, endS, sm⟩, List.mem_append_right _ (List.mem_singleton.2 rfl), hs, he⟩
  | cons p ps ih =>
      intro periods cur slot hpw hhi hs he hnot
      rw [List.foldl_cons]
      rw [List.pairwise_cons] at hpw
      by_cases hcase : slot < p.1
      · have hcur : cur < p.1 := by omega
        have hb : ({ start_slot := cur, end_slot := p.1, slot_minutes := sm } :
            ScheduleBlock) ∈ (workPeriodStep sm (periods, cur) p).1 := by
          unfold workPeriodStep
          dsimp only
          rw [if_pos hcur]
          exact List.mem_append_right _ (List.mem_singleton.2 rfl)
        have hb2 := foldl_workPeriodStep_mono sm ps _ _ hb
        refine ⟨{ start_slot := cur, end_slot := p.1, slot_minutes := sm }, ?_, hs,
          hcase⟩
        split
        · exact List.mem_append_left _ hb2
        · exact hb2
      · have hp2 : p.2 ≤ slot := by
          have := hnot p (List.mem_cons_self p ps)
          omega
        have hstep : workPeriodStep sm (periods, cur) p
            = (if cur < p.1 then
                 periods ++ [({ start_slot := cur, end_slot := p.1,
                                slot_minutes := sm } : ScheduleBlock)]
               else periods, p.2) := rfl
        rw [hstep]
        exact ih _ p.2 slot hpw.2
          (fun q hq => hhi q (List.mem_cons_of_mem _ hq)) hp2 he
          (fun q hq => hnot q (List.mem_cons_of_mem _ hq))

/-- Every shift slot outside the (pairwise disjoint, nonempty, in-shift) off blocks
lies in some work period returned by `_get_work_periods`. -/
theorem getWorkPeriods_covers (c : ShiftCandidate) (asg : ShiftAssignment) (slot : ℕ)
    (hs : c.start_slot ≤ slot) (he : slot < c.end_slot)
    (hdisj : (offBlocks asg).Pairwise (fun p q => p.2 ≤ q.1 ∨ q.2 ≤ p.1))
    (hne : ∀ p ∈ offBlocks asg, p.1 < p.2)
    (hhi : ∀ p ∈ offBlocks asg, p.2 ≤ c.end_slot)
    (hnot : ∀ p ∈ offBlocks asg, ¬(p.1 ≤ slot ∧ slot < p.2)) :
    ∃ b ∈ getWorkPeriods c asg, b.start_slot ≤ slot ∧ slot < b.end_slot := by
  unfold getWorkPeriods
  dsimp only
  have htot : ∀ p q : ℕ × ℕ,
      (decide (p.1 < q.1) || (p.1 == q.1 && decide (p.2 ≤ q.2))) = true ∨
      (decide (q.1 < p.1) || (q.1 == p.1 && decide (q.2 ≤ p.2))) = true := by
    intro p q
    simp only [Bool.or_eq_true, Bool.and_eq_true, decide_eq_true_eq, beq_iff_eq]
    omega
  have htrans : ∀ p q r : ℕ × ℕ,
      (decide (p.1 < q.1) || (p.1 == q.1 && decide (p.2 ≤ q.2))) = true →
      (decide (q.1 < r.1) || (q.1 == r.1 && decide (q.2 ≤ r.2))) = true →
      (decide (p.1 < r.1) || (p.1 == r.1 && decide (p.2 ≤ r.2))) = true := by
    intro p q r
    simp only [Bool.or_eq_true, Bool.and_eq_true, decide_eq_true_eq, beq_iff_eq]
    omega
  have hperm := perm_stableSortBy
    (fun p q : ℕ × ℕ => decide (p.1 < q.1) || (p.1 == q.1 && decide (p.2 ≤ q.2)))
    (offBlocks asg)
  have hsorted := pairwise_stableSortBy htot htrans (offBlocks asg)
  have hdisj2 := (hperm.pairwise_iff
    (fun {p q} (h : p.2 ≤ q.1 ∨ q.2 ≤ p.1) => h.symm)).2 hdisj
  have hchain : (stableSortBy
      (fun p q : ℕ × ℕ => decide (p.1 < q.1) || (p.1 == q.1 && decide (p.2 ≤ q.2)))
      (offBlocks asg)).Pairwise (fun p q => p.2 ≤ q.1) := by
    refine List.Pairwise.imp_of_mem ?_ (hsorted.and hdisj2)
    intro p q hp hq hpq
    obtain ⟨hlex, hdj⟩ := hpq
    have hq2 : q.1 < q.2 := hne q (hperm.mem_iff.1 hq)
    simp only [Bool.or_eq_true, Bool.and_eq_true, decide_eq_true_eq, beq_iff_eq]
      at hlex
    rcases hdj with h | h
    · exact h
    · rcases hlex with h1 | ⟨h1, h2⟩ <;> omega
  exact foldl_workPeriodStep_covers c.slot_minutes c.end_slot _ [] c.start_slot slot
    hchain
    (fun q hq => hhi q (hperm.mem_iff.1 hq)) hs he
    (fun q hq => hnot q (hperm.mem_iff.1 hq))

/-! ### Break placement validity

`_find_best_break_position` only ever accepts in-shift, conflict-free positions
within the search radius; when the target position itself is acceptable, the scan is
guaranteed to settle on an acceptable position (the offset-0 probe succeeds, so the
fallback to a raw target is never taken). -/

/-- One scan step keeps "the running best, if any, is acceptable". -/
theorem breakPosStep_inv (bs ss se : ℕ) (used : List ℕ) (states : SlotStates)
    (target R : ℕ) (acc : ℕ × Option ℚ) (i : ℕ) (hi : i < 2 * R + 1)
    (hacc : acc.2.isSome = true → BreakPosOK bs ss se used target R acc.1) :
    (breakPosStep bs ss se used states target R acc i).2.isSome = true →
      BreakPosOK bs ss se used target R
        (breakPosStep bs ss se used states target R acc i).1 := by
  unfold breakPosStep
  dsimp only
  split
  · exact hacc
  next h1 =>
    split
    · exact hacc
    next h2 =>
      split
      · exact hacc
      next h3 =>
        have hvalid : BreakPosOK bs ss se used target R
            ((target : ℤ) + ((i : ℤ) - (R : ℤ))).toNat := by
          refine ⟨by omega, by omega, ?_, by omega, by omega⟩
          exact Bool.eq_false_iff.mpr h3
        cases hacc2 : acc.2 with
        | none =>
            dsimp only
            intro _
            exact hvalid
        | some b =>
            dsimp only
            split
            · intro _
              exact hvalid
            · intro _
              exact hacc (by rw [hacc2]; rfl)

/-- Fold form of `breakPosStep_inv`. -/
theorem foldl_breakPosStep_sound (bs ss se : ℕ) (used : List ℕ) (states : SlotStates)
    (target R : ℕ) (l : List ℕ) (hl : ∀ i ∈ l, i < 2 * R + 1) :
    ∀ acc : ℕ × Option ℚ,
      (acc.2.isSome = true → BreakPosOK bs ss se used target R acc.1) →
      (l.foldl (breakPosStep bs ss se used states target R) acc).2.isSome = true →
      BreakPosOK bs ss se used target R
        (l.foldl (breakPosStep bs ss se used states target R) acc).1 := by
  induction l with
  | nil => exact fun acc h => h
  | cons i is ih =>
      intro acc h
      rw [List.foldl_cons]
      exact ih (fun j hj => hl j (List.mem_cons_of_mem _ hj)) _
        (breakPosStep_inv bs ss se used states target R acc i
          (hl i (List.mem_cons_self i is)) h)

/-- A scan step never discards an already-found best. -/
theorem breakPosStep_isSome_mono (bs ss se : ℕ) (used : List ℕ) (states : SlotStates)
    (target R : ℕ) (acc : ℕ × Option ℚ) (i : ℕ) (h : acc.2.isSome = true) :
    (breakPosStep bs ss se used states target R acc i).2.isSome = true := by
  unfold breakPosStep
  dsimp only
  split
  · exact h
  · split
    · exact h
    · split
      · exact h
      · cases hacc2 : acc.2 with
        | none => rw [hacc2] at h; exact absurd h (by simp)
        | some b =>
            dsimp only
            split
            · rfl
            · exact h

/-- Fold form of `breakPosStep_isSome_mono`. -/
theorem foldl_breakPosStep_isSome_mono (bs ss se : ℕ) (used : List ℕ)
    (states : SlotStates) (target R : ℕ) (l : List ℕ) :
    ∀ acc : ℕ × Option ℚ, acc.2.isSome = true →
      (l.foldl (breakPosStep bs ss se used states target R) acc).2.isSome = true := by
  induction l with
  | nil => exact fun acc h => h
  | cons i is ih =>
      intro acc h
      rw [List.foldl_cons]
      exact ih _ (breakPosStep_isSome_mono bs ss se used states target R acc i h)

/-- The offset-0 probe accepts an acceptable target. -/
theorem breakPosStep_at_center (bs ss se : ℕ) (used : List ℕ) (states : SlotStates)
    (target R : ℕ) (acc : ℕ × Option ℚ)
    (h0 : ss ≤ target ∧ target + bs ≤ se ∧
      (rangeList target (target + bs)).any (fun s => used.contains s) = false) :
    (breakPosStep bs ss se used states target R acc R).2.isSome = true := by
  unfold breakPosStep
  dsimp only
  have ht : ((target : ℤ) + ((R : ℤ) - (R : ℤ))).toNat = target := by omega
  rw [if_neg (by omega)]
  rw [ht]
  rw [if_neg (by omega)]
  rw [if_neg (by rw [h0.2.2]; simp)]
  cases hacc2 : acc.2 with
  | none => rfl
  | some b =>
      dsimp only
      split
      · rfl
      · rw [hacc2]
        rfl

/-- With an acceptable target, `_find_best_break_position` returns an acceptable
position. -/
theorem findBestBreakPosition_valid (target bs ss se : ℕ) (used : List ℕ)
    (states : SlotStates) (R : ℕ)
    (h0 : ss ≤ target ∧ target + bs ≤ se ∧
      (rangeList target (target + bs)).any (fun s => used.contains s) = false) :
    BreakPosOK bs ss se used target R
      (findBestBreakPosition target bs ss se used states R) := by
  obtain ⟨l1, l2, hsplit⟩ :=
    List.append_of_mem (List.mem_range.2 (by omega : R < 2 * R + 1))
  unfold findBestBreakPosition
  rw [hsplit, List.foldl_append, List.foldl_cons]
  have hmem : ∀ i ∈ l1 ++ R :: l2, i < 2 * R + 1 := by
    intro i hi
    rw [← hsplit] at hi
    exact List.mem_range.1 hi
  have hinv1 := foldl_breakPosStep_sound bs ss se used states target R l1
    (fun i hi => hmem i (List.mem_append_left _ hi))
    (target, none) (by intro h; exact absurd h (by simp))
  have hsome := breakPosStep_at_center bs ss se used states target R
    (l1.foldl (breakPosStep bs ss se used states target R) (target, none)) h0
  have hinv2 := breakPosStep_inv bs ss se used states target R _ R (by omega) hinv1
  have hsome2 := foldl_breakPosStep_isSome_mono bs ss se used states target R l2 _ hsome
  have hinv3 := foldl_breakPosStep_sound bs ss se used states target R l2
    (fun i hi => hmem i (List.mem_append_right _ (List.mem_cons_of_mem _ hi))) _ hinv2
  exact hinv3 hsome2

/-- `range(t, t+1)` is the singleton `[t]`. -/
theorem rangeList_singleton (t : ℕ) : rangeList t (t + 1) = [t] := by
  unfold rangeList
  have h : t + 1 - t = 1 := by omega
  rw [h]
  rfl

/-- `contains` is `false` off the list. -/
theorem contains_eq_false_of_not_mem {l : List ℕ} {a : ℕ} (h : a ∉ l) :
    l.contains a = false := by
  cases hc : l.contains a
  · rfl
  · exact absurd (List.mem_of_elem_eq_true hc) h

/-- Every target emitted by the break policy is inside the shift (the final
`max`/`min` clamps) and outside the lunch (the mid-lunch adjustment), at 15-minute
slots. -/
theorem breakTargets_bounds (ws we bc : ℕ) (lunch : Option (ℕ × ℕ))
    (hws : ws + 1 ≤ we)
    (hl : ∀ ls le, lunch = some (ls, le) → ws + 4 ≤ ls ∧ ls + 2 ≤ le ∧ le + 4 ≤ we) :
    ∀ t ∈ breakTargets ws we bc lunch 15,
      ws ≤ t ∧ t + 1 ≤ we ∧
      (∀ ls le, lunch = some (ls, le) → t < ls ∨ le ≤ t) := by
  intro t ht
  unfold breakTargets at ht
  split at ht
  · exact absurd ht (by simp)
  · dsimp only at ht
    rw [List.mem_map] at ht
    obtain ⟨t0, ht0, hadj⟩ := ht
    subst hadj
    cases lunch with
    | none =>
        dsimp only
        simp only [breakDurationMinutes]
        refine ⟨by omega, by omega, ?_⟩
        intro ls le h
        exact absurd h (by simp)
    | some p =>
        obtain ⟨ls, le⟩ := p
        have hl2 := hl ls le rfl
        dsimp only
        simp only [minGapFromLunchSlots, breakDurationMinutes]
        refine ⟨?_, ?_, ?_⟩
        · split
          · split <;> omega
          · omega
        · split
          · split <;> omega
          · omega
        · intro ls' le' hh
          have hinj : ls' = ls ∧ le' = le := by
            injection hh with hh
            exact ⟨(congrArg Prod.fst hh).symm, (congrArg Prod.snd hh).symm⟩
          obtain ⟨h1, h2⟩ := hinj
          subst h1
          subst h2
          split
          next hin =>
            split <;> omega
          next hout =>
            omega

/-- The break policy emits one target per required break (for the policy's 0-2
breaks), at 15-minute slots. -/
theorem breakTargets_length (ws we : ℕ) (lunch : Option (ℕ × ℕ)) (bc : ℕ)
    (hbc : bc ≤ 2) :
    (breakTargets ws we bc lunch 15).length = bc := by
  unfold breakTargets
  split
  next h => simp [h]
  next h =>
    dsimp only
    rw [List.length_map]
    split
    next h1 =>
      subst h1
      cases lunch with
      | none => rfl
      | some p =>
          obtain ⟨ls, le⟩ := p
          dsimp only
          split <;> rfl
    next h1 =>
      split
      next h2 =>
          subst h2
          cases lunch with
          | none => rfl
          | some p =>
              obtain ⟨ls, le⟩ := p
              rfl
      next h2 => omega

/-- For two required breaks around a lunch, the two targets sit strictly before and
at-or-after the lunch (at 15-minute slots). -/
theorem breakTargets_two_some (ws we ls le : ℕ)
    (h : ws + 4 ≤ ls ∧ ls + 2 ≤ le ∧ le + 4 ≤ we) :
    ∃ t1 t2, breakTargets ws we 2 (some (ls, le)) 15 = [t1, t2] ∧
      ws ≤ t1 ∧ t1 + 1 ≤ ls ∧ le ≤ t2 ∧ t2 + 1 ≤ we := by
  refine ⟨_, _, rfl, ?_, ?_, ?_, ?_⟩ <;>
    · simp only [minGapFromLunchSlots, breakDurationMinutes]
      rw [if_neg (by omega)]
      omega

/-- Break placement at 15-minute slots for a policy-consistent candidate: one
single-slot break per required break, each inside the shift, off the lunch, and at
pairwise distinct starts. -/
theorem placeBreaks_facts (c : ShiftCandidate) (lunchOpt : Option ScheduleBlock)
    (states : SlotStates)
    (hsm : c.slot_minutes = 15)
    (hbc : c.break_count ≤ 2)
    (hlen : c.start_slot + 1 ≤ c.end_slot)
    (hlunch : ∀ lb, lunchOpt = some lb →
      c.start_slot + 4 ≤ lb.start_slot ∧ lb.start_slot + 2 ≤ lb.end_slot ∧
      lb.end_slot + 4 ≤ c.end_slot)
    (hbc2 : c.break_count = 2 → lunchOpt.isSome = true) :
    (placeBreaks c lunchOpt states).length = c.break_count ∧
    (∀ b ∈ placeBreaks c lunchOpt states,
      c.start_slot ≤ b.start_slot ∧ b.end_slot = b.start_slot + 1 ∧
      b.end_slot ≤ c.end_slot ∧ b.slot_minutes = c.slot_minutes ∧
      ∀ lb, lunchOpt = some lb →
        b.start_slot < lb.start_slot ∨ lb.end_slot ≤ b.start_slot) ∧
    List.Pairwise (fun b1 b2 => b1.start_slot ≠ b2.start_slot)
      (placeBreaks c lunchOpt states) := by
  have hbs : breakDurationMinutes / c.slot_minutes = 1 := by rw [hsm]; rfl
  unfold placeBreaks
  dsimp only
  rw [hbs, hsm]
  have hbc3 : c.break_count = 0 ∨ c.break_count = 1 ∨ c.break_count = 2 := by omega
  rcases hbc3 with hb | hb | hb
  · rw [hb]
    have ht : breakTargets c.start_slot c.end_slot 0
        (lunchOpt.map fun b => (b.start_slot, b.end_slot)) 15 = [] := rfl
    rw [ht, List.foldl_nil]
    refine ⟨rfl, ?_, List.Pairwise.nil⟩
    intro b hb2
    exact absurd hb2 (by simp)
  · rw [hb]
    have hlp : ∀ ls le,
        (lunchOpt.map fun b => (b.start_slot, b.end_slot)) = some (ls, le) →
        c.start_slot + 4 ≤ ls ∧ ls + 2 ≤ le ∧ le + 4 ≤ c.end_slot := by
      intro ls le hm
      cases lunchOpt with
      | none => exact absurd hm (by simp)
      | some lb =>
          have h2 := hlunch lb rfl
          simp only [Option.map_some] at hm
          injection hm with hm
          have h3 : ls = lb.start_slot ∧ le = lb.end_slot :=
            ⟨(congrArg Prod.fst hm).symm, (congrArg Prod.snd hm).symm⟩
          omega
    have hlenT := breakTargets_length c.start_slot c.end_slot
      (lunchOpt.map fun b => (b.start_slot, b.end_slot)) 1 (by omega)
    obtain ⟨t, ht⟩ := List.length_eq_one.1 hlenT
    have htb := breakTargets_bounds c.start_slot c.end_slot 1
      (lunchOpt.map fun b => (b.start_slot, b.end_slot)) hlen hlp t
      (ht ▸ List.mem_singleton_self t)
    rw [ht, List.foldl_cons, List.foldl_nil]
    set used0 : List ℕ :=
      match lunchOpt with
      | some b => rangeList b.start_slot b.end_slot
      | none => ([] : List ℕ) with hused0
    have hnotmem : t ∉ used0 := by
      cases lunchOpt with
      | none =>
          rw [hused0]
          exact List.not_mem_nil t
      | some lb =>
          rw [hused0]
          intro hmem
          have h4 := mem_rangeList.1 hmem
          have h5 := htb.2.2 lb.start_slot lb.end_slot (by simp)
          omega
    have h0 : c.start_slot ≤ t ∧ t + 1 ≤ c.end_slot ∧
        (rangeList t (t + 1)).any (fun s => used0.contains s) = false := by
      refine ⟨htb.1, htb.2.1, ?_⟩
      rw [rangeList_singleton]
      simp only [List.any_cons, List.any_nil, Bool.or_false]
      exact contains_eq_false_of_not_mem hnotmem
    have hOK := findBestBreakPosition_valid t 1 c.start_slot c.end_slot used0
      states maxBreakVarianceSlots h0
    unfold placeBreakStep
    dsimp only
    set r := findBestBreakPosition t 1 c.start_slot c.end_slot used0 states
      maxBreakVarianceSlots with hr
    obtain ⟨hOK1, hOK2, hOK3, hOK4, hOK5⟩ := hOK
    have hrnot : r ∉ used0 := by
      rw [rangeList_singleton] at hOK3
      simp only [List.any_cons, List.any_nil, Bool.or_false] at hOK3
      intro hmem
      have h5 := List.elem_eq_true_of_mem hmem
      have h6 : used0.contains r = true := h5
      rw [hOK3] at h6
      exact Bool.noConfusion h6
    refine ⟨rfl, ?_, ?_⟩
    · intro b hmem
      simp only [List.nil_append, List.mem_singleton] at hmem
      subst hmem
      refine ⟨hOK1, rfl, hOK2, hsm, ?_⟩
      intro lb hlb
      cases lunchOpt with
      | none => exact absurd hlb (by simp)
      | some lb2 =>
          injection hlb with hlb
          subst hlb
          rw [hused0] at hrnot
          dsimp only at hrnot
          by_contra hcon
          push_neg at hcon
          dsimp only at hcon
          exact hrnot (mem_rangeList.2 ⟨hcon.1, hcon.2⟩)
    · simp only [List.nil_append]
      exact List.pairwise_singleton _ _
  · have hsome := hbc2 hb
    cases lunchOpt with
    | none => exact absurd hsome (by simp)
    | some lb =>
        have hl2 := hlunch lb rfl
        rw [hb]
        dsimp only [Option.map]
        obtain ⟨t1, t2, heq, hq1, hq2, hq3, hq4⟩ :=
          breakTargets_two_some c.start_slot c.end_slot lb.start_slot lb.end_slot hl2
        rw [heq, List.foldl_cons, List.foldl_cons, List.foldl_nil]
        set used0 := rangeList lb.start_slot lb.end_slot with hused0
        have h01 : c.start_slot ≤ t1 ∧ t1 + 1 ≤ c.end_slot ∧
            (rangeList t1 (t1 + 1)).any (fun s => used0.contains s) = false := by
          refine ⟨hq1, by omega, ?_⟩
          rw [rangeList_singleton]
          simp only [List.any_cons, List.any_nil, Bool.or_false]
          refine contains_eq_false_of_not_mem ?_
          intro hmem
          have h4 := mem_rangeList.1 hmem
          omega
        have hOK1 := findBestBreakPosition_valid t1 1 c.start_slot c.end_slot used0
          states maxBreakVarianceSlots h01
        unfold placeBreakStep
        dsimp only
        set r1 := findBestBreakPosition t1 1 c.start_slot c.end_slot used0 states
          maxBreakVarianceSlots with hr1
        obtain ⟨hA1, hA2, hA3, hA4, hA5⟩ := hOK1
        have hr1not : r1 ∉ used0 := by
          rw [rangeList_singleton] at hA3
          simp only [List.any_cons, List.any_nil, Bool.or_false] at hA3
          intro hmem
          have h5 := List.elem_eq_true_of_mem hmem
          have h6 : used0.contains r1 = true := h5
          rw [hA3] at h6
          exact Bool.noConfusion h6
        have hr1lt : r1 < lb.start_slot := by
          have h6 : r1 < lb.start_slot ∨ lb.end_slot ≤ r1 := by
            by_contra hcon
            push_neg at hcon
            exact hr1not (mem_rangeList.2 ⟨by omega, by omega⟩)
          have h7 : r1 ≤ t1 + maxBreakVarianceSlots := hA5
          unfold maxBreakVarianceSlots at h7
          omega
        rw [rangeList_singleton]
        have h02 : c.start_slot ≤ t2 ∧ t2 + 1 ≤ c.end_slot ∧
            (rangeList t2 (t2 + 1)).any
              (fun s => (used0 ++ [r1]).contains s) = false := by
          refine ⟨by omega, hq4, ?_⟩
          rw [rangeList_singleton]
          simp only [List.any_cons, List.any_nil, Bool.or_false]
          refine contains_eq_false_of_not_mem ?_
          intro hmem
          rcases List.mem_append.1 hmem with h8 | h8
          · have h9 := mem_rangeList.1 h8
            omega
          · rw [List.mem_singleton] at h8
            omega
        have hOK2 := findBestBreakPosition_valid t2 1 c.start_slot c.end_slot
          (used0 ++ [r1]) states maxBreakVarianceSlots h02
        set r2 := findBestBreakPosition t2 1 c.start_slot c.end_slot
          (used0 ++ [r1]) states maxBreakVarianceSlots with hr2
        obtain ⟨hB1, hB2, hB3, hB4, hB5⟩ := hOK2
        have hr2not : r2 ∉ used0 ++ [r1] := by
          rw [rangeList_singleton] at hB3
          simp only [List.any_cons, List.any_nil, Bool.or_false] at hB3
          intro hmem
          have h5 := List.elem_eq_true_of_mem hmem
          have h6 : (used0 ++ [r1]).contains r2 = true := h5
          rw [hB3] at h6
          exact Bool.noConfusion h6
        have hr2lunch : r2 < lb.start_slot ∨ lb.end_slot ≤ r2 := by
          by_contra hcon
          push_neg at hcon
          exact hr2not (List.mem_append_left _ (mem_rangeList.2 ⟨by omega, by omega⟩))
        have hr2ne : r2 ≠ r1 := by
          intro hcon
          exact hr2not (List.mem_append_right _ (List.mem_singleton.2 hcon))
        refine ⟨rfl, ?_, ?_⟩
        · intro b hmem
          simp only [List.nil_append, List.singleton_append, List.mem_cons,
            List.mem_singleton, List.mem_nil_iff, or_false] at hmem
          rcases hmem with h9 | h9 <;> subst h9
          · refine ⟨hA1, rfl, hA2, hsm, ?_⟩
            intro lb2 hlb2
            injection hlb2 with hlb2
            subst hlb2
            exact Or.inl hr1lt
          · refine ⟨hB1, rfl, hB2, hsm, ?_⟩
            intro lb2 hlb2
            injection hlb2 with hlb2
            subst hlb2
            exact hr2lunch
        · simp only [List.nil_append, List.singleton_append]
          refine List.pairwise_cons.2 ⟨?_, List.pairwise_singleton _ _⟩
          intro b hmem
          rw [List.mem_singleton] at hmem
          subst hmem
          exact fun hcon => hr2ne hcon.symm

/-! ### Role totality and eligibility

`_assign_roles` assigns an eligible role to *every* work period whenever the worker
may pick (the PICKING fallback of `_select_role_for_period` needs no cap), and every
role it assigns is eligible. -/

/-- A preserved role is eligible. -/
theorem tryPreserveRole_eligible (r0 : JobRole) (period : ScheduleBlock)
    (elig : JobRole → Bool) (st : SlotStates) (jc : JobRole → Option ℕ)
    (src : Option (List SlotRangeCaps)) (r : JobRole)
    (h : tryPreserveRole r0 period elig st jc src = some r) : elig r = true := by
  unfold tryPreserveRole at h
  split at h
  · exact absurd h (by simp)
  next hne =>
    split at h
    · exact absurd h (by simp)
    · injection h with h
      subst h
      simpa using hne

/-- A selected role is eligible. -/
theorem selectRoleForPeriod_eligible (period : ScheduleBlock) (elig : JobRole → Bool)
    (a : Associate) (st : SlotStates) (jc : JobRole → Option ℕ)
    (src : Option (List SlotRangeCaps)) (r : JobRole)
    (h : selectRoleForPeriod period elig a st jc src = some r) : elig r = true := by
  unfold selectRoleForPeriod at h
  split at h
  next r1 hf =>
    injection h with h
    subst h
    have hp := List.find?_some hf
    simp only [Bool.and_eq_true] at hp
    exact hp.1.1
  next =>
    split at h
    next hpick =>
      injection h with h
      rw [← h]
      exact hpick
    · have hmem := List.mem_of_find?_eq_some h
      rw [List.mem_filter] at hmem
      exact hmem.2

/-- The role chosen for a period is eligible. -/
theorem chooseRole_eligible (a : Associate) (jc : JobRole → Option ℕ)
    (src : Option (List SlotRangeCaps)) (f5 : Bool) (ir : Option JobRole)
    (st : SlotStates) (period : ScheduleBlock) (r : JobRole)
    (h : chooseRole a jc src f5 ir st period = some r) : a.eligible r = true := by
  unfold chooseRole at h
  split at h
  next r' heq =>
    injection h with h
    subst h
    split at heq
    next =>
      split at heq
      · exact tryPreserveRole_eligible _ _ _ _ _ _ _ heq
      · exact absurd heq (by simp)
    next => exact absurd heq (by simp)
  next => exact selectRoleForPeriod_eligible _ _ _ _ _ _ _ h

/-- With a PICKING-eligible worker, `_select_role_for_period` always returns a
role. -/
theorem selectRoleForPeriod_total (period : ScheduleBlock) (elig : JobRole → Bool)
    (a : Associate) (st : SlotStates) (jc : JobRole → Option ℕ)
    (src : Option (List SlotRangeCaps)) (hpick : elig .picking = true) :
    (selectRoleForPeriod period elig a st jc src).isSome = true := by
  unfold selectRoleForPeriod
  split
  · rfl
  · rw [if_pos hpick]
    rfl

/-- With a PICKING-eligible worker, the loop body always chooses a role. -/
theorem chooseRole_total (a : Associate) (jc : JobRole → Option ℕ)
    (src : Option (List SlotRangeCaps)) (f5 : Bool) (ir : Option JobRole)
    (st : SlotStates) (period : ScheduleBlock)
    (hpick : a.eligible .picking = true) :
    (chooseRole a jc src f5 ir st period).isSome = true := by
  unfold chooseRole
  split
  · rfl
  · exact selectRoleForPeriod_total period a.eligible a st jc src hpick

/-- When a role is chosen, the step appends exactly the new job assignment. -/
theorem assignRolesStep_append (a : Associate) (jc : JobRole → Option ℕ)
    (src : Option (List SlotRangeCaps)) (f5 : Bool)
    (acc : List JobAssignment × SlotStates × Option JobRole) (period : ScheduleBlock)
    (r : JobRole) (hr : chooseRole a jc src f5 acc.2.2 acc.2.1 period = some r) :
    (assignRolesStep a jc src f5 acc period).1
      = acc.1 ++ [{ role := r, block := period }] := by
  obtain ⟨asgs, st, ir⟩ := acc
  unfold assignRolesStep
  dsimp only
  rw [hr]

/-- The step never drops recorded job assignments. -/
theorem assignRolesStep_mono_mem (a : Associate) (jc : JobRole → Option ℕ)
    (src : Option (List SlotRangeCaps)) (f5 : Bool)
    (acc : List JobAssignment × SlotStates × Option JobRole) (period : ScheduleBlock)
    (ja : JobAssignment) (h : ja ∈ acc.1) :
    ja ∈ (assignRolesStep a jc src f5 acc period).1 := by
  obtain ⟨asgs, st, ir⟩ := acc
  unfold assignRolesStep
  dsimp only
  cases hcr : chooseRole a jc src f5 ir st period with
  | none => exact h
  | some r => exact List.mem_append_left _ h

/-- Fold version of `assignRolesStep_mono_mem`. -/
theorem foldl_assignRolesStep_mono_mem (a : Associate) (jc : JobRole → Option ℕ)
    (src : Option (List SlotRangeCaps)) (f5 : Bool) (l : List ScheduleBlock) :
    ∀ (init : List JobAssignment × SlotStates × Option JobRole) (ja : JobAssignment),
      ja ∈ init.1 → ja ∈ (l.foldl (assignRolesStep a jc src f5) init).1 := by
  induction l with
  | nil => exact fun init ja h => h
  | cons p ps ih =>
      intro init ja h
      rw [List.foldl_cons]
      exact ih _ ja (assignRolesStep_mono_mem a jc src f5 init p ja h)

/-- With a PICKING-eligible worker, the fold records a job assignment for every
processed period. -/
theorem foldl_assignRolesStep_total (a : Associate) (jc : JobRole → Option ℕ)
    (src : Option (List SlotRangeCaps)) (f5 : Bool)
    (hpick : a.eligible .picking = true) (l : List ScheduleBlock) :
    ∀ (init : List JobAssignment × SlotStates × Option JobRole),
      ∀ period ∈ l, ∃ ja ∈ (l.foldl (assignRolesStep a jc src f5) init).1,
        ja.block = period := by
  induction l with
  | nil => intro init period h; exact absurd h (by simp)
  | cons p ps ih =>
      intro init period h
      rw [List.foldl_cons]
      rcases List.mem_cons.1 h with h | h
      · subst h
        have htot := chooseRole_total a jc src f5 init.2.2 init.2.1 period hpick
        cases hcr : chooseRole a jc src f5 init.2.2 init.2.1 period with
        | none => rw [hcr] at htot; exact absurd htot (by simp)
        | some r =>
            refine ⟨{ role := r, block := period }, ?_, rfl⟩
            apply foldl_assignRolesStep_mono_mem
            rw [assignRolesStep_append a jc src f5 init period r hcr]
            exact List.mem_append_right _ (List.mem_singleton.2 rfl)
      · exact ih _ period h

/-- Each recorded job assignment carries an eligible role and covers a processed
period. -/
theorem foldl_assignRolesStep_sound (a : Associate) (jc : JobRole → Option ℕ)
    (src : Option (List SlotRangeCaps)) (f5 : Bool) (l : List ScheduleBlock) :
    ∀ (init : List JobAssignment × SlotStates × Option JobRole),
      ∀ ja ∈ (l.foldl (assignRolesStep a jc src f5) init).1,
        ja ∈ init.1 ∨ (a.eligible ja.role = true ∧ ja.block ∈ l) := by
  induction l with
  | nil => intro init ja h; exact Or.inl h
  | cons p ps ih =>
      intro init ja h
      rw [List.foldl_cons] at h
      rcases ih _ ja h with h2 | ⟨helig, hblk⟩
      · obtain ⟨asgs, st, ir⟩ := init
        unfold assignRolesStep at h2
        dsimp only at h2
        cases hcr : chooseRole a jc src f5 ir st p with
        | none =>
            rw [hcr] at h2
            exact Or.inl h2
        | some r =>
            rw [hcr] at h2
            dsimp only at h2
            rcases List.mem_append.1 h2 with h3 | h3
            · exact Or.inl h3
            · rw [List.mem_singleton] at h3
              subst h3
              exact Or.inr ⟨chooseRole_eligible a jc src f5 ir st p r hcr,
                List.mem_cons_self p ps⟩
      · exact Or.inr ⟨helig, List.mem_cons_of_mem p hblk⟩

/-- `_assign_roles` with a PICKING-eligible worker covers every work period. -/
theorem assignRoles_covers (c : ShiftCandidate) (asg : ShiftAssignment) (a : Associate)
    (st : SlotStates) (jc : JobRole → Option ℕ) (src : Option (List SlotRangeCaps))
    (hpick : a.eligible .picking = true) :
    ∀ period ∈ getWorkPeriods c asg,
      ∃ ja ∈ (assignRoles c asg a st jc src).1, ja.block = period := by
  unfold assignRoles
  split
  next hall =>
    rw [List.all_eq_true] at hall
    have := hall .picking (mem_jobRole_all .picking)
    rw [hpick] at this
    exact absurd this (by simp)
  · dsimp only
    exact foldl_assignRolesStep_total a jc src (decide (c.start_slot < 4)) hpick
      (getWorkPeriods c asg) ([], st, none)

/-- Every role `_assign_roles` records is eligible, on a block drawn from the work
periods. -/
theorem assignRoles_sound (c : ShiftCandidate) (asg : ShiftAssignment) (a : Associate)
    (st : SlotStates) (jc : JobRole → Option ℕ) (src : Option (List SlotRangeCaps)) :
    ∀ ja ∈ (assignRoles c asg a st jc src).1,
      a.eligible ja.role = true ∧ ja.block ∈ getWorkPeriods c asg := by
  unfold assignRoles
  split
  · intro ja h
    exact absurd h (by simp)
  · dsimp only
    intro ja h
    rcases foldl_assignRolesStep_sound a jc src (decide (c.start_slot < 4))
      (getWorkPeriods c asg) ([], st, none) ja h with h2 | h2
    · exact absurd h2 (by simp)
    · exact h2

/-- C8: in the weekly schedule the coordinator produces, the worker registered under
an id is scheduled for at most its `max_minutes_per_week` in total: each day's
per-worker daily cap is clamped to `min(max_daily, remaining weekly minutes)`,
workers whose clamped cap falls below the 240-minute shift minimum are dropped for
the day, and the day's scheduled minutes are charged against the weekly budget. -/
theorem C8_weekly_minutes_le_cap (request : WeeklyScheduleRequest) (step_slots : ℕ)
    (a : Associate) (ha : mkAssociatesMap request.associates a.id = some a) :
    (weeklyGenerateSchedule request step_slots).get_associate_weekly_minutes a.id
      ≤ a.max_minutes_per_week := by
  have ha' : request.associates.reverse.find? (fun x => x.id == a.id) = some a := ha
  have hid : (request.associates.map (fun x => x.id)).contains a.id = true := by
    have hmem := List.mem_of_find?_eq_some ha'
    rw [List.mem_reverse] at hmem
    have hmap : a.id ∈ request.associates.map (fun x => x.id) :=
      List.mem_map_of_mem _ hmem
    exact List.elem_eq_true_of_mem hmap
  have hinit_max : (initWeeklyStates request.associates a.id).max_weekly_minutes
      = a.max_minutes_per_week := by
    unfold initWeeklyStates
    rw [ha']
  have hinit_min : (initWeeklyStates request.associates a.id).minutes_scheduled
      = 0 := by
    unfold initWeeklyStates
    rw [ha']
  have hmain := weeklyLoop_minutes request step_slots
    (mkAssociatesMap request.associates) (request.associates.map (fun x => x.id))
    request.schedule_dates a.id hid request.schedule_dates
    (initWeeklyStates request.associates)
  have hgw : (weeklyGenerateSchedule request step_slots).get_associate_weekly_minutes
        a.id
      = minutesOfDays (weeklyLoop request step_slots
          (mkAssociatesMap request.associates)
          (request.associates.map (fun x => x.id)) request.schedule_dates
          request.schedule_dates (initWeeklyStates request.associates)).1 a.id := rfl
  rw [hgw]
  unfold AssociateWeeklyState.remaining_minutes at hmain
  omega

/-- Concrete instance for the C8 witness: one PICKING-capable worker with the
default 2400-minute weekly cap over a two-day window. -/
def c8Associate : Associate :=
  { id := 5, availability := fun _ => some { start_slot := 0, end_slot := 16 },
    supervisor_allowed_roles := fun r => r == .picking }

def c8Request : WeeklyScheduleRequest :=
  { start_date := 0, end_date := 1, associates := [c8Associate],
    day_start_minutes := 300, day_end_minutes := 540 }

/-- C8 witness: the weekly-cap bound instantiated at the concrete one-worker
request. -/
theorem C8_witness :
    mkAssociatesMap c8Request.associates c8Associate.id = some c8Associate ∧
    (weeklyGenerateSchedule c8Request 2).get_associate_weekly_minutes c8Associate.id
      ≤ c8Associate.max_minutes_per_week :=
  ⟨rfl, C8_weekly_minutes_le_cap c8Request 2 c8Associate rfl⟩

/-! ## Claim C6 -/

/-- The claim's match-score formula:
`100 × (Σ min(coverage(t), target(t))) / Σ target(t)`, and `100` when the total
target is 0 (stated from the spec's words, for comparison with the code). -/
def specC6MatchScoreTarget (curve : DemandCurve) (timeline : List ℕ) : ℚ :=
  let totalTarget : ℚ :=
    (timeline.enum.map (fun sc => ((curve.get_demand_at_slot sc.1).target_staff : ℚ))).sum
  if totalTarget = 0 then 100
  else 100 * (timeline.enum.map
    (fun sc => ((min sc.2 (curve.get_demand_at_slot sc.1).target_staff : ℕ) : ℚ))).sum
    / totalTarget

/-- The formula the code actually computes (amended claim):
`100 × (Σ min(coverage(t), max(t))) / Σ target(t)`, and `100` when the total target
is 0. -/
def specC6MatchScoreMax (curve : DemandCurve) (timeline : List ℕ) : ℚ :=
  let totalTarget : ℚ :=
    (timeline.enum.map (fun sc => ((curve.get_demand_at_slot sc.1).target_staff : ℚ))).sum
  if totalTarget = 0 then 100
  else 100 * (timeline.enum.map
    (fun sc => ((min sc.2 (curve.get_demand_at_slot sc.1).max_staff : ℕ) : ℚ))).sum
    / totalTarget

/-- Concrete instance for C6: a single slot with `target = 1`, `max = 2` and
coverage 2. -/
def c6Curve : DemandCurve :=
  { schedule_date := 0,
    total_demand := fun s => if s == 0 then
      some { slot := 0, min_staff := 0, target_staff := 1, max_staff := 2 } else none }

/-- Projection of `demandMetricsCalculate`'s `match_score` field. -/
theorem calculate_match_score (curve : DemandCurve) (timeline : List ℕ) (sm : ℕ) :
    (demandMetricsCalculate curve timeline sm).match_score =
      (if (timeline.enum.foldl (dmStep curve sm) {}).total_demand > 0
       then (timeline.enum.foldl (dmStep curve sm) {}).total_coverage
         / (timeline.enum.foldl (dmStep curve sm) {}).total_demand * 100
       else 100) := rfl

theorem dmStep_total_demand (curve : DemandCurve) (sm : ℕ) (acc : DMAcc)
    (slot coverage : ℕ) :
    (dmStep curve sm acc (slot, coverage)).total_demand
      = acc.total_demand + ((curve.get_demand_at_slot slot).target_staff : ℚ) := rfl

theorem dmStep_total_coverage (curve : DemandCurve) (sm : ℕ) (acc : DMAcc)
    (slot coverage : ℕ) :
    (dmStep curve sm acc (slot, coverage)).total_coverage
      = acc.total_coverage
        + ((min coverage (curve.get_demand_at_slot slot).max_staff : ℕ) : ℚ) := rfl

/-- The loop of `DemandMetrics.calculate` accumulates `Σ target` and
`Σ min(coverage, max)`. -/
theorem dmFold_totals (curve : DemandCurve) (sm : ℕ) :
    ∀ (l : List (ℕ × ℕ)) (acc : DMAcc),
      (l.foldl (dmStep curve sm) acc).total_demand
        = acc.total_demand
          + (l.map (fun sc => ((curve.get_demand_at_slot sc.1).target_staff : ℚ))).sum ∧
      (l.foldl (dmStep curve sm) acc).total_coverage
        = acc.total_coverage
          + (l.map (fun sc =>
              ((min sc.2 (curve.get_demand_at_slot sc.1).max_staff : ℕ) : ℚ))).sum := by
  intro l
  induction l with
  | nil => intro acc; simp
  | cons p ps ih =>
      intro acc
      obtain ⟨slot, coverage⟩ := p
      simp only [List.foldl_cons, List.map_cons, List.sum_cons]
      rcases ih (dmStep curve sm acc (slot, coverage)) with ⟨h1, h2⟩
      rw [h1, h2, dmStep_total_demand, dmStep_total_coverage]
      constructor <;> ring

/-- C6 (amended): for every demand curve and coverage timeline, the computed
`match_score` equals `100 × (Σ min(coverage(t), max(t))) / Σ target(t)` — the
numerator clamps coverage at `max_staff`, not at `target_staff` — and equals 100 when
the total target is 0.  (The per-priority scores, by contrast, do use
`min(coverage, target)`.) -/
theorem C6_match_score_uses_max_staff :
    ∀ (curve : DemandCurve) (timeline : List ℕ) (sm : ℕ),
      (demandMetricsCalculate curve timeline sm).match_score
        = specC6MatchScoreMax curve timeline := by
  intro curve timeline sm
  rw [calculate_match_score]
  rcases dmFold_totals curve sm timeline.enum {} with ⟨h1, h2⟩
  have hz : ({} : DMAcc).total_demand = 0 := rfl
  have hz2 : ({} : DMAcc).total_coverage = 0 := rfl
  rw [h1, h2, hz, hz2, zero_add, zero_add]
  unfold specC6MatchScoreMax
  set S : ℚ :=
    (timeline.enum.map (fun sc => ((curve.get_demand_at_slot sc.1).target_staff : ℚ))).sum
    with hS
  have hSnn : 0 ≤ S := by
    rw [hS]
    apply List.sum_nonneg
    intro x hx
    rcases List.mem_map.1 hx with ⟨sc, _, rfl⟩
    exact Nat.cast_nonneg _
  by_cases h0 : S = 0
  · rw [if_neg (by rw [h0]; exact lt_irrefl 0), if_pos h0]
  · have hpos : S > 0 := lt_of_le_of_ne hSnn (Ne.symm h0)
    rw [if_pos hpos, if_neg h0]
    ring

/-- C6 counterexample: with coverage 2 over a slot whose target is 1 and max is 2,
`DemandMetrics.calculate` yields `match_score = 200`, not the
`100 × Σ min(coverage, target) / Σ target = 100` the claim asserts: the code's
numerator is `min(coverage, max_staff)`, not `min(coverage, target)`. -/
theorem C6_counterexample :
    (demandMetricsCalculate c6Curve [2] 15).match_score ≠
      specC6MatchScoreTarget c6Curve [2] := by
  have henum : ([2] : List ℕ).enum = [(0, 2)] := rfl
  have hpoint : c6Curve.get_demand_at_slot 0 =
      { slot := 0, min_staff := 0, target_staff := 1, max_staff := 2 } := rfl
  have h1 : (demandMetricsCalculate c6Curve [2] 15).match_score = 200 := by
    rw [calculate_match_score]
    rcases dmFold_totals c6Curve 15 (([2] : List ℕ).enum) {} with ⟨hd, hc⟩
    rw [hd, hc, henum]
    simp only [List.map_cons, List.map_nil, List.sum_cons, List.sum_nil, hpoint]
    norm_num
  have h2 : specC6MatchScoreTarget c6Curve [2] = 100 := by
    unfold specC6MatchScoreTarget
    rw [henum]
    simp only [List.map_cons, List.map_nil, List.sum_cons, List.sum_nil, hpoint]
    norm_num
  rw [h1, h2]
  norm_num

/-! ## Claim C5 -/

/-- Concrete instance for C5: one worker assigned GMD_SM over a whole 16-slot
shift; the request's global GMD_SM cap is 0, but a time-based override raises the cap
to 5 on every slot of the shift. -/
def c5Associate : Associate :=
  { id := 3, availability := fun _ => some { start_slot := 0, end_slot := 16 } }

def c5Assignment : ShiftAssignment :=
  { associate_id := 3, schedule_date := 0, shift_start_slot := 0, shift_end_slot := 16,
    job_assignments := [{ role := .gmd_sm, block := { start_slot := 0, end_slot := 16 } }] }

def c5Schedule : DaySchedule :=
  { schedule_date := 0, assignments := [(3, c5Assignment)],
    day_start_minutes := 300, day_end_minutes := 540 }

def c5Request : ScheduleRequest :=
  { schedule_date := 0, associates := [c5Associate],
    day_start_minutes := 300, day_end_minutes := 540,
    job_caps := fun r => if r == .gmd_sm then some 0 else some 999,
    time_based_job_caps := some (fun slot =>
      if slot < 16 then some (fun r => if r == .gmd_sm then some 5 else none) else none) }

def c5Map : ℕ → Option Associate := fun i => if i == 3 then some c5Associate else none

/-- C5 counterexample: the role coverage never exceeds the most specific
(time-based-first) cap `get_job_cap(slot, role)` — the override allows 5 GMD_SM on
every occupied slot — yet the validator reports `ROLE_CAP_EXCEEDED`, because
`_validate_role_caps` compares against the global `job_caps` only.  The "if and only
if" of the claim is therefore false. -/
theorem C5_counterexample :
    ((validate c5Schedule c5Request c5Map).any
        (fun e => e.error_type == .role_cap_exceeded)) = true ∧
    ((List.range c5Schedule.total_slots).any (fun slot => JobRole.all.any (fun role =>
        decide (c5Schedule.get_role_coverage_at_slot slot role
          > c5Request.get_job_cap slot role)))) = false := by decide

/-- No error produced by `_validate_assignment` is a `ROLE_CAP_EXCEEDED`. -/
theorem validateAssignment_no_role_cap (asg : ShiftAssignment) (a : Associate)
    (req : ScheduleRequest) :
    ∀ e ∈ validateAssignment asg a req, e.error_type ≠ .role_cap_exceeded := by
  intro e he
  unfold validateAssignment at he
  simp only [List.append_assoc] at he
  -- peel the twelve appended components one by one
  rcases List.mem_append.1 he with h | he
  · rcases mem_errIf.1 h with ⟨-, rfl⟩; simp
  rcases List.mem_append.1 he with h | he
  · -- availability block
    split at h
    · rw [List.mem_singleton] at h; subst h; simp
    · rcases List.mem_append.1 h with h | h <;>
        (rcases mem_errIf.1 h with ⟨-, rfl⟩; simp)
  rcases List.mem_append.1 he with h | he
  · rcases mem_errIf.1 h with ⟨-, rfl⟩; simp
  rcases List.mem_append.1 he with h | he
  · rcases mem_errIf.1 h with ⟨-, rfl⟩; simp
  rcases List.mem_append.1 he with h | he
  · rcases mem_errIf.1 h with ⟨-, rfl⟩; simp
  rcases List.mem_append.1 he with h | he
  · -- lunch-inside-shift block
    split at h
    · rcases List.mem_append.1 h with h | h <;>
        (rcases mem_errIf.1 h with ⟨-, rfl⟩; simp)
    · exact absurd h (List.not_mem_nil e)
  rcases List.mem_append.1 he with h | he
  · rcases mem_errIf.1 h with ⟨-, rfl⟩; simp
  rcases List.mem_append.1 he with h | he
  · -- per-break block
    rw [List.mem_flatMap] at h
    obtain ⟨b, -, h⟩ := h
    rcases List.mem_append.1 h with h | h
    · rcases mem_errIf.1 h with ⟨-, rfl⟩; simp
    rcases List.mem_append.1 h with h | h
    · rcases mem_errIf.1 h with ⟨-, rfl⟩; simp
    rcases List.mem_append.1 h with h | h
    · rcases mem_errIf.1 h with ⟨-, rfl⟩; simp
    · split at h
      · rcases mem_errIf.1 h with ⟨-, rfl⟩; simp
      · exact absurd h (List.not_mem_nil e)
  rcases List.mem_append.1 he with h | he
  · -- pairwise break overlap block
    rw [List.mem_flatMap] at h
    obtain ⟨i, -, h⟩ := h
    rw [List.mem_flatMap] at h
    obtain ⟨j, -, h⟩ := h
    split at h
    · split at h
      · rcases mem_errIf.1 h with ⟨-, rfl⟩; simp
      · exact absurd h (List.not_mem_nil e)
    · exact absurd h (List.not_mem_nil e)
  rcases List.mem_append.1 he with h | he
  · -- role eligibility block
    rw [List.mem_flatMap] at h
    obtain ⟨ja, -, h⟩ := h
    rcases List.mem_append.1 h with h | h <;>
      (rcases mem_errIf.1 h with ⟨-, rfl⟩; simp)
  rcases List.mem_append.1 he with h | he
  · rcases mem_errIf.1 h with ⟨-, rfl⟩; simp
  · -- job-coverage block
    rw [List.mem_flatMap] at he
    obtain ⟨slot, -, h⟩ := he
    split at h
    · split at h
      · rw [List.mem_singleton] at h; subst h; simp
      · exact absurd h (List.not_mem_nil e)
    · exact absurd h (List.not_mem_nil e)

/-- The role-cap pass flags exactly the slot/role pairs whose coverage exceeds the
global cap. -/
theorem any_validateRoleCaps (schedule : DaySchedule) (req : ScheduleRequest) :
    ((validateRoleCaps schedule req).any (fun e => e.error_type == .role_cap_exceeded))
        = true
      ↔ ∃ slot, slot < schedule.total_slots ∧ ∃ role,
          (req.job_caps role).getD 999 < schedule.get_role_coverage_at_slot slot role := by
  unfold validateRoleCaps
  rw [List.any_eq_true]
  constructor
  · rintro ⟨e, he, -⟩
    rw [List.mem_flatMap] at he
    obtain ⟨slot, hslot, he⟩ := he
    rw [List.mem_flatMap] at he
    obtain ⟨role, -, he⟩ := he
    rw [mem_errIf] at he
    obtain ⟨hgt, rfl⟩ := he
    exact ⟨slot, List.mem_range.1 hslot, role, by simpa using hgt⟩
  · rintro ⟨slot, hslot, role, hgt⟩
    refine ⟨{ error_type := .role_cap_exceeded, slot := some slot }, ?_, rfl⟩
    rw [List.mem_flatMap]
    refine ⟨slot, List.mem_range.2 hslot, ?_⟩
    rw [List.mem_flatMap]
    refine ⟨role, mem_jobRole_all role, ?_⟩
    rw [mem_errIf]
    exact ⟨by simpa using hgt, rfl⟩

/-- C5 (amended): the validator reports a `ROLE_CAP_EXCEEDED` error if and only if
some slot and role have coverage exceeding the request's *global* per-role cap
(`job_caps`, default 999); the optional time-based overrides of `get_job_cap` are not
consulted by `_validate_role_caps`. -/
theorem C5_role_cap_error_iff_global_cap_exceeded :
    ∀ (schedule : DaySchedule) (req : ScheduleRequest) (amap : ℕ → Option Associate),
      ((validate schedule req amap).any (fun e => e.error_type == .role_cap_exceeded))
          = true
        ↔ ∃ slot, slot < schedule.total_slots ∧ ∃ role,
            (req.job_caps role).getD 999 < schedule.get_role_coverage_at_slot slot role := by
  intro schedule req amap
  unfold validate
  rw [List.any_append, Bool.or_eq_true]
  constructor
  · rintro (h | h)
    · exfalso
      rw [List.any_eq_true] at h
      obtain ⟨e, he, hp⟩ := h
      rw [List.mem_flatMap] at he
      obtain ⟨p, -, he⟩ := he
      split at he
      · rw [List.mem_singleton] at he
        subst he
        simp at hp
      · have := validateAssignment_no_role_cap _ _ _ e he
        rw [beq_iff_eq] at hp
        exact this hp
    · exact (any_validateRoleCaps _ _).1 h
  · intro h
    exact Or.inr ((any_validateRoleCaps _ _).2 h)

/-! ## Claim C9 -/

/-- Concrete instance for C9: a request with 100-minute slots.  The generator emits
candidates with `work_minutes = 200 < 240`, because the slot-count bounds are
`⌊240/100⌋ = 2` and `⌊480/100⌋ = 4`. -/
def c9Associate : Associate :=
  { id := 4, availability := fun _ => some { start_slot := 0, end_slot := 10 } }

def c9Request : ScheduleRequest :=
  { schedule_date := 0, associates := [c9Associate], slot_minutes := 100,
    job_caps := defaultJobCaps }

/-- C9 counterexample: the enumerator emits a candidate whose `work_minutes` is below
the shift policy's minimum of 240 (for slot sizes that do not divide 240), so "work
minutes within the shift policy's [min, max]" fails as stated. -/
theorem C9_counterexample :
    ((generateCandidates c9Associate c9Request 1).any
      (fun c => decide (c.work_minutes < minWorkMinutes))) = true := by decide

/-- C9 (amended): the enumerator yields no candidates when availability is off or the
(clamped) availability window is shorter than `min_work_slots`; and every candidate
it emits satisfies `end = start + work_slots + lunch_slots`, `end` within both the
availability window and the day, `work_minutes ≤ max_work_minutes` and
`work_minutes ≥ (min_work_minutes / slot_minutes) × slot_minutes` (equal to
`min_work_minutes` whenever `slot_minutes` divides it, e.g. the 15-minute default),
`work_minutes` at most the worker's daily cap, `lunch_slots` equal to the lunch
policy's duration for `work_minutes` divided by `slot_minutes`, and `break_count`
equal to the break policy's count for `work_minutes`. -/
theorem C9_generator_soundness (a : Associate) (req : ScheduleRequest)
    (step_slots : ℕ) (hstep : 1 ≤ step_slots) (hsm : 1 ≤ req.slot_minutes) :
    ((a.get_availability req.schedule_date).is_off = true →
        generateCandidates a req step_slots = []) ∧
    (min req.total_slots (a.get_availability req.schedule_date).end_slot -
        max 0 (a.get_availability req.schedule_date).start_slot
          < minWorkMinutes / req.slot_minutes →
        generateCandidates a req step_slots = []) ∧
    (∀ c ∈ generateCandidates a req step_slots,
      c.slot_minutes = req.slot_minutes ∧
      c.end_slot = c.start_slot + c.work_minutes / req.slot_minutes + c.lunch_slots ∧
      c.end_slot ≤ min req.total_slots (a.get_availability req.schedule_date).end_slot ∧
      c.work_minutes ≤ maxWorkMinutes ∧
      minWorkMinutes / req.slot_minutes * req.slot_minutes ≤ c.work_minutes ∧
      c.work_minutes ≤ a.max_minutes_per_day ∧
      c.lunch_slots = lunchDuration c.work_minutes / req.slot_minutes ∧
      c.break_count = breakCount c.work_minutes) := by
  refine ⟨?_, ?_, ?_⟩
  · intro hoff
    rw [generateCandidates_eq, if_pos hoff]
  · intro hlt
    rw [generateCandidates_eq]
    by_cases hoff : (a.get_availability req.schedule_date).is_off = true
    · rw [if_pos hoff]
    · rw [if_neg hoff, if_pos hlt]
  · intro c hc
    rw [generateCandidates_eq] at hc
    split at hc
    · simp at hc
    · split at hc
      · simp at hc
      · rw [List.mem_flatMap] at hc
        obtain ⟨start, hstart, hc⟩ := hc
        rw [List.mem_filterMap] at hc
        obtain ⟨ws, hws, hcc⟩ := hc
        have hws2 := mem_rangeStep hstep hws
        split at hcc
        · simp at hcc
        · split at hcc
          · simp at hcc
          · split at hcc
            · simp at hcc
            · rename_i hwork hend hday
              have hc := Option.some.inj hcc
              subst hc
              have hsm0 : 0 < req.slot_minutes := hsm
              refine ⟨rfl, ?_, ?_, ?_, ?_, ?_, rfl, rfl⟩
              · show start + (ws + lunchDuration (ws * req.slot_minutes) / req.slot_minutes)
                  = start + ws * req.slot_minutes / req.slot_minutes
                    + lunchDuration (ws * req.slot_minutes) / req.slot_minutes
                rw [Nat.mul_div_cancel _ hsm0]
                omega
              · show start + (ws
                    + lunchDuration (ws * req.slot_minutes) / req.slot_minutes)
                  ≤ min req.total_slots (a.get_availability req.schedule_date).end_slot
                omega
              · show ws * req.slot_minutes ≤ maxWorkMinutes
                have h1 : ws ≤ maxWorkMinutes / req.slot_minutes := by omega
                calc ws * req.slot_minutes
                    ≤ (maxWorkMinutes / req.slot_minutes) * req.slot_minutes :=
                      Nat.mul_le_mul_right _ h1
                  _ ≤ maxWorkMinutes := Nat.div_mul_le_self _ _
              · show minWorkMinutes / req.slot_minutes * req.slot_minutes
                  ≤ ws * req.slot_minutes
                exact Nat.mul_le_mul_right _ hws2.1
              · show ws * req.slot_minutes ≤ a.max_minutes_per_day
                omega

/-- The first candidate the C9 instance produces. -/
def c9Candidate : ShiftCandidate :=
  { associate_id := 4, start_slot := 0, end_slot := 2, work_minutes := 200,
    lunch_slots := 0, break_count := 0, slot_minutes := 100 }

/-- C9 witness: the amended soundness theorem applied at the concrete 100-minute-slot
instance and its first emitted candidate. -/
theorem C9_witness :
    (1 ≤ 1 ∧ 1 ≤ c9Request.slot_minutes) ∧
    (c9Candidate.slot_minutes = c9Request.slot_minutes ∧
      c9Candidate.end_slot = c9Candidate.start_slot
        + c9Candidate.work_minutes / c9Request.slot_minutes + c9Candidate.lunch_slots ∧
      c9Candidate.end_slot ≤ min c9Request.total_slots
        (c9Associate.get_availability c9Request.schedule_date).end_slot ∧
      c9Candidate.work_minutes ≤ maxWorkMinutes ∧
      minWorkMinutes / c9Request.slot_minutes * c9Request.slot_minutes
        ≤ c9Candidate.work_minutes ∧
      c9Candidate.work_minutes ≤ c9Associate.max_minutes_per_day ∧
      c9Candidate.lunch_slots = lunchDuration c9Candidate.work_minutes / c9Request.slot_minutes ∧
      c9Candidate.break_count = breakCount c9Candidate.work_minutes) :=
  ⟨⟨le_refl 1, by decide⟩,
    (C9_generator_soundness c9Associate c9Request 1 (le_refl 1) (by decide)).2.2
      c9Candidate (by decide)⟩

/-! ## Claim C1 (counterexample) -/

/-- Concrete instance for C1: two workers eligible only for GMD_SM and a request
capping GMD_SM at 1. -/
def c1Associate1 : Associate :=
  { id := 1, availability := fun _ => some { start_slot := 0, end_slot := 16 },
    supervisor_allowed_roles := fun r => r == .gmd_sm }

def c1Associate2 : Associate :=
  { id := 2, availability := fun _ => some { start_slot := 0, end_slot := 16 },
    supervisor_allowed_roles := fun r => r == .gmd_sm }

def c1Request : ScheduleRequest :=
  { schedule_date := 0, associates := [c1Associate1, c1Associate2],
    day_start_minutes := 300, day_end_minutes := 540,
    job_caps := fun r => if r == .gmd_sm then some 1 else some 999 }

def c1Map : ℕ → Option Associate := fun i =>
  if i == 1 then some c1Associate1 else if i == 2 then some c1Associate2 else none

/-- C1 counterexample: both GMD_SM-only workers are scheduled, the cap lets only one
of them take GMD_SM and neither may take PICKING, so the second worker's shift has
work periods with no role — the validator reports `NO_JOB_ASSIGNMENT` errors, and the
round-trip is not error-free. -/
theorem C1_counterexample :
    validate (heuristicSolve c1Request (generateAllCandidates c1Request 2) c1Map)
      c1Request c1Map ≠ [] := by decide

/-! ## Claim C1 (round-trip for universally-eligible-for-PICKING requests)

The counterexample above shows the literal round-trip claim fails when role caps or
eligibility starve a worker of roles.  The amended claim: at the default 15-minute
slot size, when every worker may take PICKING, the global PICKING cap is at least
the number of workers, and no time-based cap overrides are present, the validator
accepts every schedule the heuristic solver builds from generated candidates. -/

/-- The lunch policy yields one of 0, 30 or 60 minutes. -/
theorem lunchDuration_cases (w : ℕ) :
    lunchDuration w = 0 ∨ lunchDuration w = 30 ∨ lunchDuration w = 60 := by
  unfold lunchDuration
  split
  · exact Or.inl rfl
  · split
    · exact Or.inr (Or.inl rfl)
    · exact Or.inr (Or.inr rfl)

/-- The break policy yields at most two breaks. -/
theorem breakCount_le_two (w : ℕ) : breakCount w ≤ 2 := by
  unfold breakCount
  split
  · omega
  · split <;> omega

/-- Two breaks are required only from 420 work minutes up. -/
theorem breakCount_eq_two (w : ℕ) (h : breakCount w = 2) : 420 ≤ w := by
  unfold breakCount at h
  by_contra hlt
  push_neg at hlt
  rw [if_neg (by omega)] at h
  split at h <;> omega

/-- From 390 work minutes up the lunch policy requires 60 minutes. -/
theorem lunchDuration_of_390 (w : ℕ) (h : 390 ≤ w) : lunchDuration w = 60 := by
  unfold lunchDuration
  rw [if_neg (by omega), if_neg (by omega)]

/-- A single break is required only from 300 work minutes up. -/
theorem breakCount_pos (w : ℕ) (h : 1 ≤ breakCount w) : 300 ≤ w := by
  unfold breakCount at h
  by_contra hlt
  push_neg at hlt
  rw [if_neg (by omega), if_neg (by omega)] at h
  omega

/-- An `errIf` with a false condition emits nothing. -/
theorem errIf_neg {b : Bool} (e : VError) (h : b = false) : errIf b e = [] := by
  unfold errIf
  rw [h]
  rfl

/-- A `flatMap` whose body always returns `[]` is `[]`. -/
theorem flatMap_nil {α β : Type} {f : α → List β} {l : List α}
    (h : ∀ x ∈ l, f x = []) : l.flatMap f = [] := by
  induction l with
  | nil => rfl
  | cons x xs ih =>
      rw [List.flatMap_cons, h x (List.mem_cons_self x xs),
        ih (fun y hy => h y (List.mem_cons_of_mem x hy))]
      rfl

/-- The break blocks `buildAssignment` stores when the policy requires breaks:
`_place_breaks`'s blocks against the post-lunch slot states. -/
theorem placePhase_snd_fst_pos (req : ScheduleRequest) (c : ShiftCandidate)
    (st : SlotStates) (hb : c.break_count > 0) :
    ∃ st2, (placePhase req c st).2.1 = placeBreaks c (placePhase req c st).1 st2 := by
  unfold placePhase
  dsimp only
  rw [if_pos hb]
  exact ⟨_, rfl⟩

/-- With no required break, `_place_breaks` is skipped and no break is stored. -/
theorem placePhase_snd_fst_zero (req : ScheduleRequest) (c : ShiftCandidate)
    (st : SlotStates) (hb : ¬ c.break_count > 0) :
    (placePhase req c st).2.1 = [] := by
  unfold placePhase
  dsimp only
  rw [if_neg hb]

/-- The placed lunch of a generated candidate: absent exactly when the policy calls
for no lunch, and otherwise a block of `lunch_slots` slots with at least four slots
of shift on each side (at 15-minute slots). -/
theorem placePhase_lunch_facts (req : ScheduleRequest) (c : ShiftCandidate)
    (st : SlotStates) (ws : ℕ)
    (hsm : c.slot_minutes = 15)
    (hend : c.end_slot = c.start_slot + ws + c.lunch_slots)
    (hls : c.lunch_slots = lunchDuration (ws * c.slot_minutes) / c.slot_minutes) :
    (c.lunch_slots = 0 ∧ (placePhase req c st).1 = none) ∨
    (1 ≤ c.lunch_slots ∧ ∃ lb, (placePhase req c st).1 = some lb ∧
      lb.end_slot = lb.start_slot + c.lunch_slots ∧
      lb.slot_minutes = c.slot_minutes ∧
      c.start_slot + 4 ≤ lb.start_slot ∧ lb.end_slot + 4 ≤ c.end_slot) := by
  rw [placePhase_fst]
  by_cases hl : c.lunch_slots > 0
  · right
    have hm := placeLunch_margins c ws st req.is_busy_day req.day_start_minutes
      hend hls hl (by omega)
    rw [hsm] at hm
    refine ⟨hl, placeLunch c st req.is_busy_day req.day_start_minutes,
      by rw [if_pos hl], rfl, rfl, by omega, by omega⟩
  · left
    exact ⟨by omega, by rw [if_neg hl]⟩

/-- The placed breaks of a generated candidate at 15-minute slots: one single-slot
break per required break, inside the shift, off the lunch, at distinct starts. -/
theorem placePhase_break_facts (req : ScheduleRequest) (c : ShiftCandidate)
    (st : SlotStates) (ws : ℕ)
    (hsm : c.slot_minutes = 15)
    (hend : c.end_slot = c.start_slot + ws + c.lunch_slots)
    (hls : c.lunch_slots = lunchDuration (ws * c.slot_minutes) / c.slot_minutes)
    (hbc : c.break_count = breakCount (ws * c.slot_minutes))
    (hws : 1 ≤ ws) :
    (placePhase req c st).2.1.length = c.break_count ∧
    (∀ b ∈ (placePhase req c st).2.1,
      c.start_slot ≤ b.start_slot ∧ b.end_slot = b.start_slot + 1 ∧
      b.end_slot ≤ c.end_slot ∧ b.slot_minutes = c.slot_minutes ∧
      ∀ lb, (placePhase req c st).1 = some lb →
        b.start_slot < lb.start_slot ∨ lb.end_slot ≤ b.start_slot) ∧
    List.Pairwise (fun b1 b2 => b1.start_slot ≠ b2.start_slot)
      (placePhase req c st).2.1 := by
  have hlf := placePhase_lunch_facts req c st ws hsm hend hls
  have hld := lunchDuration_cases (ws * c.slot_minutes)
  by_cases hb : c.break_count > 0
  · obtain ⟨st2, hPB⟩ := placePhase_snd_fst_pos req c st hb
    rw [hPB]
    have hfacts := placeBreaks_facts c (placePhase req c st).1 st2 hsm
      (by rw [hbc]; exact breakCount_le_two _)
      (by omega)
      (by
        intro lb hlb
        rcases hlf with ⟨hl0, hnone⟩ | ⟨hl1, lb0, hsome, he0, hm0, hlo0, hhi0⟩
        · rw [hnone] at hlb
          exact absurd hlb (by simp)
        · rw [hsome] at hlb
          injection hlb with hlb
          subst hlb
          have hls2 : 2 ≤ c.lunch_slots := by
            rw [hls, hsm] at *
            omega
          exact ⟨hlo0, by omega, hhi0⟩)
      (by
        intro h2
        rcases hlf with ⟨hl0, hnone⟩ | ⟨hl1, lb0, hsome, _⟩
        · exfalso
          have h420 : 420 ≤ ws * c.slot_minutes := breakCount_eq_two _ (by rw [← hbc]; exact h2)
          have h60 : lunchDuration (ws * c.slot_minutes) = 60 :=
            lunchDuration_of_390 _ (by omega)
          rw [hls, h60, hsm] at hl0
          omega
        · rw [hsome]
          rfl)
    exact hfacts
  · have hb0 : c.break_count = 0 := by omega
    rw [placePhase_snd_fst_zero req c st hb]
    refine ⟨by rw [hb0]; rfl, ?_, List.Pairwise.nil⟩
    intro b hb2
    exact absurd hb2 (by simp)

/-- `is_on_floor` decomposed: inside the shift, not in the lunch, not in a break. -/
theorem is_on_floor_eq_true {A : ShiftAssignment} {slot : ℕ} :
    A.is_on_floor slot = true ↔
      A.shift_block.contains_slot slot = true ∧
      (A.lunch_block.map (fun b => b.contains_slot slot)).getD false = false ∧
      A.break_blocks.any (fun b => b.contains_slot slot) = false := by
  unfold ShiftAssignment.is_on_floor
  cases h1 : A.shift_block.contains_slot slot <;>
    cases h2 : (A.lunch_block.map fun b => b.contains_slot slot).getD false <;>
      cases h3 : A.break_blocks.any fun b => b.contains_slot slot <;>
        simp [h1, h2, h3]

/-- Every on-floor slot of a built assignment carries a role: the work periods
partition the on-floor slots and `_assign_roles` covers every work period when the
worker may pick. -/
theorem built_get_role_at_isSome (req : ScheduleRequest) (c : ShiftCandidate)
    (a : Associate) (st : SlotStates) (ws : ℕ) (slot : ℕ)
    (hsm : c.slot_minutes = 15)
    (hend : c.end_slot = c.start_slot + ws + c.lunch_slots)
    (hls : c.lunch_slots = lunchDuration (ws * c.slot_minutes) / c.slot_minutes)
    (hbc : c.break_count = breakCount (ws * c.slot_minutes))
    (hws : 1 ≤ ws)
    (hpick : a.eligible .picking = true)
    (hfl : (buildAssignment req c a st).1.is_on_floor slot = true) :
    ((buildAssignment req c a st).1.get_role_at_slot slot).isSome = true := by
  have hlf := placePhase_lunch_facts req c st ws hsm hend hls
  have hbf := placePhase_break_facts req c st ws hsm hend hls hbc hws
  have hLB : (buildAssignment req c a st).1.lunch_block = (placePhase req c st).1 := rfl
  have hBB : (buildAssignment req c a st).1.break_blocks
      = (placePhase req c st).2.1 := rfl
  rw [is_on_floor_eq_true, hLB, hBB] at hfl
  obtain ⟨hin, hlunchoff, hbreakoff⟩ := hfl
  have hin2 : c.start_slot ≤ slot ∧ slot < c.end_slot := by
    unfold ShiftAssignment.shift_block ScheduleBlock.contains_slot at hin
    simp only [Bool.and_eq_true, decide_eq_true_eq] at hin
    exact hin
  have hLB2 : (buildBase req c st).lunch_block = (placePhase req c st).1 := rfl
  have hBB2 : (buildBase req c st).break_blocks = (placePhase req c st).2.1 := rfl
  have hbreakoff2 : ∀ b ∈ (placePhase req c st).2.1,
      b.contains_slot slot = false := by
    intro b hbmem
    cases hc2 : b.contains_slot slot
    · rfl
    · exfalso
      have : (placePhase req c st).2.1.any (fun b => b.contains_slot slot) = true :=
        List.any_eq_true.2 ⟨b, hbmem, hc2⟩
      rw [hbreakoff] at this
      exact Bool.noConfusion this
  have hoffmem : ∀ p ∈ offBlocks (buildBase req c st),
      (∃ lb, (placePhase req c st).1 = some lb ∧ p = (lb.start_slot, lb.end_slot)) ∨
      (∃ b ∈ (placePhase req c st).2.1, p = (b.start_slot, b.end_slot)) := by
    intro p hp
    unfold offBlocks at hp
    rw [hLB2, hBB2] at hp
    rcases List.mem_append.1 hp with h | h
    · left
      cases ho : (placePhase req c st).1 with
      | none =>
          rw [ho] at h
          exact absurd h (by simp)
      | some lb =>
          rw [ho] at h
          simp only [List.mem_singleton] at h
          exact ⟨lb, rfl, h⟩
    · right
      rcases List.mem_map.1 h with ⟨b, hb, hbp⟩
      exact ⟨b, hb, hbp.symm⟩
  have hdisj : (offBlocks (buildBase req c st)).Pairwise
      (fun p q => p.2 ≤ q.1 ∨ q.2 ≤ p.1) := by
    unfold offBlocks
    rw [hLB2, hBB2]
    rw [List.pairwise_append]
    refine ⟨?_, ?_, ?_⟩
    · cases (placePhase req c st).1
      · exact List.Pairwise.nil
      · exact List.pairwise_singleton _ _
    · rw [List.pairwise_map]
      refine List.Pairwise.imp_of_mem ?_ hbf.2.2
      intro b1 b2 h1 h2 hne
      have f1 := hbf.2.1 b1 h1
      have f2 := hbf.2.1 b2 h2
      dsimp only
      omega
    · intro x hx y hy
      cases ho : (placePhase req c st).1 with
      | none =>
          rw [ho] at hx
          exact absurd hx (by simp)
      | some lb =>
          rw [ho] at hx
          simp only [List.mem_singleton] at hx
          subst hx
          rcases List.mem_map.1 hy with ⟨b, hb, hbp⟩
          subst hbp
          have fb := hbf.2.1 b hb
          have hlb := fb.2.2.2.2 lb ho
          dsimp only
          omega
  have hne : ∀ p ∈ offBlocks (buildBase req c st), p.1 < p.2 := by
    intro p hp
    rcases hoffmem p hp with ⟨lb, ho, hpe⟩ | ⟨b, hb, hpe⟩
    · subst hpe
      rcases hlf with ⟨_, hnone⟩ | ⟨hl1, lb0, hsome, he0, _, _, _⟩
      · rw [hnone] at ho
        exact absurd ho (by simp)
      · rw [hsome] at ho
        injection ho with ho
        subst ho
        dsimp only
        omega
    · subst hpe
      have fb := hbf.2.1 b hb
      dsimp only
      omega
  have hhi : ∀ p ∈ offBlocks (buildBase req c st), p.2 ≤ c.end_slot := by
    intro p hp
    rcases hoffmem p hp with ⟨lb, ho, hpe⟩ | ⟨b, hb, hpe⟩
    · subst hpe
      rcases hlf with ⟨_, hnone⟩ | ⟨hl1, lb0, hsome, he0, _, _, hhi0⟩
      · rw [hnone] at ho
        exact absurd ho (by simp)
      · rw [hsome] at ho
        injection ho with ho
        subst ho
        dsimp only
        omega
    · subst hpe
      have fb := hbf.2.1 b hb
      dsimp only
      omega
  have hnot : ∀ p ∈ offBlocks (buildBase req c st), ¬(p.1 ≤ slot ∧ slot < p.2) := by
    intro p hp
    rcases hoffmem p hp with ⟨lb, ho, hpe⟩ | ⟨b, hb, hpe⟩
    · subst hpe
      rw [ho] at hlunchoff
      dsimp only [Option.map, Option.getD] at hlunchoff
      unfold ScheduleBlock.contains_slot at hlunchoff
      simp only [Bool.and_eq_false_iff, decide_eq_false_iff_not] at hlunchoff
      dsimp only
      omega
    · subst hpe
      have hcb := hbreakoff2 b hb
      unfold ScheduleBlock.contains_slot at hcb
      simp only [Bool.and_eq_false_iff, decide_eq_false_iff_not] at hcb
      dsimp only
      omega
  obtain ⟨wp, hwp, hwps, hwpe⟩ := getWorkPeriods_covers c (buildBase req c st) slot
    hin2.1 hin2.2 hdisj hne hhi hnot
  obtain ⟨ja, hja, hjab⟩ := assignRoles_covers c (buildBase req c st) a
    (placePhase req c st).2.2 req.job_caps req.slot_range_caps hpick wp hwp
  have hJA : (buildAssignment req c a st).1.job_assignments
      = (assignRoles c (buildBase req c st) a (placePhase req c st).2.2
          req.job_caps req.slot_range_caps).1 := rfl
  have hfind : ((assignRoles c (buildBase req c st) a (placePhase req c st).2.2
      req.job_caps req.slot_range_caps).1.find?
        (fun j => j.block.contains_slot slot)).isSome = true := by
    rw [List.find?_isSome]
    refine ⟨ja, hja, ?_⟩
    unfold ScheduleBlock.contains_slot
    rw [hjab]
    simp only [Bool.and_eq_true, decide_eq_true_eq]
    exact ⟨hwps, hwpe⟩
  unfold ShiftAssignment.get_role_at_slot
  rw [hJA]
  cases hfo : (assignRoles c (buildBase req c st) a (placePhase req c st).2.2
      req.job_caps req.slot_range_caps).1.find? (fun j => j.block.contains_slot slot) with
  | none =>
      rw [hfo] at hfind
      exact Bool.noConfusion hfind
  | some j0 =>
      rfl

/-- The validator accepts every assignment the heuristic solver builds from a
generated candidate, at 15-minute slots, for a worker who may take PICKING. -/
theorem validateAssignment_built (req : ScheduleRequest) (c : ShiftCandidate)
    (a : Associate) (st : SlotStates) (ws : ℕ)
    (hsm : c.slot_minutes = 15)
    (hoff : (a.get_availability req.schedule_date).is_off = false)
    (havs : (a.get_availability req.schedule_date).start_slot ≤ c.start_slot)
    (have2 : c.end_slot ≤ (a.get_availability req.schedule_date).end_slot)
    (hday : c.end_slot ≤ req.total_slots)
    (hmax : c.work_minutes ≤ a.max_minutes_per_day)
    (hws16 : 16 ≤ ws) (hws32 : ws ≤ 32)
    (hend : c.end_slot = c.start_slot + ws + c.lunch_slots)
    (hwork : c.work_minutes = ws * c.slot_minutes)
    (hls : c.lunch_slots = lunchDuration (ws * c.slot_minutes) / c.slot_minutes)
    (hbc : c.break_count = breakCount (ws * c.slot_minutes))
    (hpick : a.eligible .picking = true) :
    validateAssignment (buildAssignment req c a st).1 a req = [] := by
  have hW := buildAssignment_work_minutes req c a st ws hend hwork
  have hSS : (buildAssignment req c a st).1.shift_start_slot = c.start_slot := rfl
  have hSE : (buildAssignment req c a st).1.shift_end_slot = c.end_slot := rfl
  have hLB : (buildAssignment req c a st).1.lunch_block = (placePhase req c st).1 := rfl
  have hBB : (buildAssignment req c a st).1.break_blocks
      = (placePhase req c st).2.1 := rfl
  have hJA : (buildAssignment req c a st).1.job_assignments
      = (assignRoles c (buildBase req c st) a (placePhase req c st).2.2
          req.job_caps req.slot_range_caps).1 := rfl
  have hlf := placePhase_lunch_facts req c st ws hsm hend hls
  have hbf := placePhase_break_facts req c st ws hsm hend hls hbc (by omega)
  have happ : ∀ (l1 l2 : List VError), l1 = [] → l2 = [] → l1 ++ l2 = [] := by
    intro l1 l2 h1 h2
    rw [h1, h2]
    rfl
  unfold validateAssignment
  dsimp only
  refine happ _ _ (happ _ _ (happ _ _ (happ _ _ (happ _ _ (happ _ _ (happ _ _
    (happ _ _ (happ _ _ (happ _ _ (happ _ _ ?_ ?_) ?_) ?_) ?_) ?_) ?_) ?_) ?_)
      ?_) ?_) ?_
  -- 1: shift within the day
  · exact errIf_neg _ (decide_eq_false (by rw [hSE]; omega))
  -- 2: shift within availability
  · rw [hoff, if_neg (by simp),
      errIf_neg _ (decide_eq_false (by rw [hSS]; omega)),
      errIf_neg _ (decide_eq_false (by rw [hSE]; omega))]
    rfl
  -- 3: work not too short
  · refine errIf_neg _ (decide_eq_false ?_)
    rw [hW, hwork, hsm]
    show ¬(ws * 15 < 240)
    omega
  -- 4: work not too long
  · refine errIf_neg _ (decide_eq_false ?_)
    rw [hW, hwork, hsm]
    show ¬(ws * 15 > 480)
    omega
  -- 5: lunch duration matches the policy
  · have hLM : (buildAssignment req c a st).1.lunch_minutes
        = lunchDuration (ws * c.slot_minutes) := by
      unfold ShiftAssignment.lunch_minutes
      rw [hLB]
      have hcases := lunchDuration_cases (ws * c.slot_minutes)
      rcases hlf with ⟨hl0, hnone⟩ | ⟨hl1, lb, hsome, he0, hm0, _, _⟩
      · rw [hnone]
        dsimp only
        rw [hls, hsm] at hl0
        rw [hsm] at hcases ⊢
        omega
      · rw [hsome]
        dsimp only
        unfold ScheduleBlock.duration_minutes
        rw [he0, hm0, Nat.add_sub_cancel_left, hls, hsm]
        rw [hsm] at hcases
        omega
    refine errIf_neg _ (decide_eq_false ?_)
    rw [hLM, hW, hwork]
    exact fun h => h rfl
  -- 6: lunch inside the shift
  · rw [hLB]
    rcases hlf with ⟨hl0, hnone⟩ | ⟨hl1, lb, hsome, he0, hm0, hlo0, hhi0⟩
    · rw [hnone]
    · rw [hsome]
      dsimp only
      rw [errIf_neg _ (decide_eq_false (by rw [hSS]; omega)),
        errIf_neg _ (decide_eq_false (by rw [hSE]; omega))]
      rfl
  -- 7: break count matches the policy
  · refine errIf_neg _ (decide_eq_false ?_)
    rw [hBB, hbf.1, hbc, hW, hwork]
    exact fun h => h rfl
  -- 8: per-break checks
  · refine flatMap_nil ?_
    intro b hbm
    rw [hBB] at hbm
    have fb := hbf.2.1 b hbm
    have hb1 : errIf (decide (b.duration_minutes ≠ breakDurationMinutes))
        { error_type := .invalid_break_duration,
          associate_id := some (buildAssignment req c a st).1.associate_id } = [] := by
      refine errIf_neg _ (decide_eq_false ?_)
      unfold ScheduleBlock.duration_minutes
      rw [fb.2.1, fb.2.2.2.1, hsm]
      show ¬((b.start_slot + 1 - b.start_slot) * 15 ≠ breakDurationMinutes)
      unfold breakDurationMinutes
      omega
    rw [hb1,
      errIf_neg _ (decide_eq_false (by rw [hSS]; omega)),
      errIf_neg _ (decide_eq_false (by rw [hSE]; omega)),
      hLB]
    rcases hlf with ⟨hl0, hnone⟩ | ⟨hl1, lb, hsome, he0, hm0, hlo0, hhi0⟩
    · rw [hnone]
      rfl
    · rw [hsome]
      dsimp only
      have hdisj := fb.2.2.2.2 lb hsome
      have hov : b.overlaps lb = false := by
        unfold ScheduleBlock.overlaps
        rcases hdisj with h | h
        · rw [decide_eq_false (show ¬(lb.start_slot < b.end_slot) by omega),
            Bool.and_false]
        · rw [decide_eq_false (show ¬(b.start_slot < lb.end_slot) by omega),
            Bool.false_and]
      rw [errIf_neg _ hov]
      rfl
  -- 9: breaks pairwise disjoint
  · refine flatMap_nil ?_
    intro i hi
    refine flatMap_nil ?_
    intro j hj
    split
    next hij =>
      cases hbi : (buildAssignment req c a st).1.break_blocks[i]? with
      | none => rfl
      | some b1 =>
          cases hbj : (buildAssignment req c a st).1.break_blocks[j]? with
          | none => rfl
          | some b2 =>
              rw [hBB] at hbi hbj
              obtain ⟨hilt, hieq⟩ := List.getElem?_eq_some.1 hbi
              obtain ⟨hjlt, hjeq⟩ := List.getElem?_eq_some.1 hbj
              have hne2 : b1.start_slot ≠ b2.start_slot := by
                have hp := List.pairwise_iff_getElem.1 hbf.2.2 i j hilt hjlt hij
                rw [hieq, hjeq] at hp
                exact hp
              have f1 := hbf.2.1 b1 (hieq ▸ List.getElem_mem hilt)
              have f2 := hbf.2.1 b2 (hjeq ▸ List.getElem_mem hjlt)
              have hov : b1.overlaps b2 = false := by
                unfold ScheduleBlock.overlaps
                rcases Nat.lt_or_ge b1.start_slot b2.start_slot with h | h
                · rw [decide_eq_false (show ¬(b2.start_slot < b1.end_slot) by omega),
                    Bool.and_false]
                · rw [decide_eq_false (show ¬(b1.start_slot < b2.end_slot) by omega),
                    Bool.false_and]
              exact errIf_neg _ hov
    next hij => rfl
  -- 10: role eligibility
  · refine flatMap_nil ?_
    intro ja hj
    rw [hJA] at hj
    have hsound := (assignRoles_sound c (buildBase req c st) a
      (placePhase req c st).2.2 req.job_caps req.slot_range_caps ja hj).1
    unfold Associate.eligible at hsound
    rw [Bool.and_eq_true] at hsound
    have hsup := hsound.1
    have hcannot : a.cannot_do_roles ja.role = false := by
      have h2 := hsound.2
      cases h3 : a.cannot_do_roles ja.role
      · rfl
      · rw [h3] at h2
        exact absurd h2 (by simp)
    rw [errIf_neg _ (by rw [hsup]; rfl), errIf_neg _ hcannot]
    rfl
  -- 11: daily maximum
  · exact errIf_neg _ (decide_eq_false (by rw [hW]; omega))
  -- 12: every on-floor slot has a role
  · refine flatMap_nil ?_
    intro slot hsl
    cases hfl : (buildAssignment req c a st).1.is_on_floor slot with
    | false =>
        rfl
    | true =>
        rw [if_pos rfl]
        have hsome := built_get_role_at_isSome req c a st ws slot hsm hend hls hbc
          (by omega) hpick hfl
        obtain ⟨r, hr⟩ := Option.isSome_iff_exists.1 hsome
        rw [hr]

/-- Append of two empty lists is empty. -/
theorem append_nil_of {α : Type} {l1 l2 : List α} (h1 : l1 = []) (h2 : l2 = []) :
    l1 ++ l2 = [] := by
  rw [h1, h2]
  rfl

/-- The per-candidate loop appends at most one assignment per candidate. -/
theorem foldl_processCandidate_length (req : ScheduleRequest)
    (amap : ℕ → Option Associate) :
    ∀ (l : List ShiftCandidate) (acc : List (ℕ × ShiftAssignment) × SlotStates),
      (l.foldl (processCandidate req amap) acc).1.length
        ≤ acc.1.length + l.length := by
  intro l
  induction l with
  | nil =>
      intro acc
      simp
  | cons x xs ih =>
      intro acc
      rw [List.foldl_cons]
      have h1 := ih (processCandidate req amap acc x)
      have h2 : (processCandidate req amap acc x).1.length ≤ acc.1.length + 1 := by
        unfold processCandidate
        cases amap x.associate_id
        · dsimp only
          omega
        · dsimp only
          rw [List.length_append]
          simp
      simp only [List.length_cons]
      omega

/-- `_select_shifts` keeps at most one candidate per associate entry. -/
theorem foldl_selectStep_length (b s : Bool) (bl : List ShiftBlockConfig)
    (sl : List ShiftStartConfig) :
    ∀ (l : List (ℕ × List ShiftCandidate))
      (acc : List ShiftCandidate × SlotStates × (ShiftBlockType → ℕ) × (ℕ → ℕ)),
      (l.foldl (selectStep b s bl sl) acc).1.length ≤ acc.1.length + l.length := by
  intro l
  induction l with
  | nil =>
      intro acc
      simp
  | cons x xs ih =>
      intro acc
      rw [List.foldl_cons]
      have h1 := ih (selectStep b s bl sl acc x)
      have h2 : (selectStep b s bl sl acc x).1.length ≤ acc.1.length + 1 := by
        unfold selectStep
        obtain ⟨sel, st, bst, sst⟩ := acc
        dsimp only
        split
        · dsimp only
          omega
        · split
          · dsimp only
            omega
          · dsimp only
            rw [List.length_append]
            simp
      simp only [List.length_cons]
      omega

/-- The schedule holds at most one assignment per candidate-dictionary entry. -/
theorem heuristicSolve_assignments_length (req : ScheduleRequest)
    (cands : List (ℕ × List ShiftCandidate)) (amap : ℕ → Option Associate) :
    (heuristicSolve req cands amap).assignments.length ≤ cands.length := by
  rw [heuristicSolve_assignments]
  have h1 := foldl_processCandidate_length req amap
    (stableSortBy (fun c d => decide (c.start_slot ≤ d.start_slot))
      (selectShifts cands initialSlotStates req.shift_block_configs
        req.shift_start_configs).1)
    ([], (selectShifts cands initialSlotStates req.shift_block_configs
      req.shift_start_configs).2.1)
  have h2 := (perm_stableSortBy (fun c d : ShiftCandidate =>
      decide (c.start_slot ≤ d.start_slot))
    (selectShifts cands initialSlotStates req.shift_block_configs
      req.shift_start_configs).1).length_eq
  have h3 : (selectShifts cands initialSlotStates req.shift_block_configs
      req.shift_start_configs).1.length ≤ cands.length := by
    unfold selectShifts
    have h4 := foldl_selectStep_length (optTruthy req.shift_block_configs)
      (optTruthy req.shift_start_configs) (req.shift_block_configs.getD [])
      (req.shift_start_configs.getD [])
      (stableSortBy (fun p q : ℕ × List ShiftCandidate =>
        decide (p.2.length ≤ q.2.length)) cands)
      ([], initialSlotStates, (fun _ => 0), (fun _ => 0))
    have h5 := (perm_stableSortBy (fun p q : ℕ × List ShiftCandidate =>
      decide (p.2.length ≤ q.2.length)) cands).length_eq
    dsimp only
    simp only [List.length_nil] at h4
    omega
  simp only [List.length_nil] at h1
  omega

/-- C1 (amended): the heuristic round-trip is error-free under the conditions the
solver's uncapped PICKING fallback needs — at the default 15-minute slot size, with
no time-based cap overrides, an associate map registering every worker of the
request, every worker eligible for PICKING, and a global PICKING cap of at least the
number of workers, validating the `DaySchedule` the heuristic solver builds from the
generated candidates against the originating request yields zero errors.  (Without
these conditions the round-trip fails: see the counterexample above.) -/
theorem C1_round_trip_zero_errors (req : ScheduleRequest) (step_slots : ℕ)
    (amap : ℕ → Option Associate)
    (hsm : req.slot_minutes = 15)
    (hstep : 1 ≤ step_slots)
    (hsrc : req.slot_range_caps = none)
    (hamap : ∀ x ∈ req.associates, amap x.id = some x)
    (hpick : ∀ x ∈ req.associates, x.eligible .picking = true)
    (hcap : req.associates.length ≤ (req.job_caps .picking).getD 999) :
    validate (heuristicSolve req (generateAllCandidates req step_slots) amap)
      req amap = [] := by
  unfold validate
  refine append_nil_of ?_ ?_
  · refine flatMap_nil ?_
    intro p hp
    rw [heuristicSolve_assignments] at hp
    rcases mem_foldl_processCandidate req amap _ _ p hp with h | ⟨c, hc, a0, st2, ha0, hpe⟩
    · exact absurd h (by simp)
    · have hc2 := mem_stableSortBy.1 hc
      obtain ⟨entry, hentry, hce⟩ := mem_selectShifts _ _ _ _ c hc2
      obtain ⟨a1, ha1mem, hid1, hcs⟩ :=
        mem_generateAllCandidates_entry req step_slots entry hentry
      rw [hcs] at hce
      obtain ⟨hid2, hslm, hoff, havs, have2, hday, hmax, ws, hws1, hws2, hend,
        hwork0, hls0, hbc0⟩ := mem_generateCandidates_full a1 req step_slots c hstep hce
      have ha1 : amap c.associate_id = some a1 := by
        rw [hid2]
        exact hamap a1 ha1mem
      have haa : a0 = a1 := by
        rw [ha0] at ha1
        exact Option.some.inj ha1
      subst haa
      subst hpe
      dsimp only
      rw [ha0]
      have e1 : minWorkMinutes / req.slot_minutes = 16 := by
        rw [hsm]
        rfl
      have e2 : maxWorkMinutes / req.slot_minutes = 32 := by
        rw [hsm]
        rfl
      exact validateAssignment_built req c a0 st2 ws (hslm.trans hsm) hoff havs have2
        hday hmax (by omega) (by omega) hend
        (by rw [hslm]; exact hwork0)
        (by rw [hslm]; exact hls0)
        (by rw [hslm]; exact hbc0)
        (hpick a0 ha1mem)
  · unfold validateRoleCaps
    refine flatMap_nil ?_
    intro slot hslot
    refine flatMap_nil ?_
    intro role hrole
    dsimp only
    refine errIf_neg _ (decide_eq_false ?_)
    intro hgt
    by_cases hr : role = .picking
    · subst hr
      have h1 : (heuristicSolve req (generateAllCandidates req step_slots)
            amap).get_role_coverage_at_slot slot .picking
          ≤ (heuristicSolve req (generateAllCandidates req step_slots)
              amap).assignments.length := List.length_filter_le _ _
      have h2 := heuristicSolve_assignments_length req
        (generateAllCandidates req step_slots) amap
      have h3 : (generateAllCandidates req step_slots).length
          ≤ req.associates.length := List.length_filterMap_le _ _
      omega
    · have h2 := heuristicSolve_role_coverage_le_cap req
        (generateAllCandidates req step_slots) amap slot role hr
      rw [hsrc] at h2
      unfold getCapForSlot at h2
      dsimp only at h2
      omega

/-- Concrete instance for the C1 witness: one worker, available all day, default
caps, eligible for every role. -/
def c1wAssociate : Associate :=
  { id := 1, availability := fun _ => some { start_slot := 0, end_slot := 36 } }

def c1wRequest : ScheduleRequest :=
  { schedule_date := 0, associates := [c1wAssociate], job_caps := defaultJobCaps }

def c1wMap : ℕ → Option Associate := fun i =>
  if i == 1 then some c1wAssociate else none

/-- C1 witness: the amended round-trip instantiated at a concrete one-worker
request with the default 15-minute slots and caps. -/
theorem C1_witness :
    c1wRequest.slot_minutes = 15 ∧ (1 : ℕ) ≤ 2 ∧ c1wRequest.slot_range_caps = none ∧
    (∀ x ∈ c1wRequest.associates, c1wMap x.id = some x) ∧
    (∀ x ∈ c1wRequest.associates, x.eligible .picking = true) ∧
    c1wRequest.associates.length ≤ (c1wRequest.job_caps .picking).getD 999 ∧
    validate (heuristicSolve c1wRequest (generateAllCandidates c1wRequest 2) c1wMap)
      c1wRequest c1wMap = [] :=
  ⟨rfl, by decide, rfl,
   by
    intro x hx
    have hx2 : x ∈ [c1wAssociate] := hx
    rw [List.mem_singleton] at hx2
    subst hx2
    rfl,
   by
    intro x hx
    have hx2 : x ∈ [c1wAssociate] := hx
    rw [List.mem_singleton] at hx2
    subst hx2
    rfl,
   by decide,
   C1_round_trip_zero_errors c1wRequest 2 c1wMap rfl (by decide) rfl
     (by
      intro x hx
      have hx2 : x ∈ [c1wAssociate] := hx
      rw [List.mem_singleton] at hx2
      subst hx2
      rfl)
     (by
      intro x hx
      have hx2 : x ∈ [c1wAssociate] := hx
      rw [List.mem_singleton] at hx2
      subst hx2
      rfl)
     (by decide)⟩

end OGP
